import Mathlib

/-!
# Graph.cpp: shortest paths, distance ranking and radius queries

A shallow embedding of `TopologicalGraph`, `UndirectedGraph` and `DirectedGraph`
from `src/Graph.cpp`.

Modelling conventions.

* `Distance` is the integer type of the source; sums are exact integer sums, so the
  theorems speak about runs in which no sum leaves the range of `Distance`.
* A `vector<vector<T>>` is a `Table`: a total function of the row and column index.
  A write is a pointwise update (`setCell`); reads outside the allocated square,
  undefined in the source, are not constrained by any theorem.
* The caches `shortestDist` and `distSeq` are empty vectors until a constructor or a
  solver assigns them.  The fields `shortestDistSize` and `distSeqSize` hold their
  `size()`: 0 while empty, `vertexAllocNum` once assigned.  The checked accessors
  (`checkedDistance`, `checkedNthClosestVertex` and the queries built on them) return
  `none` for a read outside that size, which is undefined in the source.
* Vertex ids and ranks are natural numbers (`minVertexIndex >= 0`).  The loop
  `for (int i = minVertexIndex; i <= maxVertexIndex; i++)` visits
  `minVertexIndex, ..., minVertexIndex + vertexNum - 1`, which is
  `List.range' minVertexIndex vertexNum`; it is written `vertices g` below.
* `Graph.h` is not part of the sources at hand.  `MAX_DISTANCE` is a parameter `M`,
  and the one-line accessors `distance` and `nthClosestVertex` are modelled from the
  specification.
* `std::sort` is library code: it is a parameter `sort`, constrained only by the
  contract of the C++ standard (`StdSortSpec`).
-/

namespace Graph

abbrev Distance := Int

/-- A `vector<vector<T>>`: the cell at row `r`, column `c` is `cell r c`. -/
structure Table (α : Type) where
  cell : Nat → Nat → α

abbrev DistanceMatrix := Table Distance

abbrev DistSeqTable := Table Nat

/-- An arc of an `ArcList`: `startVertex`, `endVertex`, `dist`. -/
structure Arc where
  startVertex : Nat
  endVertex : Nat
  dist : Distance
  deriving DecidableEq, Repr

abbrev ArcList := List Arc

/-- The data members of `TopologicalGraph`.  `vertexNum` is the member of the base
class `Graph`; `maxVertexIndex` is derived from it (see `maxVertexIndex`).
`shortestDistSize` and `distSeqSize` are the `size()` of the vectors `shortestDist` and
`distSeq` (square tables: every row has the same size). -/
structure TopologicalGraph where
  vertexNum : Nat
  minVertexIndex : Nat
  vertexAllocNum : Nat
  adjMat : DistanceMatrix
  shortestDist : DistanceMatrix
  distSeq : DistSeqTable
  shortestDistSolved : Bool
  distSeqSolved : Bool
  shortestDistSize : Nat
  distSeqSize : Nat

/-- The member `maxVertexIndex( vn + mvi - 1 )`; it is `-1` for the empty graph
with min index 0, hence an integer. -/
def maxVertexIndex (g : TopologicalGraph) : Int :=
  (g.vertexNum : Int) + (g.minVertexIndex : Int) - 1

/-- The values taken by `i` in `for (i = minVertexIndex; i <= maxVertexIndex; i++)`. -/
def vertices (g : TopologicalGraph) : List Nat :=
  List.range' g.minVertexIndex g.vertexNum

/-- Membership test `minVertexIndex <= v <= maxVertexIndex`. -/
def InRange (g : TopologicalGraph) (v : Nat) : Prop :=
  g.minVertexIndex ≤ v ∧ v < g.minVertexIndex + g.vertexNum

instance (g : TopologicalGraph) (v : Nat) : Decidable (InRange g v) := by
  unfold InRange; infer_instance

/-- The assignment `m[r][c] = v`. -/
def setCell {α : Type} (m : Table α) (r c : Nat) (v : α) : Table α :=
  ⟨fun r' c' => if r' = r ∧ c' = c then v else m.cell r' c'⟩

/-- Constructor `TopologicalGraph( vn, mvi )`: every cell of `adjMat` is
`MAX_DISTANCE`, then the diagonal of the valid range is zeroed.  The members
`shortestDist` and `distSeq` are not in the initialiser list: they are empty vectors,
of size 0, and their cells stand for nothing. -/
def TopologicalGraph.new (M : Distance) (vn mvi : Nat) : TopologicalGraph where
  vertexNum := vn
  minVertexIndex := mvi
  vertexAllocNum := vn + mvi
  adjMat := (List.range' mvi vn).foldl (fun m i => setCell m i i 0) ⟨fun _ _ => M⟩
  shortestDist := ⟨fun _ _ => 0⟩
  distSeq := ⟨fun _ _ => 0⟩
  shortestDistSolved := false
  distSeqSolved := false
  shortestDistSize := 0
  distSeqSize := 0

/-- Constructor `UndirectedGraph( arcList, vn, mvi )`. -/
def UndirectedGraph (M : Distance) (arcList : ArcList) (vn mvi : Nat) : TopologicalGraph :=
  let g := TopologicalGraph.new M vn mvi
  let adj := arcList.foldl
    (fun m a => setCell (setCell m a.startVertex a.endVertex a.dist)
      a.endVertex a.startVertex a.dist) g.adjMat
  { g with adjMat := adj }

/-- Constructor `DirectedGraph( arcList, vn, mvi )`. -/
def DirectedGraph (M : Distance) (arcList : ArcList) (vn mvi : Nat) : TopologicalGraph :=
  let g := TopologicalGraph.new M vn mvi
  let adj := arcList.foldl (fun m a => setCell m a.startVertex a.endVertex a.dist) g.adjMat
  { g with adjMat := adj }

/-- Modelled from the spec: `GeometricalGraph` (declared in the absent `Graph.h`) is a
list of 2-D points with integer coordinates; `vertexNum` is its length and `point( i )`
its `i`-th element. -/
structure GeometricalGraph where
  points : List (Int × Int)

def GeometricalGraph.vertexNum (gg : GeometricalGraph) : Nat := gg.points.length

def GeometricalGraph.point (gg : GeometricalGraph) (i : Nat) : Int × Int :=
  gg.points.getD i (0, 0)

/-- Constructor `UndirectedGraph( gg )`: squared Euclidean distances, and the
distance matrix is declared solved without running a solver.  The assignment
`shortestDist = adjMat` gives `shortestDist` the size of `adjMat`. -/
def UndirectedGraph.ofPoints (M : Distance) (gg : GeometricalGraph) : TopologicalGraph :=
  let g := TopologicalGraph.new M gg.vertexNum 0
  let adj := (List.range' 0 gg.vertexNum).foldl
    (fun m i =>
      let m1 := (List.range' 0 i).foldl
        (fun m j =>
          let dx := (gg.point i).1 - (gg.point j).1
          let dy := (gg.point i).2 - (gg.point j).2
          setCell (setCell m j i (dx * dx + dy * dy)) i j (dx * dx + dy * dy)) m
      setCell m1 i i 0) g.adjMat
  { g with adjMat := adj, shortestDist := adj, shortestDistSolved := true,
           shortestDistSize := g.vertexAllocNum }

/-- Modelled from the spec: the accessor `distance( start, end )` of the absent
`Graph.h` reads `shortestDist[start][end]`. -/
def distance (g : TopologicalGraph) (s e : Nat) : Distance := g.shortestDist.cell s e

/-- Modelled from the spec: the accessor `nthClosestVertex( start, n )` of the absent
`Graph.h` reads `distSeq[start][n]`. -/
def nthClosestVertex (g : TopologicalGraph) (s n : Nat) : Nat := g.distSeq.cell s n

/-- One pass of the innermost loop body of `getShortestPathByFloyd`. -/
def floydRelax (i j k : Nat) (d : DistanceMatrix) : DistanceMatrix :=
  let newDist := d.cell j i + d.cell i k
  if newDist < d.cell j k then setCell d j k newDist else d

/-- The three nested loops of `getShortestPathByFloyd`, started on `d`. -/
def floydLoops (vs : List Nat) (d : DistanceMatrix) : DistanceMatrix :=
  vs.foldl (fun d i => vs.foldl (fun d j => vs.foldl (fun d k => floydRelax i j k d) d) d) d

/-- `getShortestPathByFloyd`.  The assignment `shortestDist = adjMat` gives
`shortestDist` the size of `adjMat`, which is `vertexAllocNum`. -/
def getShortestPathByFloyd (g : TopologicalGraph) : TopologicalGraph :=
  { g with shortestDist := floydLoops (vertices g) g.adjMat,
           shortestDistSize := g.vertexAllocNum }

/-- State of one `startVertex` iteration of `getShortestPathByDijkstra`:
the distance matrix and `vertexState` (`true` is `IN_SET`). -/
structure DijkstraState where
  dist : DistanceMatrix
  inSet : Nat → Bool

/-- The scan `find the closest vertex outside the final set`, started with
`closestVertex = 0`. -/
def dijkstraClosest (vs : List Nat) (s : Nat) (st : DijkstraState) : Nat :=
  vs.foldl (fun c i => if st.inSet i = false ∧ st.dist.cell s i < st.dist.cell s c then i else c) 0

/-- The update loop of `getShortestPathByDijkstra` through `closestVertex = c`. -/
def dijkstraUpdate (vs : List Nat) (s c : Nat) (st : DijkstraState) : DijkstraState :=
  vs.foldl (fun st i =>
    let newDist := st.dist.cell s c + st.dist.cell c i
    if st.inSet i = false ∧ newDist < st.dist.cell s i then
      { st with dist := setCell st.dist s i newDist }
    else st) st

/-- One iteration of the `k` loop of `getShortestPathByDijkstra`. -/
def dijkstraStep (vs : List Nat) (s : Nat) (st : DijkstraState) : DijkstraState :=
  let c := dijkstraClosest vs s st
  let st1 : DijkstraState := { st with inSet := fun v => if v = c then true else st.inSet v }
  dijkstraUpdate vs s c st1

/-- The body of the `startVertex` loop: `vertexNum - 1` rounds of `dijkstraStep`
(the loop `for (k = minVertexIndex; k < maxVertexIndex; k++)`). -/
def dijkstraFrom (g : TopologicalGraph) (d : DistanceMatrix) (s : Nat) : DistanceMatrix :=
  let st0 : DijkstraState := { dist := d, inSet := fun v => decide (v = s) }
  ((List.range' g.minVertexIndex (g.vertexNum - 1)).foldl
    (fun st _ => dijkstraStep (vertices g) s st) st0).dist

/-- `getShortestPathByDijkstra`.  The assignment `shortestDist = adjMat` gives
`shortestDist` the size of `adjMat`, which is `vertexAllocNum`. -/
def getShortestPathByDijkstra (g : TopologicalGraph) : TopologicalGraph :=
  { g with shortestDist := (vertices g).foldl (dijkstraFrom g) g.adjMat,
           shortestDistSize := g.vertexAllocNum }

/-- The comparator `DistCmp( *this, sv )`: `a` goes before `b` when
`distance( sv, a ) < distance( sv, b )`. -/
def DistCmp (g : TopologicalGraph) (sv : Nat) (a b : Nat) : Bool :=
  decide (distance g sv a < distance g sv b)

/-- The local vector `seq`: `vertexAllocNum` zeros, then `seq[i] = i` on the valid
range. -/
def initSeq (g : TopologicalGraph) : Nat → Nat :=
  (vertices g).foldl (fun s i => fun r => if r = i then i else s r) (fun _ => 0)

/-- The table `DistSeqTable( vertexAllocNum, seq )`: every row is a copy of `seq`. -/
def initDistSeq (g : TopologicalGraph) : DistSeqTable :=
  ⟨fun _ c => initSeq g c⟩

/-- The elements `distSeq[i].begin() + minVertexIndex` up to `distSeq[i].end()`. -/
def rowSegment (g : TopologicalGraph) (t : DistSeqTable) (i : Nat) : List Nat :=
  (List.range' g.minVertexIndex (g.vertexAllocNum - g.minVertexIndex)).map (t.cell i)

/-- Writing the list `l` back to row `i` from rank `lo` on. -/
def setRowSegment (t : DistSeqTable) (i lo : Nat) (l : List Nat) : DistSeqTable :=
  ⟨fun r c => if r = i ∧ lo ≤ c ∧ c < lo + l.length then l.getD (c - lo) 0 else t.cell r c⟩

/-- `getDistSeqTableBySTLsort`; `sort cmp l` stands for `std::sort` applied to the
range holding `l` with comparator `cmp`. -/
def getDistSeqTableBySTLsort (sort : (Nat → Nat → Bool) → List Nat → List Nat)
    (g : TopologicalGraph) : TopologicalGraph :=
  let t := (vertices g).foldl
    (fun t i => setRowSegment t i g.minVertexIndex (sort (DistCmp g i) (rowSegment g t i)))
    (initDistSeq g)
  { g with distSeq := t, distSeqSize := g.vertexAllocNum }

/-- The loop `for (d = distance( i, j ); k > 0; k--)` of `getDistSeqTableByInsertSort`
followed by `if (k == 0) distSeq[i][0] = j`, as a recursion on `k`. -/
def insertShift (g : TopologicalGraph) (i j : Nat) (d : Distance) :
    Nat → DistSeqTable → DistSeqTable
  | 0, t => setCell t i 0 j
  | k + 1, t =>
    if d < distance g i (t.cell i k) then
      insertShift g i j d k (setCell t i (k + 1) (t.cell i k))
    else setCell t i (k + 1) j

/-- `getDistSeqTableByInsertSort`. -/
def getDistSeqTableByInsertSort (g : TopologicalGraph) : TopologicalGraph :=
  let t := (vertices g).foldl
    (fun t i => (vertices g).foldl (fun t j => insertShift g i j (distance g i j) j t) t)
    (initDistSeq g)
  { g with distSeq := t, distSeqSize := g.vertexAllocNum }

/-- `getShortestPath`; the returned reference is the field `shortestDist`. -/
def getShortestPath (g : TopologicalGraph) : TopologicalGraph :=
  if g.shortestDistSolved = false then
    { getShortestPathByFloyd g with shortestDistSolved := true, distSeqSolved := false }
  else g

/-- `getDistSeqTable`; the returned reference is the field `distSeq`. -/
def getDistSeqTable (sort : (Nat → Nat → Bool) → List Nat → List Nat)
    (g : TopologicalGraph) : TopologicalGraph :=
  if g.distSeqSolved = false then
    { getDistSeqTableBySTLsort sort (getShortestPath g) with distSeqSolved := true }
  else g

/-- The loop of `findVertexNumWithinRadius` from rank `i` with `n` ranks left
(`n = maxVertexIndex - i + 1`); the value is the final `i`. -/
def findNumLoop (g : TopologicalGraph) (start : Nat) (radius : Distance) : Nat → Nat → Nat
  | i, 0 => i
  | i, n + 1 =>
    if distance g start (nthClosestVertex g start i) ≥ radius then i
    else findNumLoop g start radius (i + 1) n

/-- `findVertexNumWithinRadius`. -/
def findVertexNumWithinRadius (g : TopologicalGraph) (start : Nat) (radius : Distance) : Nat :=
  findNumLoop g start radius g.minVertexIndex g.vertexNum

/-- The loop of `findVertexWithinRadius` from rank `i` with `n` ranks left.
Modelled from the spec: `RandSelect` is declared outside the sources at hand;
`sel c` is what the `c`-th call of `rs.isSelected()` returns (calls counted from 1).
The local `vertex` is `none` while it is uninitialised. -/
def findLoop (g : TopologicalGraph) (start : Nat) (radius : Distance) (sel : Nat → Bool) :
    Nat → Nat → Nat → Option Nat → Option Nat
  | _, 0, _, vertex => vertex
  | i, n + 1, c, vertex =>
    if distance g start (nthClosestVertex g start i) < radius then
      if sel c then
        findLoop g start radius sel (i + 1) n (c + 1) (some (nthClosestVertex g start i))
      else findLoop g start radius sel (i + 1) n (c + 1) vertex
    else vertex

/-- `findVertexWithinRadius`; `none` is the uninitialised result. -/
def findVertexWithinRadius (g : TopologicalGraph) (start : Nat) (radius : Distance)
    (sel : Nat → Bool) : Option Nat :=
  findLoop g start radius sel g.minVertexIndex g.vertexNum 1 none

/-! ## Floyd: rounds and walks -/

/-- The value the round through `i` is meant to leave in cell `(r, c)`. -/
def viaValue (i : Nat) (d : DistanceMatrix) (r c : Nat) : Distance :=
  min (d.cell r c) (d.cell r i + d.cell i c)

/-- Loop invariant of the round through `i` started on `d`: the cells in `P` hold
their final value, the others are untouched. -/
def RoundInv (i : Nat) (d : DistanceMatrix) (P : Nat → Nat → Prop) (e : DistanceMatrix) : Prop :=
  ∀ r c, (P r c → e.cell r c = viaValue i d r c) ∧ (¬ P r c → e.cell r c = d.cell r c)

/-- The `j` and `k` loops for a fixed `i`. -/
def floydRound (vs : List Nat) (i : Nat) (d : DistanceMatrix) : DistanceMatrix :=
  vs.foldl (fun d j => vs.foldl (fun d k => floydRelax i j k d) d) d

/-- Total weight of the walk `a, l, b` (first vertex, intermediate vertices, last
vertex), every cell of the matrix counting as an arc. -/
def walkWeight (adj : DistanceMatrix) (a : Nat) : List Nat → Nat → Distance
  | [], b => adj.cell a b
  | v :: l, b => adj.cell a v + walkWeight adj v l b

/-- No closed walk over the vertices `vs` has negative weight. -/
def NoNegativeCycle (adj : DistanceMatrix) (vs : List Nat) : Prop :=
  ∀ v ∈ vs, ∀ l : List Nat, (∀ u ∈ l, u ∈ vs) → 0 ≤ walkWeight adj v l v

/-- Every cell over `vs` is the weight of some walk over `vs`. -/
def WalkSound (adj : DistanceMatrix) (vs : List Nat) (d : DistanceMatrix) : Prop :=
  ∀ r ∈ vs, ∀ c ∈ vs, ∃ l : List Nat, (∀ u ∈ l, u ∈ vs) ∧ d.cell r c = walkWeight adj r l c

/-- Every cell over `vs` is at most the weight of each walk whose intermediate
vertices all satisfy `S`. -/
def WalkComplete (adj : DistanceMatrix) (vs : List Nat) (S : Nat → Prop) (d : DistanceMatrix) :
    Prop :=
  ∀ r ∈ vs, ∀ c ∈ vs, ∀ l : List Nat, (∀ u ∈ l, S u) → d.cell r c ≤ walkWeight adj r l c

/-! ## Paths of the graph -/

/-- Total weight of the arcs along the vertex list `p`; a single vertex is the empty
path of weight 0. -/
def pathWeight (adj : DistanceMatrix) : List Nat → Distance
  | a :: b :: rest => adj.cell a b + pathWeight adj (b :: rest)
  | _ => 0

/-- The vertex list `p` is a path from `j` to `k`: it starts at `j`, ends at `k`,
stays in the valid range, and every step follows an arc, that is a cell of `adjMat`
other than `MAX_DISTANCE`. -/
def IsPath (g : TopologicalGraph) (M : Distance) (j k : Nat) (p : List Nat) : Prop :=
  p.head? = some j ∧ p.getLast? = some k ∧ (∀ v ∈ p, InRange g v) ∧
    p.Chain' (fun a b => g.adjMat.cell a b ≠ M)

/-! ## Construction and the lazy solver -/

/-- The arcs of `arcList` address cells of the allocated `vn + mvi` square matrix,
so the constructor's writes are defined. -/
def ArcsAllocated (arcList : ArcList) (vn mvi : Nat) : Prop :=
  ∀ a ∈ arcList, a.startVertex < vn + mvi ∧ a.endVertex < vn + mvi

/-- The graphs produced by the three public constructors. -/
inductive Constructed (M : Distance) : TopologicalGraph → Prop
  | undirected (arcList : ArcList) (vn mvi : Nat) (h : ArcsAllocated arcList vn mvi) :
      Constructed M (UndirectedGraph M arcList vn mvi)
  | directed (arcList : ArcList) (vn mvi : Nat) (h : ArcsAllocated arcList vn mvi) :
      Constructed M (DirectedGraph M arcList vn mvi)
  | ofPoints (gg : GeometricalGraph) : Constructed M (UndirectedGraph.ofPoints M gg)

instance (arcList : ArcList) (vn mvi : Nat) : Decidable (ArcsAllocated arcList vn mvi) := by
  unfold ArcsAllocated; infer_instance

/-! ## The contract of `std::sort` and the reachable states -/

/-- A strict weak ordering: irreflexive, transitive, and with a transitive
incomparability relation.  This is what the C++ standard requires of a comparator
handed to `std::sort`. -/
def StrictWeakOrder (cmp : Nat → Nat → Bool) : Prop :=
  (∀ a, cmp a a = false) ∧
  (∀ a b c, cmp a b = true → cmp b c = true → cmp a c = true) ∧
  (∀ a b c, cmp a b = false → cmp b a = false → cmp b c = false → cmp c b = false →
    cmp a c = false ∧ cmp c a = false)

/-- What the C++ standard promises of `std::sort`: for a strict weak ordering the
output is a rearrangement of the input in which no later element goes before an
earlier one.  The order of equivalent elements is left open. -/
def StdSortSpec (sort : (Nat → Nat → Bool) → List Nat → List Nat) : Prop :=
  ∀ cmp l, StrictWeakOrder cmp →
    (sort cmp l).Perm l ∧ (sort cmp l).Pairwise (fun a b => cmp b a = false)

/-- A conforming `std::sort` that keeps equivalent elements in their input order. -/
def stableSort (cmp : Nat → Nat → Bool) (l : List Nat) : List Nat :=
  l.insertionSort (fun a b => cmp b a = false)

/-- A conforming `std::sort` that reverses the input order of equivalent elements. -/
def reversingSort (cmp : Nat → Nat → Bool) (l : List Nat) : List Nat :=
  l.reverse.insertionSort (fun a b => cmp b a = false)

/-- The ranks `minVertexIndex .. maxVertexIndex` of row `v` of `distSeq`, as read by
`nthClosestVertex( v, rank )`. -/
def rankedRow (g : TopologicalGraph) (v : Nat) : List Nat :=
  (vertices g).map (nthClosestVertex g v)

/-- The states reached from a constructor by calls of `getShortestPath` and
`getDistSeqTable`. -/
inductive Reachable (M : Distance) (sort : (Nat → Nat → Bool) → List Nat → List Nat) :
    TopologicalGraph → Prop
  | init {g : TopologicalGraph} (h : Constructed M g) : Reachable M sort g
  | shortestPath {g : TopologicalGraph} (h : Reachable M sort g) :
      Reachable M sort (getShortestPath g)
  | distSeqTable {g : TopologicalGraph} (h : Reachable M sort g) :
      Reachable M sort (getDistSeqTable sort g)

/-- Invariant of the reachable states: the allocation size, what a solved distance
matrix holds, and what a solved ranking holds. -/
def GraphInv (sort : (Nat → Nat → Bool) → List Nat → List Nat) (g : TopologicalGraph) : Prop :=
  g.vertexAllocNum = g.vertexNum + g.minVertexIndex ∧
  (g.shortestDistSolved = true →
    g.shortestDist = g.adjMat ∨ g.shortestDist = floydLoops (vertices g) g.adjMat) ∧
  (g.distSeqSolved = true → g.shortestDistSolved = true ∧
    ∀ v, InRange g v → rankedRow g v = sort (DistCmp g v) (vertices g))

/-! ## Sampling within a radius -/

/-- What the loop of `findVertexWithinRadius` does on the list `Q` of candidates it
meets before the `break`: the candidate of call `c` replaces `cur` when `sel c`. -/
def pick (sel : Nat → Bool) : Nat → Option Nat → List Nat → Option Nat
  | _, cur, [] => cur
  | c, cur, x :: xs => pick sel (c + 1) (if sel c then some x else cur) xs

/-- The candidates met by `findVertexWithinRadius( v, r )`: the leading run of row `v`
whose distance is below the radius. -/
def leadingRun (g : TopologicalGraph) (v : Nat) (r : Distance) : List Nat :=
  (rankedRow g v).takeWhile (fun u => decide (distance g v u < r))

/-! ## The random selector as a probability space -/

/-- Probability that the `c`-th call of `isSelected()` returns `b`: `true` with
probability `1 / c`. -/
def callProb (c : Nat) (b : Bool) : ℚ :=
  if b then 1 / (c : ℚ) else 1 - 1 / (c : ℚ)

/-- Probability that the calls numbered `c, c + 1, ...` return the values listed in
`bs`, the calls being independent. -/
def outcomeProb : Nat → List Bool → ℚ
  | _, [] => 1
  | c, b :: bs => callProb c b * outcomeProb (c + 1) bs

/-- All sequences of `n` outcomes. -/
def outcomes : Nat → List (List Bool)
  | 0 => [[]]
  | n + 1 => (outcomes n).map (List.cons true) ++ (outcomes n).map (List.cons false)

/-- The selector whose successive calls return the values listed in `bs`. -/
def selOf (bs : List Bool) : Nat → Bool :=
  fun c => bs.getD (c - 1) false

/-- Probability that `findVertexWithinRadius( v, r )` returns `u`, the outcomes of the
first `n` calls of `isSelected()` being drawn (any later call returns `false`): the
total probability of the outcome sequences on which the function returns `u`. -/
def findProb (g : TopologicalGraph) (v : Nat) (r : Distance) (n : Nat) (u : Nat) : ℚ :=
  ((outcomes n).map (fun bs =>
    if findVertexWithinRadius g v r (selOf bs) = some u then outcomeProb 1 bs else 0)).sum

/-- The scan `pick` driven by a list of outcomes. -/
def pickL : List Bool → Option Nat → List Nat → Option Nat
  | b :: bs, cur, x :: xs => pickL bs (if b then some x else cur) xs
  | _, cur, _ => cur

/-- Probability that the scan of the candidates `Q`, entered at call `c` with current
choice `cur`, ends on `u`, the outcomes of `n` calls being drawn. -/
def pickMass (c : Nat) (cur : Option Nat) (Q : List Nat) (n : Nat) (u : Nat) : ℚ :=
  ((outcomes n).map (fun bs =>
    if pickL bs cur Q = some u then outcomeProb c bs else 0)).sum

/-! ## Ranking by insertion -/

/-- The first `m` ranks of row `i` of a table. -/
def rowPrefix (t : DistSeqTable) (i m : Nat) : List Nat :=
  (List.range' 0 m).map (t.cell i)

/-- The row built by the insertion loop for start vertex `i` over `n` vertices, read
from the last rank down: each `j` is put in front of the first entry that is not
farther than `j`. -/
def insertedRev (g : TopologicalGraph) (i n : Nat) : List Nat :=
  (List.range' 0 n).foldl
    (fun R j => List.orderedInsert (fun a b => DistCmp g i a b = false) j R) []

/-! ## Dijkstra: invariants of one start vertex -/

/-- The cells of `d` that a run of Dijkstra from another row may read: over the valid
range they lie between the shortest distance `F` and the adjacency weight, column 0
holds `M`, and row 0 is nonnegative. -/
def DijkstraInput (adj F : DistanceMatrix) (vs : List Nat) (M : Distance)
    (d : DistanceMatrix) : Prop :=
  (∀ c ∈ vs, ∀ i ∈ vs, F.cell c i ≤ d.cell c i ∧ d.cell c i ≤ adj.cell c i) ∧
  (∀ c ∈ vs, d.cell c 0 = M) ∧ (∀ i ∈ vs, 0 ≤ d.cell 0 i)

/-- Invariant of the `k` loop of `getShortestPathByDijkstra` for start vertex `s`,
entered on the matrix `d0`: tentative distances are never below the shortest distance
`F`, settled vertices hold it, an unsettled vertex is no farther than through the
direct arc or through any settled vertex, and only row `s` over the valid range has
changed. -/
def DijkstraInv (adj F : DistanceMatrix) (vs : List Nat) (s : Nat) (d0 : DistanceMatrix)
    (st : DijkstraState) : Prop :=
  (∀ i ∈ vs, F.cell s i ≤ st.dist.cell s i) ∧
  (∀ i ∈ vs, st.inSet i = true → st.dist.cell s i = F.cell s i) ∧
  (∀ i ∈ vs, st.inSet i = false → st.dist.cell s i ≤ adj.cell s i) ∧
  (∀ i ∈ vs, st.inSet i = false → ∀ c ∈ vs, c ≠ s → st.inSet c = true →
    st.dist.cell s i ≤ F.cell s c + d0.cell c i) ∧
  st.inSet s = true ∧
  (∀ r c, (r ≠ s ∨ c ∉ vs) → st.dist.cell r c = d0.cell r c)

/-- Every valid vertex holds its shortest distance from `s`. -/
def DijkstraFinal (F : DistanceMatrix) (vs : List Nat) (s : Nat) (st : DijkstraState) : Prop :=
  ∀ i ∈ vs, st.dist.cell s i = F.cell s i

/-- After `k` rounds either every vertex is final or `k + 1` distinct valid vertices
are settled. -/
def DijkstraProgress (F : DistanceMatrix) (vs : List Nat) (s : Nat) (k : Nat)
    (st : DijkstraState) : Prop :=
  DijkstraFinal F vs s st ∨
  ∃ L : List Nat, L.Nodup ∧ (∀ x ∈ L, x ∈ vs ∧ st.inSet x = true) ∧ L.length = k + 1

/-- The update through `c` applies to cell `(r, i)`: it is a cell of row `s`, `i` has
been visited (`P i`), is unsettled, and the way through `c` is shorter. -/
def UpdCond (s c : Nat) (st : DijkstraState) (P : Nat → Prop) (r i : Nat) : Prop :=
  r = s ∧ P i ∧ st.inSet i = false ∧ st.dist.cell s c + st.dist.cell c i < st.dist.cell s i

/-- Invariant of the update loop started on `st`, the vertices in `P` being visited. -/
def UpdInv (s c : Nat) (st : DijkstraState) (P : Nat → Prop) (e : DijkstraState) : Prop :=
  e.inSet = st.inSet ∧
  ∀ r i, (UpdCond s c st P r i → e.dist.cell r i = st.dist.cell s c + st.dist.cell c i) ∧
    (¬ UpdCond s c st P r i → e.dist.cell r i = st.dist.cell r i)

/-- The body of the update loop of `getShortestPathByDijkstra`. -/
def dijkstraUpdateStep (s c : Nat) (st : DijkstraState) (i : Nat) : DijkstraState :=
  if st.inSet i = false ∧ st.dist.cell s c + st.dist.cell c i < st.dist.cell s i then
    { st with dist := setCell st.dist s i (st.dist.cell s c + st.dist.cell c i) }
  else st

/-- What the correctness proof of Dijkstra uses of the adjacency matrix `adj` and of
the matrix `F` of shortest distances: id 0 is not a vertex, weights lie between 0 and
`M` with a zero diagonal, and `F` is nonnegative, below the direct arc, zero on the diagonal, satisfies the
triangle inequality and is attained by walks. -/
def DijkstraSetting (adj F : DistanceMatrix) (vs : List Nat) (M : Distance) : Prop :=
  0 ∉ vs ∧
  (∀ r ∈ vs, ∀ c ∈ vs, 0 ≤ adj.cell r c ∧ adj.cell r c ≤ M) ∧
  (∀ v ∈ vs, adj.cell v v = 0) ∧
  (∀ r ∈ vs, ∀ c ∈ vs, 0 ≤ F.cell r c ∧ F.cell r c ≤ adj.cell r c) ∧
  (∀ v ∈ vs, F.cell v v = 0) ∧
  (∀ a ∈ vs, ∀ b ∈ vs, ∀ c ∈ vs, F.cell a c ≤ F.cell a b + F.cell b c) ∧
  (∀ r ∈ vs, ∀ c ∈ vs, ∃ l : List Nat, (∀ u ∈ l, u ∈ vs) ∧ F.cell r c = walkWeight adj r l c)

/-- The state of `getShortestPathByDijkstra` after `vertexState[c] = IN_SET`. -/
def settle (st : DijkstraState) (c : Nat) : DijkstraState :=
  { st with inSet := fun v => if v = c then true else st.inSet v }

/-- Invariant of the `startVertex` loop of `getShortestPathByDijkstra`: the rows in
`done` hold the shortest distances `F` over `vs`, every other cell is still the cell
of `adjMat`. -/
def DijkstraOuterInv (adj F : DistanceMatrix) (vs done : List Nat) (d : DistanceMatrix) : Prop :=
  (∀ r ∈ done, ∀ i ∈ vs, d.cell r i = F.cell r i) ∧
  (∀ r c, (r ∉ done ∨ c ∉ vs) → d.cell r c = adj.cell r c)

/-! ## The arcs behind a cell of the adjacency matrix -/

/-- The last arc of the list that goes from `s` to `t`, if any. -/
def lastArc (arcList : ArcList) (s t : Nat) : Option Arc :=
  arcList.reverse.find? (fun a => decide (a.startVertex = s ∧ a.endVertex = t))

/-- The last arc of the list that joins `s` and `t` in either direction, if any. -/
def lastEdge (arcList : ArcList) (s t : Nat) : Option Arc :=
  arcList.reverse.find? (fun a =>
    decide ((a.startVertex = s ∧ a.endVertex = t) ∨ (a.startVertex = t ∧ a.endVertex = s)))

/-- The weight of the arc `o` when there is one, and `dflt` otherwise. -/
def weightOr (o : Option Arc) (dflt : Distance) : Distance :=
  match o with
  | some a => a.dist
  | none => dflt

/-- Every vertex id of the arc list lies in `[mvi, mvi + vn - 1]`. -/
def ArcsInRange (arcList : ArcList) (vn mvi : Nat) : Prop :=
  ∀ a ∈ arcList, (mvi ≤ a.startVertex ∧ a.startVertex < mvi + vn) ∧
    (mvi ≤ a.endVertex ∧ a.endVertex < mvi + vn)

instance (arcList : ArcList) (vn mvi : Nat) : Decidable (ArcsInRange arcList vn mvi) := by
  unfold ArcsInRange; infer_instance

/-! ## The point-set constructor -/

/-- Squared Euclidean distance between the points `i` and `j` of `gg`. -/
def sqDist (gg : GeometricalGraph) (i j : Nat) : Distance :=
  ((gg.point i).1 - (gg.point j).1) * ((gg.point i).1 - (gg.point j).1) +
    ((gg.point i).2 - (gg.point j).2) * ((gg.point i).2 - (gg.point j).2)

/-- The inner loop `for (j = 0; j < i; j++)` of `UndirectedGraph( gg )`, run over the
list `l`. -/
def pointsInner (gg : GeometricalGraph) (i : Nat) (l : List Nat) (m : DistanceMatrix) :
    DistanceMatrix :=
  l.foldl (fun m j => setCell (setCell m j i (sqDist gg i j)) i j (sqDist gg i j)) m

/-- The outer loop `for (i = 0; i < vertexNum; i++)` of `UndirectedGraph( gg )`, run
over the first `k` points. -/
def pointsOuter (gg : GeometricalGraph) (k : Nat) (m : DistanceMatrix) : DistanceMatrix :=
  (List.range' 0 k).foldl
    (fun m i => setCell (pointsInner gg i (List.range' 0 i) m) i i 0) m

/-! ## Queries with bounds-checked reads -/

/-- The read `t[r][c]` of a square table whose `size()` is `size`: `none` when the
row or the column lies outside the vector, where the source's `operator[]` is
undefined. -/
def readCell {α : Type} (t : Table α) (size r c : Nat) : Option α :=
  if r < size ∧ c < size then some (t.cell r c) else none

/-- The accessor `distance( start, end )` with its read of `shortestDist` checked
against the size of the vector. -/
def checkedDistance (g : TopologicalGraph) (s e : Nat) : Option Distance :=
  readCell g.shortestDist g.shortestDistSize s e

/-- The accessor `nthClosestVertex( start, n )` with its read of `distSeq` checked
against the size of the vector. -/
def checkedNthClosestVertex (g : TopologicalGraph) (s n : Nat) : Option Nat :=
  readCell g.distSeq g.distSeqSize s n

/-- The loop of `findVertexNumWithinRadius` from rank `i` with `n` ranks left, every
read checked: `none` as soon as an iteration reads outside a vector. -/
def checkedFindNumLoop (g : TopologicalGraph) (start : Nat) (radius : Distance) :
    Nat → Nat → Option Nat
  | i, 0 => some i
  | i, n + 1 =>
    match checkedNthClosestVertex g start i with
    | none => none
    | some u =>
      match checkedDistance g start u with
      | none => none
      | some d =>
        if d ≥ radius then some i
        else checkedFindNumLoop g start radius (i + 1) n

/-- `findVertexNumWithinRadius` with every read checked. -/
def checkedFindVertexNumWithinRadius (g : TopologicalGraph) (start : Nat)
    (radius : Distance) : Option Nat :=
  checkedFindNumLoop g start radius g.minVertexIndex g.vertexNum

/-- The loop of `findVertexWithinRadius` from rank `i` with `n` ranks left, every read
checked: the outer `none` is a read outside a vector, the inner `none` the
uninitialised local `vertex`; `sel c` is the `c`-th call of `rs.isSelected()`. -/
def checkedFindLoop (g : TopologicalGraph) (start : Nat) (radius : Distance)
    (sel : Nat → Bool) : Nat → Nat → Nat → Option Nat → Option (Option Nat)
  | _, 0, _, vertex => some vertex
  | i, n + 1, c, vertex =>
    match checkedNthClosestVertex g start i with
    | none => none
    | some u =>
      match checkedDistance g start u with
      | none => none
      | some d =>
        if d < radius then
          if sel c then checkedFindLoop g start radius sel (i + 1) n (c + 1) (some u)
          else checkedFindLoop g start radius sel (i + 1) n (c + 1) vertex
        else some vertex

/-- `findVertexWithinRadius` with every read checked. -/
def checkedFindVertexWithinRadius (g : TopologicalGraph) (start : Nat) (radius : Distance)
    (sel : Nat → Bool) : Option (Option Nat) :=
  checkedFindLoop g start radius sel g.minVertexIndex g.vertexNum 1 none

/-- The caches of a state are allocated when their flags say they are solved: a
solved `shortestDist` and a solved `distSeq` have `vertexAllocNum` rows and columns. -/
def CacheSizeInv (g : TopologicalGraph) : Prop :=
  (g.shortestDistSolved = true → g.shortestDistSize = g.vertexAllocNum) ∧
  (g.distSeqSolved = true → g.distSeqSize = g.vertexAllocNum)

/-! ## Floyd: one round of the outer loop -/

theorem setCell_cell {α : Type} (m : Table α) (r c : Nat) (v : α) (r' c' : Nat) :
    (setCell m r c v).cell r' c' = if r' = r ∧ c' = c then v else m.cell r' c' := rfl

theorem floydRelax_cell (i j k : Nat) (d : DistanceMatrix) (r c : Nat) :
    (floydRelax i j k d).cell r c =
      if r = j ∧ c = k then min (d.cell j k) (d.cell j i + d.cell i k) else d.cell r c := by
  unfold floydRelax
  by_cases h : d.cell j i + d.cell i k < d.cell j k
  · simp only [h, if_true, setCell_cell]
    split
    · rw [min_eq_right (le_of_lt h)]
    · rfl
  · simp only [h, if_false]
    split
    · next hrc => rw [hrc.1, hrc.2, min_eq_left (not_lt.mp h)]
    · rfl

theorem viaValue_row (i : Nat) (d : DistanceMatrix) (h : 0 ≤ d.cell i i) (c : Nat) :
    viaValue i d i c = d.cell i c := by
  unfold viaValue; apply min_eq_left; linarith

theorem viaValue_col (i : Nat) (d : DistanceMatrix) (h : 0 ≤ d.cell i i) (r : Nat) :
    viaValue i d r i = d.cell r i := by
  unfold viaValue; apply min_eq_left; linarith

theorem RoundInv.row {i : Nat} {d e : DistanceMatrix} {P : Nat → Nat → Prop}
    (h : RoundInv i d P e) (h0 : 0 ≤ d.cell i i) (c : Nat) : e.cell i c = d.cell i c := by
  by_cases hp : P i c
  · rw [(h i c).1 hp, viaValue_row i d h0]
  · exact (h i c).2 hp

theorem RoundInv.col {i : Nat} {d e : DistanceMatrix} {P : Nat → Nat → Prop}
    (h : RoundInv i d P e) (h0 : 0 ≤ d.cell i i) (r : Nat) : e.cell r i = d.cell r i := by
  by_cases hp : P r i
  · rw [(h r i).1 hp, viaValue_col i d h0]
  · exact (h r i).2 hp

theorem RoundInv.relax {i : Nat} {d e : DistanceMatrix} {P : Nat → Nat → Prop}
    (h : RoundInv i d P e) (h0 : 0 ≤ d.cell i i) (j k : Nat) :
    RoundInv i d (fun r c => P r c ∨ (r = j ∧ c = k)) (floydRelax i j k e) := by
  intro r c
  rw [floydRelax_cell]
  by_cases hrc : r = j ∧ c = k
  · obtain ⟨rfl, rfl⟩ := hrc
    simp only [and_self, if_true, or_true, true_implies, not_true, false_implies, and_true]
    rw [h.col h0, h.row h0]
    by_cases hp : P r c
    · rw [(h r c).1 hp]; unfold viaValue; rw [min_assoc, min_self]
    · rw [(h r c).2 hp]; rfl
  · simp only [hrc, if_false, or_false]
    exact h r c

theorem RoundInv.congr {i : Nat} {d e : DistanceMatrix} {P Q : Nat → Nat → Prop}
    (h : RoundInv i d P e) (hpq : ∀ r c, P r c ↔ Q r c) : RoundInv i d Q e := by
  intro r c
  rw [← hpq r c]
  exact h r c

theorem RoundInv.kLoop {i : Nat} {d : DistanceMatrix} (h0 : 0 ≤ d.cell i i) (j : Nat)
    (ks : List Nat) : ∀ {e : DistanceMatrix} {P : Nat → Nat → Prop}, RoundInv i d P e →
    RoundInv i d (fun r c => P r c ∨ (r = j ∧ c ∈ ks))
      (ks.foldl (fun d k => floydRelax i j k d) e) := by
  induction ks with
  | nil =>
    intro e P h
    exact h.congr (by simp)
  | cons k ks ih =>
    intro e P h
    rw [List.foldl_cons]
    refine (ih (h.relax h0 j k)).congr ?_
    intro r c
    simp only [List.mem_cons]
    tauto

theorem RoundInv.jLoop {i : Nat} {d : DistanceMatrix} (h0 : 0 ≤ d.cell i i)
    (ks : List Nat) (js : List Nat) : ∀ {e : DistanceMatrix} {P : Nat → Nat → Prop},
    RoundInv i d P e →
    RoundInv i d (fun r c => P r c ∨ (r ∈ js ∧ c ∈ ks))
      (js.foldl (fun d j => ks.foldl (fun d k => floydRelax i j k d) d) e) := by
  induction js with
  | nil =>
    intro e P h
    exact h.congr (by simp)
  | cons j js ih =>
    intro e P h
    rw [List.foldl_cons]
    refine (ih (RoundInv.kLoop h0 j ks h)).congr ?_
    intro r c
    simp only [List.mem_cons]
    tauto

theorem floydLoops_eq (vs : List Nat) (d : DistanceMatrix) :
    floydLoops vs d = vs.foldl (fun d i => floydRound vs i d) d := rfl

/-- Although the matrix is updated in place, a round through `i` with `d[i][i] >= 0`
computes `min(d[r][c], d[r][i] + d[i][c])` from the values held before the round. -/
theorem floydRound_cell (vs : List Nat) (i : Nat) (d : DistanceMatrix) (h0 : 0 ≤ d.cell i i)
    (r c : Nat) :
    (floydRound vs i d).cell r c =
      if r ∈ vs ∧ c ∈ vs then viaValue i d r c else d.cell r c := by
  have hinit : RoundInv i d (fun _ _ => False) d := fun r c => ⟨fun h => h.elim, fun _ => rfl⟩
  have h := (RoundInv.jLoop h0 vs vs hinit) r c
  simp only [false_or] at h
  unfold floydRound
  split
  · next hm => exact h.1 hm
  · next hm => exact h.2 hm

/-! ## Walks and the outer loop of Floyd -/

theorem walkWeight_append (adj : DistanceMatrix) (l1 : List Nat) (v : Nat) (l2 : List Nat)
    (a b : Nat) :
    walkWeight adj a (l1 ++ v :: l2) b = walkWeight adj a l1 v + walkWeight adj v l2 b := by
  induction l1 generalizing a with
  | nil => rfl
  | cons u l1 ih =>
    show adj.cell a u + walkWeight adj u (l1 ++ v :: l2) b = _
    rw [ih, walkWeight, add_assoc]

theorem WalkSound.diag_nonneg {adj d : DistanceMatrix} {vs : List Nat}
    (hs : WalkSound adj vs d) (hn : NoNegativeCycle adj vs) {i : Nat} (hi : i ∈ vs) :
    0 ≤ d.cell i i := by
  obtain ⟨l, hl, he⟩ := hs i hi i hi
  rw [he]
  exact hn i hi l hl

theorem walkSound_round {adj d : DistanceMatrix} {vs : List Nat}
    (hs : WalkSound adj vs d) (hn : NoNegativeCycle adj vs) {i : Nat} (hi : i ∈ vs) :
    WalkSound adj vs (floydRound vs i d) := by
  intro r hr c hc
  rw [floydRound_cell vs i d (hs.diag_nonneg hn hi), if_pos ⟨hr, hc⟩]
  unfold viaValue
  rcases le_total (d.cell r c) (d.cell r i + d.cell i c) with h | h
  · rw [min_eq_left h]
    exact hs r hr c hc
  · rw [min_eq_right h]
    obtain ⟨l1, hl1, he1⟩ := hs r hr i hi
    obtain ⟨l2, hl2, he2⟩ := hs i hi c hc
    refine ⟨l1 ++ i :: l2, ?_, ?_⟩
    · intro u hu
      rcases List.mem_append.mp hu with h1 | h2
      · exact hl1 u h1
      · rcases List.mem_cons.mp h2 with rfl | h3
        · exact hi
        · exact hl2 u h3
    · rw [walkWeight_append, he1, he2]

/-- A walk through vertices of `S` or `i` costs at least the value computed by the
round through `i`. -/
theorem viaValue_le_walk {adj d : DistanceMatrix} {vs : List Nat} {S : Nat → Prop}
    (hc : WalkComplete adj vs S d) {i : Nat} (hi : i ∈ vs) (h0 : 0 ≤ d.cell i i) :
    ∀ (n : Nat) (l : List Nat), l.length ≤ n → (∀ u ∈ l, S u ∨ u = i) →
      ∀ r ∈ vs, ∀ c ∈ vs, viaValue i d r c ≤ walkWeight adj r l c := by
  intro n
  induction n with
  | zero =>
    intro l hlen _ r hr c hcv
    have hl : l = [] := List.length_eq_zero.mp (Nat.le_zero.mp hlen)
    subst hl
    exact le_trans (min_le_left _ _) (hc r hr c hcv [] (by simp))
  | succ n ih =>
    intro l hlen hl r hr c hcv
    by_cases hmem : i ∈ l
    · obtain ⟨l1, l2, rfl⟩ := List.append_of_mem hmem
      have hlen1 : l1.length ≤ n := by
        simp only [List.length_append, List.length_cons] at hlen; omega
      have hlen2 : l2.length ≤ n := by
        simp only [List.length_append, List.length_cons] at hlen; omega
      have hl1 : ∀ u ∈ l1, S u ∨ u = i := fun u hu => hl u (by simp [hu])
      have hl2 : ∀ u ∈ l2, S u ∨ u = i := fun u hu => hl u (by simp [hu])
      have h1 := ih l1 hlen1 hl1 r hr i hi
      have h2 := ih l2 hlen2 hl2 i hi c hcv
      rw [viaValue_col i d h0] at h1
      rw [viaValue_row i d h0] at h2
      rw [walkWeight_append]
      exact le_trans (min_le_right _ _) (add_le_add h1 h2)
    · have hl' : ∀ u ∈ l, S u := by
        intro u hu
        rcases hl u hu with h | h
        · exact h
        · exact absurd (h ▸ hu) hmem
      exact le_trans (min_le_left _ _) (hc r hr c hcv l hl')

theorem walkComplete_round {adj d : DistanceMatrix} {vs : List Nat} {S : Nat → Prop}
    (hc : WalkComplete adj vs S d) {i : Nat} (hi : i ∈ vs) (h0 : 0 ≤ d.cell i i) :
    WalkComplete adj vs (fun u => S u ∨ u = i) (floydRound vs i d) := by
  intro r hr c hcv l hl
  rw [floydRound_cell vs i d h0, if_pos ⟨hr, hcv⟩]
  exact viaValue_le_walk hc hi h0 l.length l le_rfl hl r hr c hcv

theorem floyd_outer {adj : DistanceMatrix} {vs : List Nat} (hn : NoNegativeCycle adj vs)
    (is : List Nat) : ∀ (d : DistanceMatrix) (S : Nat → Prop), (∀ i ∈ is, i ∈ vs) →
    WalkSound adj vs d → WalkComplete adj vs S d →
    WalkSound adj vs (is.foldl (fun d i => floydRound vs i d) d) ∧
    WalkComplete adj vs (fun u => S u ∨ u ∈ is) (is.foldl (fun d i => floydRound vs i d) d) := by
  induction is with
  | nil =>
    intro d S _ hs hc
    refine ⟨hs, ?_⟩
    intro r hr c hcv l hl
    exact hc r hr c hcv l (fun u hu => by simpa using hl u hu)
  | cons i is ih =>
    intro d S hsub hs hc
    have hi : i ∈ vs := hsub i (by simp)
    have h0 := hs.diag_nonneg hn hi
    obtain ⟨hs', hc'⟩ := ih (floydRound vs i d) (fun u => S u ∨ u = i)
      (fun j hj => hsub j (by simp [hj])) (walkSound_round hs hn hi) (walkComplete_round hc hi h0)
    refine ⟨hs', ?_⟩
    intro r hr c hcv l hl
    apply hc' r hr c hcv l
    intro u hu
    rcases hl u hu with h | h
    · exact Or.inl (Or.inl h)
    · rcases List.mem_cons.mp h with h | h
      · exact Or.inl (Or.inr h)
      · exact Or.inr h

/-- Floyd on a matrix without negative closed walks: every cell over `vs` is the
weight of a walk over `vs` and a lower bound of the weight of every such walk. -/
theorem floydLoops_spec {adj : DistanceMatrix} {vs : List Nat} (hn : NoNegativeCycle adj vs) :
    WalkSound adj vs (floydLoops vs adj) ∧
    WalkComplete adj vs (fun u => u ∈ vs) (floydLoops vs adj) := by
  have hs0 : WalkSound adj vs adj := fun r _ c _ => ⟨[], by simp, rfl⟩
  have hc0 : WalkComplete adj vs (fun _ => False) adj := by
    intro r _ c _ l hl
    cases l with
    | nil => exact le_rfl
    | cons u l => exact (hl u (by simp)).elim
  obtain ⟨hs, hc⟩ := floyd_outer hn vs adj (fun _ => False) (fun _ h => h) hs0 hc0
  rw [floydLoops_eq]
  refine ⟨hs, ?_⟩
  intro r hr c hcv l hl
  exact hc r hr c hcv l (fun u hu => Or.inr (hl u hu))

/-! ## Floyd computes shortest path weights -/

theorem mem_vertices (g : TopologicalGraph) (v : Nat) : v ∈ vertices g ↔ InRange g v := by
  unfold vertices InRange
  rw [List.mem_range'_1]

theorem pathWeight_eq_walkWeight (adj : DistanceMatrix) (l : List Nat) (a b : Nat) :
    pathWeight adj (a :: (l ++ [b])) = walkWeight adj a l b := by
  induction l generalizing a with
  | nil => simp [pathWeight, walkWeight]
  | cons v l ih =>
    show adj.cell a v + pathWeight adj (v :: (l ++ [b])) = _
    rw [ih, walkWeight]

theorem walkWeight_nonneg {adj : DistanceMatrix} {vs : List Nat}
    (hnn : ∀ r ∈ vs, ∀ c ∈ vs, 0 ≤ adj.cell r c) (l : List Nat) :
    ∀ a ∈ vs, ∀ b ∈ vs, (∀ u ∈ l, u ∈ vs) → 0 ≤ walkWeight adj a l b := by
  induction l with
  | nil => intro a ha b hb _; exact hnn a ha b hb
  | cons v l ih =>
    intro a ha b hb hl
    have hv : v ∈ vs := hl v (by simp)
    have := ih v hv b hb (fun u hu => hl u (by simp [hu]))
    have := hnn a ha v hv
    simp only [walkWeight]
    linarith

theorem noNegativeCycle_of_nonneg {adj : DistanceMatrix} {vs : List Nat}
    (hnn : ∀ r ∈ vs, ∀ c ∈ vs, 0 ≤ adj.cell r c) : NoNegativeCycle adj vs :=
  fun v hv l hl => walkWeight_nonneg hnn l v hv v hv hl

/-- A walk of nonnegative cells that weighs less than `M` uses no cell equal to `M`. -/
theorem chain_of_walkWeight_lt {adj : DistanceMatrix} {vs : List Nat} {M : Distance}
    (hnn : ∀ r ∈ vs, ∀ c ∈ vs, 0 ≤ adj.cell r c) (l : List Nat) :
    ∀ a ∈ vs, ∀ b ∈ vs, (∀ u ∈ l, u ∈ vs) → walkWeight adj a l b < M →
      (a :: (l ++ [b])).Chain' (fun x y => adj.cell x y ≠ M) := by
  induction l with
  | nil =>
    intro a _ b _ _ h
    simp only [walkWeight] at h
    simpa using ne_of_lt h
  | cons v l ih =>
    intro a ha b hb hl h
    have hv : v ∈ vs := hl v (by simp)
    have hl' : ∀ u ∈ l, u ∈ vs := fun u hu => hl u (by simp [hu])
    simp only [walkWeight] at h
    have h1 := walkWeight_nonneg hnn l v hv b hb hl'
    have h2 := hnn a ha v hv
    have h3 := ih v hv b hb hl' (by linarith)
    rw [List.cons_append, List.chain'_cons]
    exact ⟨ne_of_lt (by linarith), h3⟩

theorem IsPath.cases {g : TopologicalGraph} {M : Distance} {j k : Nat} {p : List Nat}
    (h : IsPath g M j k p) : (p = [j] ∧ j = k) ∨ ∃ l, p = j :: (l ++ [k]) := by
  obtain ⟨hh, hl, _, _⟩ := h
  obtain ⟨ys, rfl⟩ := List.getLast?_eq_some_iff.mp hl
  cases ys with
  | nil =>
    simp only [List.nil_append, List.head?_cons, Option.some.injEq] at hh
    left; subst hh; exact ⟨rfl, rfl⟩
  | cons y ys =>
    simp only [List.cons_append, List.head?_cons, Option.some.injEq] at hh
    right; subst hh; exact ⟨ys, rfl⟩

theorem IsPath.single {g : TopologicalGraph} {M : Distance} {j : Nat} (hj : InRange g j) :
    IsPath g M j j [j] :=
  ⟨rfl, rfl, by simpa using hj, List.chain'_singleton j⟩

theorem IsPath.ofWalk {g : TopologicalGraph} {M : Distance} {j k : Nat} {l : List Nat}
    (hj : InRange g j) (hk : InRange g k) (hl : ∀ u ∈ l, InRange g u)
    (hc : (j :: (l ++ [k])).Chain' (fun x y => g.adjMat.cell x y ≠ M)) :
    IsPath g M j k (j :: (l ++ [k])) := by
  refine ⟨rfl, ?_, ?_, hc⟩
  · rw [← List.cons_append, List.getLast?_concat]
  · intro v hv
    simp only [List.mem_cons, List.mem_append, List.mem_singleton, List.not_mem_nil,
      or_false] at hv
    rcases hv with rfl | hv | rfl
    · exact hj
    · exact hl v hv
    · exact hk

/-- Cutting the detours out of a path leaves a path without repeated vertex. -/
theorem IsPath.exists_simple {g : TopologicalGraph} {M : Distance} (p : List Nat) :
    ∀ {j k : Nat}, IsPath g M j k p → ∃ q, IsPath g M j k q ∧ q.Nodup := by
  induction p with
  | nil => intro j k h; simp [IsPath] at h
  | cons v t ih =>
    intro j k h
    obtain ⟨hh, hl, hr, hc⟩ := h
    simp only [List.head?_cons, Option.some.injEq] at hh
    subst hh
    cases t with
    | nil => exact ⟨[v], ⟨rfl, hl, hr, hc⟩, List.nodup_singleton v⟩
    | cons u t =>
      have htl : IsPath g M u k (u :: t) :=
        ⟨rfl, by simpa using hl, fun w hw => hr w (by simp [hw]), (List.chain'_cons.mp hc).2⟩
      obtain ⟨q, hq, hnd⟩ := ih htl
      by_cases hv : v ∈ q
      · obtain ⟨a, c, rfl⟩ := List.append_of_mem hv
        refine ⟨v :: c, ⟨rfl, ?_, ?_, ?_⟩, ?_⟩
        · have := hq.2.1
          rw [List.getLast?_append_cons] at this
          exact this
        · intro w hw
          exact hq.2.2.1 w (by simp only [List.mem_append]; exact Or.inr hw)
        · exact hq.2.2.2.right_of_append
        · exact (List.nodup_append.mp hnd).2.1
      · obtain ⟨hqh, hql, hqr, hqc⟩ := hq
        cases q with
        | nil => simp at hqh
        | cons u' q =>
          simp only [List.head?_cons, Option.some.injEq] at hqh
          subst hqh
          refine ⟨v :: u' :: q, ⟨rfl, ?_, ?_, ?_⟩, List.nodup_cons.mpr ⟨hv, hnd⟩⟩
          · simpa using hql
          · intro w hw
            rcases List.mem_cons.mp hw with rfl | hw
            · exact hr w (by simp)
            · exact hqr w hw
          · exact List.chain'_cons.mpr ⟨(List.chain'_cons.mp hc).1, hqc⟩

/-- C1. On an adjacency matrix whose valid-range cells are 0 on the diagonal and
otherwise a nonnegative weight or `MAX_DISTANCE`, with every simple path weighing less
than `MAX_DISTANCE`,
`getShortestPathByFloyd` leaves in `shortestDist[j][k]` the minimum weight of a path
from `j` to `k`: it is a lower bound of every path weight, it is attained by a path
when one exists, and it is `MAX_DISTANCE` exactly when there is no path. -/
theorem floyd_computes_shortest_paths (M : Distance) (g : TopologicalGraph)
    (hdiag : ∀ v, InRange g v → g.adjMat.cell v v = 0)
    (hcells : ∀ j k, InRange g j → InRange g k →
      0 ≤ g.adjMat.cell j k ∨ g.adjMat.cell j k = M)
    (hsimple : ∀ j k p, IsPath g M j k p → p.Nodup → pathWeight g.adjMat p < M)
    (j k : Nat) (hj : InRange g j) (hk : InRange g k) :
    (∀ p, IsPath g M j k p →
      (getShortestPathByFloyd g).shortestDist.cell j k ≤ pathWeight g.adjMat p) ∧
    ((∃ p, IsPath g M j k p) → ∃ p, IsPath g M j k p ∧
      pathWeight g.adjMat p = (getShortestPathByFloyd g).shortestDist.cell j k) ∧
    ((getShortestPathByFloyd g).shortestDist.cell j k = M ↔ ¬ ∃ p, IsPath g M j k p) := by
  have hMpos : 0 < M := by
    have := hsimple j j [j] (IsPath.single hj) (List.nodup_singleton j)
    simpa [pathWeight] using this
  have hnn : ∀ j k, InRange g j → InRange g k → 0 ≤ g.adjMat.cell j k := by
    intro a b ha hb
    rcases hcells a b ha hb with h | h
    · exact h
    · rw [h]; exact le_of_lt hMpos
  have hnn' : ∀ r ∈ vertices g, ∀ c ∈ vertices g, 0 ≤ g.adjMat.cell r c :=
    fun r hr c hc => hnn r c ((mem_vertices g r).mp hr) ((mem_vertices g c).mp hc)
  obtain ⟨hs, hc⟩ := floydLoops_spec (noNegativeCycle_of_nonneg hnn')
  have hjv := (mem_vertices g j).mpr hj
  have hkv := (mem_vertices g k).mpr hk
  show (∀ p, IsPath g M j k p →
      (floydLoops (vertices g) g.adjMat).cell j k ≤ pathWeight g.adjMat p) ∧
    ((∃ p, IsPath g M j k p) → ∃ p, IsPath g M j k p ∧
      pathWeight g.adjMat p = (floydLoops (vertices g) g.adjMat).cell j k) ∧
    ((floydLoops (vertices g) g.adjMat).cell j k = M ↔ ¬ ∃ p, IsPath g M j k p)
  generalize hD : (floydLoops (vertices g) g.adjMat).cell j k = D
  have hle_adj : D ≤ g.adjMat.cell j k := by
    have := hc j hjv k hkv [] (by simp)
    rw [hD] at this
    exact this
  have hlow : ∀ p, IsPath g M j k p → D ≤ pathWeight g.adjMat p := by
    intro p hp
    rcases hp.cases with ⟨rfl, rfl⟩ | ⟨l, rfl⟩
    · have := hdiag j hj
      simp only [pathWeight]
      linarith
    · rw [pathWeight_eq_walkWeight, ← hD]
      apply hc j hjv k hkv l
      intro u hu
      exact (mem_vertices g u).mpr (hp.2.2.1 u (by simp [hu]))
  have hlt : (∃ p, IsPath g M j k p) → D < M := by
    rintro ⟨p, hp⟩
    obtain ⟨q, hq, hnd⟩ := IsPath.exists_simple p hp
    exact lt_of_le_of_lt (hlow q hq) (hsimple j k q hq hnd)
  have hatt : D < M → ∃ p, IsPath g M j k p ∧ pathWeight g.adjMat p = D := by
    intro hDM
    obtain ⟨l, hl, he⟩ := hs j hjv k hkv
    rw [hD] at he
    have hch := chain_of_walkWeight_lt hnn' l j hjv k hkv hl (he ▸ hDM)
    refine ⟨j :: (l ++ [k]), IsPath.ofWalk hj hk (fun u hu => (mem_vertices g u).mp (hl u hu)) hch, ?_⟩
    rw [pathWeight_eq_walkWeight, he]
  have hleM : D ≤ M := by
    by_cases hjk : j = k
    · subst hjk
      have := hdiag j hj
      linarith
    · by_cases ha : g.adjMat.cell j k = M
      · linarith
      · have hp : IsPath g M j k [j, k] :=
          ⟨rfl, rfl, by simp only [List.mem_cons, List.mem_singleton, List.not_mem_nil, or_false]
                        rintro v (rfl | rfl)
                        · exact hj
                        · exact hk,
            List.chain'_pair.mpr ha⟩
        have := hsimple j k [j, k] hp (by simp [hjk])
        simp only [pathWeight] at this
        linarith
  refine ⟨hlow, fun h => hatt (hlt h), ?_⟩
  constructor
  · intro hDM hex
    have := hlt hex
    linarith
  · intro hno
    by_contra hne
    have hDlt : D < M := lt_of_le_of_ne hleM hne
    obtain ⟨p, hp, _⟩ := hatt hDlt
    exact hno ⟨p, hp⟩

theorem pathWeight_le_of_bound {g : TopologicalGraph} {M B : Distance} (hB : 0 ≤ B)
    (hb : ∀ a b, InRange g a → InRange g b → g.adjMat.cell a b ≠ M → g.adjMat.cell a b ≤ B)
    (p : List Nat) : (∀ v ∈ p, InRange g v) →
    p.Chain' (fun a b => g.adjMat.cell a b ≠ M) → pathWeight g.adjMat p ≤ B * p.length := by
  induction p with
  | nil => intro _ _; simp [pathWeight]
  | cons a t ih =>
    intro hr hc
    cases t with
    | nil => simp only [pathWeight, List.length_singleton, Nat.cast_one, mul_one]; exact hB
    | cons b t =>
      have h1 := ih (fun v hv => hr v (by simp [hv])) (List.chain'_cons.mp hc).2
      have h2 := hb a b (hr a (by simp)) (hr b (by simp)) (List.chain'_cons.mp hc).1
      simp only [pathWeight, List.length_cons, Nat.cast_add, Nat.cast_one] at h1 ⊢
      nlinarith

theorem length_le_of_nodup {g : TopologicalGraph} {p : List Nat} (hnd : p.Nodup)
    (hr : ∀ v ∈ p, InRange g v) : p.length ≤ g.vertexNum := by
  have hsub : p ⊆ vertices g := fun v hv => (mem_vertices g v).mpr (hr v hv)
  have := (List.subperm_of_subset hnd hsub).length_le
  simpa [vertices] using this

/-- If every arc weighs at most `B` and `B * vertexNum < M`, every simple path weighs
less than `M`. -/
theorem simple_path_bound {g : TopologicalGraph} {M : Distance} (B : Distance) (hB : 0 ≤ B)
    (hb : ∀ a b, InRange g a → InRange g b → g.adjMat.cell a b ≠ M → g.adjMat.cell a b ≤ B)
    (hM : B * g.vertexNum < M) :
    ∀ j k p, IsPath g M j k p → p.Nodup → pathWeight g.adjMat p < M := by
  intro j k p hp hnd
  have h1 := pathWeight_le_of_bound hB hb p hp.2.2.1 hp.2.2.2
  have h2 : (p.length : Int) ≤ g.vertexNum := by
    exact_mod_cast length_le_of_nodup hnd hp.2.2.1
  have h3 : B * (p.length : Int) ≤ B * g.vertexNum := mul_le_mul_of_nonneg_left h2 hB
  linarith

theorem forall_inRange_of_vertices {g : TopologicalGraph} {P : Nat → Prop}
    (h : ∀ v ∈ vertices g, P v) : ∀ v, InRange g v → P v :=
  fun v hv => h v ((mem_vertices g v).mpr hv)

theorem forall_inRange2_of_vertices {g : TopologicalGraph} {P : Nat → Nat → Prop}
    (h : ∀ a ∈ vertices g, ∀ b ∈ vertices g, P a b) : ∀ a b, InRange g a → InRange g b → P a b :=
  fun a b ha hb => h a ((mem_vertices g a).mpr ha) b ((mem_vertices g b).mpr hb)

set_option maxRecDepth 100000 in
/-- Witness of C1: on vertices {0,1,2} with undirected arcs (0,1,5) and (1,2,3) the
computed `distance(0,2)` is 8, and 8 is the weight of the shortest path. -/
theorem floyd_computes_shortest_paths_witness :
    (getShortestPathByFloyd (UndirectedGraph 1000 [⟨0, 1, 5⟩, ⟨1, 2, 3⟩] 3 0)).shortestDist.cell
      0 2 = 8 ∧
    (∀ p, IsPath (UndirectedGraph 1000 [⟨0, 1, 5⟩, ⟨1, 2, 3⟩] 3 0) 1000 0 2 p →
      8 ≤ pathWeight (UndirectedGraph 1000 [⟨0, 1, 5⟩, ⟨1, 2, 3⟩] 3 0).adjMat p) ∧
    ((getShortestPathByFloyd (UndirectedGraph 1000 [⟨0, 1, 5⟩, ⟨1, 2, 3⟩] 3 0)).shortestDist.cell
      0 2 = 1000 ↔
      ¬ ∃ p, IsPath (UndirectedGraph 1000 [⟨0, 1, 5⟩, ⟨1, 2, 3⟩] 3 0) 1000 0 2 p) := by
  have h := floyd_computes_shortest_paths 1000
    (UndirectedGraph 1000 [⟨0, 1, 5⟩, ⟨1, 2, 3⟩] 3 0)
    (forall_inRange_of_vertices (by decide))
    (forall_inRange2_of_vertices (by decide))
    (simple_path_bound 5 (by decide) (forall_inRange2_of_vertices (by decide))
      (by decide))
    0 2 (by decide) (by decide)
  have e : (getShortestPathByFloyd
      (UndirectedGraph 1000 [⟨0, 1, 5⟩, ⟨1, 2, 3⟩] 3 0)).shortestDist.cell 0 2 = 8 := by decide
  rw [e] at h
  exact ⟨e, h.1, h.2.2⟩

/-! ## Triangle inequality and the diagonal -/

/-- C4. On an adjacency matrix without negative cycle (no closed walk over the valid
range has negative weight, every cell counting with its plain integer value,
`MAX_DISTANCE` included), the matrix left by `getShortestPathByFloyd` satisfies
`shortestDist[a][c] <= shortestDist[a][b] + shortestDist[b][c]` on the valid range. -/
theorem floyd_triangle_inequality (g : TopologicalGraph)
    (hn : NoNegativeCycle g.adjMat (vertices g)) (a b c : Nat)
    (ha : InRange g a) (hb : InRange g b) (hc : InRange g c) :
    (getShortestPathByFloyd g).shortestDist.cell a c ≤
      (getShortestPathByFloyd g).shortestDist.cell a b +
        (getShortestPathByFloyd g).shortestDist.cell b c := by
  obtain ⟨hs, hcm⟩ := floydLoops_spec hn
  have hav := (mem_vertices g a).mpr ha
  have hbv := (mem_vertices g b).mpr hb
  have hcv := (mem_vertices g c).mpr hc
  obtain ⟨l1, hl1, he1⟩ := hs a hav b hbv
  obtain ⟨l2, hl2, he2⟩ := hs b hbv c hcv
  show (floydLoops (vertices g) g.adjMat).cell a c ≤
    (floydLoops (vertices g) g.adjMat).cell a b + (floydLoops (vertices g) g.adjMat).cell b c
  rw [he1, he2, ← walkWeight_append]
  apply hcm a hav c hcv
  intro u hu
  rcases List.mem_append.mp hu with h | h
  · exact hl1 u h
  · rcases List.mem_cons.mp h with rfl | h
    · exact hbv
    · exact hl2 u h

/-- Witness of C4 on the directed arcs (0,1,5), (1,2,3), (0,2,10). -/
theorem floyd_triangle_inequality_witness :
    NoNegativeCycle (DirectedGraph 1000 [⟨0, 1, 5⟩, ⟨1, 2, 3⟩, ⟨0, 2, 10⟩] 3 0).adjMat
      (vertices (DirectedGraph 1000 [⟨0, 1, 5⟩, ⟨1, 2, 3⟩, ⟨0, 2, 10⟩] 3 0)) ∧
    (getShortestPathByFloyd
      (DirectedGraph 1000 [⟨0, 1, 5⟩, ⟨1, 2, 3⟩, ⟨0, 2, 10⟩] 3 0)).shortestDist.cell 0 2 ≤
    (getShortestPathByFloyd
      (DirectedGraph 1000 [⟨0, 1, 5⟩, ⟨1, 2, 3⟩, ⟨0, 2, 10⟩] 3 0)).shortestDist.cell 0 1 +
    (getShortestPathByFloyd
      (DirectedGraph 1000 [⟨0, 1, 5⟩, ⟨1, 2, 3⟩, ⟨0, 2, 10⟩] 3 0)).shortestDist.cell 1 2 :=
  have hn : NoNegativeCycle (DirectedGraph 1000 [⟨0, 1, 5⟩, ⟨1, 2, 3⟩, ⟨0, 2, 10⟩] 3 0).adjMat
      (vertices (DirectedGraph 1000 [⟨0, 1, 5⟩, ⟨1, 2, 3⟩, ⟨0, 2, 10⟩] 3 0)) :=
    noNegativeCycle_of_nonneg (by decide)
  ⟨hn, floyd_triangle_inequality _ hn 0 1 2 (by decide) (by decide) (by decide)⟩

/-- After Floyd, a zero diagonal stays zero when there is no negative cycle. -/
theorem floydLoops_diag {adj : DistanceMatrix} {vs : List Nat} (hn : NoNegativeCycle adj vs)
    {v : Nat} (hv : v ∈ vs) (h0 : adj.cell v v = 0) : (floydLoops vs adj).cell v v = 0 := by
  obtain ⟨hs, hc⟩ := floydLoops_spec hn
  have h1 : (floydLoops vs adj).cell v v ≤ 0 := by
    have := hc v hv v hv [] (by simp)
    simpa [walkWeight, h0] using this
  have h2 := hs.diag_nonneg hn hv
  exact le_antisymm h1 h2

theorem constructed_solved {M : Distance} {g : TopologicalGraph} (h : Constructed M g)
    (hs : g.shortestDistSolved = true) : g.shortestDist = g.adjMat := by
  cases h with
  | undirected arcList vn mvi _ => simp [UndirectedGraph, TopologicalGraph.new] at hs
  | directed arcList vn mvi _ => simp [DirectedGraph, TopologicalGraph.new] at hs
  | ofPoints gg => rfl

/-- C3 (amended). For a graph built by any constructor whose adjacency matrix has a
zero diagonal on the valid range and no negative cycle, `getShortestPath` leaves
`shortestDist[v][v] == 0` for every valid `v`. -/
theorem getShortestPath_diag_zero (M : Distance) (g : TopologicalGraph)
    (hg : Constructed M g) (hdiag : ∀ v, InRange g v → g.adjMat.cell v v = 0)
    (hn : NoNegativeCycle g.adjMat (vertices g)) (v : Nat) (hv : InRange g v) :
    (getShortestPath g).shortestDist.cell v v = 0 := by
  unfold getShortestPath
  by_cases hs : g.shortestDistSolved = false
  · rw [if_pos hs]
    exact floydLoops_diag hn ((mem_vertices g v).mpr hv) (hdiag v hv)
  · rw [if_neg hs]
    have hs' : g.shortestDistSolved = true := by simpa using hs
    rw [constructed_solved hg hs']
    exact hdiag v hv

/-- Witness of C3 (amended) on the undirected arcs (0,1,5), (1,2,3). -/
theorem getShortestPath_diag_zero_witness :
    (getShortestPath (UndirectedGraph 1000 [⟨0, 1, 5⟩, ⟨1, 2, 3⟩] 3 0)).shortestDist.cell 1 1
      = 0 :=
  getShortestPath_diag_zero 1000 (UndirectedGraph 1000 [⟨0, 1, 5⟩, ⟨1, 2, 3⟩] 3 0)
    (Constructed.undirected _ 3 0 (by decide))
    (forall_inRange_of_vertices (by decide))
    (noNegativeCycle_of_nonneg (by decide)) 1 (by decide)

/-- C3 fails as stated: the self-loop arc (0,0,5) on a one-vertex undirected graph
leaves `shortestDist[0][0] = 5` after `getShortestPath`. -/
theorem getShortestPath_diag_counterexample :
    Constructed 1000 (UndirectedGraph 1000 [⟨0, 0, 5⟩] 1 0) ∧
    InRange (UndirectedGraph 1000 [⟨0, 0, 5⟩] 1 0) 0 ∧
    (getShortestPath (UndirectedGraph 1000 [⟨0, 0, 5⟩] 1 0)).shortestDist.cell 0 0 = 5 ∧
    (getShortestPath (UndirectedGraph 1000 [⟨0, 0, 5⟩] 1 0)).shortestDist.cell 0 0 ≠ 0 :=
  ⟨Constructed.undirected _ 1 0 (by decide), by decide, by decide, by decide⟩

/-! ## Ranking by `std::sort` -/

theorem strictWeakOrder_trans_not {cmp : Nat → Nat → Bool} (h : StrictWeakOrder cmp)
    {a b c : Nat} (hab : cmp b a = false) (hbc : cmp c b = false) : cmp c a = false := by
  obtain ⟨_, htr, heq⟩ := h
  by_contra hca
  have hca' : cmp c a = true := by simpa using hca
  cases hab' : cmp a b with
  | true =>
    have := htr c a b hca' hab'
    rw [hbc] at this
    exact Bool.noConfusion this
  | false =>
    cases hbc' : cmp b c with
    | true =>
      have := htr b c a hbc' hca'
      rw [hab] at this
      exact Bool.noConfusion this
    | false =>
      have := (heq a b c hab' hab hbc' hbc).2
      exact hca this

theorem strictWeakOrder_total {cmp : Nat → Nat → Bool} (h : StrictWeakOrder cmp)
    (a b : Nat) : cmp b a = false ∨ cmp a b = false := by
  obtain ⟨hirr, htr, _⟩ := h
  cases hba : cmp b a with
  | false => exact Or.inl rfl
  | true =>
    right
    by_contra hab
    have hab' : cmp a b = true := by simpa using hab
    have := htr a b a hab' hba
    rw [hirr a] at this
    exact Bool.noConfusion this

theorem insertionSort_conforms (cmp : Nat → Nat → Bool) (hc : StrictWeakOrder cmp)
    (l : List Nat) :
    (l.insertionSort (fun a b => cmp b a = false)).Perm l ∧
    (l.insertionSort (fun a b => cmp b a = false)).Pairwise (fun a b => cmp b a = false) := by
  haveI : IsTotal Nat (fun a b => cmp b a = false) := ⟨strictWeakOrder_total hc⟩
  haveI : IsTrans Nat (fun a b => cmp b a = false) :=
    ⟨fun _ _ _ hab hbc => strictWeakOrder_trans_not hc hab hbc⟩
  exact ⟨List.perm_insertionSort _ l, List.sorted_insertionSort _ l⟩

theorem stableSort_spec : StdSortSpec stableSort :=
  fun cmp l hc => insertionSort_conforms cmp hc l

theorem reversingSort_spec : StdSortSpec reversingSort := by
  intro cmp l hc
  obtain ⟨hp, hs⟩ := insertionSort_conforms cmp hc l.reverse
  exact ⟨hp.trans (List.reverse_perm l), hs⟩

theorem distCmp_strictWeakOrder (g : TopologicalGraph) (sv : Nat) :
    StrictWeakOrder (DistCmp g sv) := by
  refine ⟨?_, ?_, ?_⟩
  · intro a; simp [DistCmp]
  · intro a b c hab hbc
    simp only [DistCmp, decide_eq_true_eq] at *
    exact lt_trans hab hbc
  · intro a b c h1 h2 h3 h4
    simp only [DistCmp, decide_eq_false_iff_not, not_lt] at *
    exact ⟨le_trans h3 h1, le_trans h2 h4⟩

theorem foldl_update_apply (l : List Nat) (s : Nat → Nat) (r : Nat) :
    (l.foldl (fun s i => fun r => if r = i then i else s r) s) r = if r ∈ l then r else s r := by
  induction l generalizing s with
  | nil => simp
  | cons i l ih =>
    rw [List.foldl_cons, ih]
    by_cases h1 : r ∈ l
    · simp [h1]
    · by_cases h2 : r = i
      · simp [h2]
      · simp [h1, h2]

theorem initSeq_of_inRange (g : TopologicalGraph) {c : Nat} (hc : InRange g c) :
    initSeq g c = c := by
  unfold initSeq
  rw [foldl_update_apply, if_pos ((mem_vertices g c).mpr hc)]

theorem rowSegment_eq (g : TopologicalGraph) (h : g.vertexAllocNum = g.vertexNum + g.minVertexIndex)
    (t : DistSeqTable) (i : Nat) : rowSegment g t i = (vertices g).map (t.cell i) := by
  unfold rowSegment vertices
  rw [h, Nat.add_sub_cancel]

theorem rowSegment_init (g : TopologicalGraph)
    (h : g.vertexAllocNum = g.vertexNum + g.minVertexIndex) (i : Nat) :
    rowSegment g (initDistSeq g) i = vertices g := by
  rw [rowSegment_eq g h]
  conv_rhs => rw [← List.map_id (vertices g)]
  apply List.map_congr_left
  intro c hc
  exact initSeq_of_inRange g ((mem_vertices g c).mp hc)

theorem map_getD_range' (L : List Nat) (lo : Nat) :
    (List.range' lo L.length).map (fun c => L.getD (c - lo) 0) = L := by
  apply List.ext_getElem
  · simp
  · intro n h1 h2
    simp only [List.getElem_map, List.getElem_range', one_mul, Nat.add_sub_cancel_left]
    rw [List.getD_eq_getElem _ _ h2]

/-- The row step of `getDistSeqTableBySTLsort`. -/
theorem stlStep_other (g : TopologicalGraph) (sort : (Nat → Nat → Bool) → List Nat → List Nat)
    (t : DistSeqTable) (i v : Nat) (hvi : v ≠ i) (c : Nat) :
    (setRowSegment t i g.minVertexIndex (sort (DistCmp g i) (rowSegment g t i))).cell v c =
      t.cell v c := by
  simp [setRowSegment, hvi]

theorem stlFold_not_mem (g : TopologicalGraph) (sort : (Nat → Nat → Bool) → List Nat → List Nat)
    (is : List Nat) : ∀ (t : DistSeqTable) (v : Nat), v ∉ is → ∀ c,
    (is.foldl (fun t i => setRowSegment t i g.minVertexIndex
      (sort (DistCmp g i) (rowSegment g t i))) t).cell v c = t.cell v c := by
  induction is with
  | nil => intro t v _ c; rfl
  | cons i is ih =>
    intro t v hv c
    rw [List.foldl_cons, ih _ v (fun h => hv (List.mem_cons_of_mem _ h))]
    exact stlStep_other g sort t i v (fun h => hv (h ▸ List.mem_cons_self _ _)) c

theorem rowSegment_congr (g : TopologicalGraph) (t t' : DistSeqTable) (v : Nat)
    (h : ∀ c, t'.cell v c = t.cell v c) : rowSegment g t' v = rowSegment g t v := by
  unfold rowSegment
  apply List.map_congr_left
  intro c _
  exact h c

theorem stlFold_mem (g : TopologicalGraph) (sort : (Nat → Nat → Bool) → List Nat → List Nat)
    (is : List Nat) : ∀ (t : DistSeqTable) (v : Nat), is.Nodup → v ∈ is → ∀ c,
    (is.foldl (fun t i => setRowSegment t i g.minVertexIndex
      (sort (DistCmp g i) (rowSegment g t i))) t).cell v c =
    (setRowSegment t v g.minVertexIndex (sort (DistCmp g v) (rowSegment g t v))).cell v c := by
  induction is with
  | nil => intro t v _ hv; simp at hv
  | cons i is ih =>
    intro t v hnd hv c
    rw [List.foldl_cons]
    obtain ⟨hi, hnd'⟩ := List.nodup_cons.mp hnd
    by_cases hvi : v = i
    · subst hvi
      exact stlFold_not_mem g sort is _ v hi c
    · have hv' : v ∈ is := by
        rcases List.mem_cons.mp hv with h | h
        · exact absurd h hvi
        · exact h
      rw [ih _ v hnd' hv' c]
      have hrow := stlStep_other g sort t i v hvi
      rw [rowSegment_congr g t _ v hrow]
      simp only [setRowSegment]
      split
      · rfl
      · simp [hvi]

theorem vertices_nodup (g : TopologicalGraph) : (vertices g).Nodup :=
  List.nodup_range' _ _

/-- After `getDistSeqTableBySTLsort`, the ranks of the valid range of row `v` hold
what `std::sort` made of `minVertexIndex, ..., maxVertexIndex`. -/
theorem stlsort_rankedRow (g : TopologicalGraph)
    (sort : (Nat → Nat → Bool) → List Nat → List Nat) (hsort : StdSortSpec sort)
    (h : g.vertexAllocNum = g.vertexNum + g.minVertexIndex) (v : Nat) (hv : InRange g v) :
    rankedRow (getDistSeqTableBySTLsort sort g) v = sort (DistCmp g v) (vertices g) := by
  have hlen : (sort (DistCmp g v) (vertices g)).length = g.vertexNum := by
    rw [(hsort _ (vertices g) (distCmp_strictWeakOrder g v)).1.length_eq]
    simp [vertices]
  unfold rankedRow nthClosestVertex
  show List.map (fun n => ((vertices g).foldl (fun t i => setRowSegment t i g.minVertexIndex
      (sort (DistCmp g i) (rowSegment g t i))) (initDistSeq g)).cell v n) (vertices g) = _
  have hrow : ∀ c ∈ vertices g,
      ((vertices g).foldl (fun t i => setRowSegment t i g.minVertexIndex
        (sort (DistCmp g i) (rowSegment g t i))) (initDistSeq g)).cell v c =
      (sort (DistCmp g v) (vertices g)).getD (c - g.minVertexIndex) 0 := by
    intro c hc
    rw [stlFold_mem g sort (vertices g) _ v (vertices_nodup g) ((mem_vertices g v).mpr hv) c,
      rowSegment_init g h]
    have hc' := (mem_vertices g c).mp hc
    simp only [setRowSegment, true_and]
    rw [if_pos ⟨hc'.1, by rw [hlen]; exact hc'.2⟩]
  rw [List.map_congr_left hrow]
  have := map_getD_range' (sort (DistCmp g v) (vertices g)) g.minVertexIndex
  rw [hlen] at this
  exact this

/-! ## Invariant of the reachable states -/

theorem constructed_alloc {M : Distance} {g : TopologicalGraph} (h : Constructed M g) :
    g.vertexAllocNum = g.vertexNum + g.minVertexIndex := by
  cases h <;> rfl

theorem constructed_distSeqSolved {M : Distance} {g : TopologicalGraph} (h : Constructed M g) :
    g.distSeqSolved = false := by
  cases h <;> rfl

theorem graphInv_constructed {M : Distance} {g : TopologicalGraph}
    (sort : (Nat → Nat → Bool) → List Nat → List Nat) (h : Constructed M g) : GraphInv sort g := by
  refine ⟨constructed_alloc h, fun hs => Or.inl (constructed_solved h hs), fun hd => ?_⟩
  rw [constructed_distSeqSolved h] at hd
  exact Bool.noConfusion hd

theorem getShortestPath_solved (g : TopologicalGraph) :
    (getShortestPath g).shortestDistSolved = true := by
  unfold getShortestPath
  by_cases hs : g.shortestDistSolved = false
  · rw [if_pos hs]
  · rw [if_neg hs]; simpa using hs

theorem getShortestPath_vertexNum (g : TopologicalGraph) :
    (getShortestPath g).vertexNum = g.vertexNum := by
  unfold getShortestPath; split <;> rfl

theorem getShortestPath_minVertexIndex (g : TopologicalGraph) :
    (getShortestPath g).minVertexIndex = g.minVertexIndex := by
  unfold getShortestPath; split <;> rfl

theorem getShortestPath_adjMat (g : TopologicalGraph) :
    (getShortestPath g).adjMat = g.adjMat := by
  unfold getShortestPath; split <;> rfl

theorem getShortestPath_inRange (g : TopologicalGraph) (v : Nat) :
    InRange (getShortestPath g) v ↔ InRange g v := by
  unfold InRange
  rw [getShortestPath_vertexNum, getShortestPath_minVertexIndex]

theorem getShortestPath_vertices (g : TopologicalGraph) :
    vertices (getShortestPath g) = vertices g := by
  unfold vertices
  rw [getShortestPath_vertexNum, getShortestPath_minVertexIndex]

theorem graphInv_getShortestPath {sort : (Nat → Nat → Bool) → List Nat → List Nat}
    {g : TopologicalGraph} (h : GraphInv sort g) : GraphInv sort (getShortestPath g) := by
  unfold getShortestPath
  by_cases hs : g.shortestDistSolved = false
  · rw [if_pos hs]
    exact ⟨h.1, fun _ => Or.inr rfl, fun hd => Bool.noConfusion hd⟩
  · rw [if_neg hs]; exact h

theorem getDistSeqTable_unsolved {sort : (Nat → Nat → Bool) → List Nat → List Nat}
    {g : TopologicalGraph} (hd : g.distSeqSolved = false) :
    getDistSeqTable sort g =
      { getDistSeqTableBySTLsort sort (getShortestPath g) with distSeqSolved := true } := by
  unfold getDistSeqTable
  rw [if_pos hd]

theorem graphInv_getDistSeqTable {sort : (Nat → Nat → Bool) → List Nat → List Nat}
    (hsort : StdSortSpec sort) {g : TopologicalGraph} (h : GraphInv sort g) :
    GraphInv sort (getDistSeqTable sort g) := by
  by_cases hd : g.distSeqSolved = false
  · rw [getDistSeqTable_unsolved hd]
    have h1 := graphInv_getShortestPath h
    refine ⟨h1.1, fun _ => h1.2.1 (getShortestPath_solved g),
      fun _ => ⟨getShortestPath_solved g, fun v hv => ?_⟩⟩
    exact stlsort_rankedRow (getShortestPath g) sort hsort h1.1 v hv
  · unfold getDistSeqTable
    rw [if_neg hd]; exact h

theorem graphInv_reachable {M : Distance} {sort : (Nat → Nat → Bool) → List Nat → List Nat}
    (hsort : StdSortSpec sort) {g : TopologicalGraph} (h : Reachable M sort g) :
    GraphInv sort g := by
  induction h with
  | init hc => exact graphInv_constructed sort hc
  | shortestPath _ ih => exact graphInv_getShortestPath ih
  | distSeqTable _ ih => exact graphInv_getDistSeqTable hsort ih

theorem getDistSeqTable_distSeqSolved (sort : (Nat → Nat → Bool) → List Nat → List Nat)
    (g : TopologicalGraph) : (getDistSeqTable sort g).distSeqSolved = true := by
  unfold getDistSeqTable
  by_cases hd : g.distSeqSolved = false
  · rw [if_pos hd]
  · rw [if_neg hd]; simpa using hd

theorem getDistSeqTable_vertexNum (sort : (Nat → Nat → Bool) → List Nat → List Nat)
    (g : TopologicalGraph) : (getDistSeqTable sort g).vertexNum = g.vertexNum := by
  unfold getDistSeqTable
  split
  · exact getShortestPath_vertexNum g
  · rfl

theorem getDistSeqTable_minVertexIndex (sort : (Nat → Nat → Bool) → List Nat → List Nat)
    (g : TopologicalGraph) : (getDistSeqTable sort g).minVertexIndex = g.minVertexIndex := by
  unfold getDistSeqTable
  split
  · exact getShortestPath_minVertexIndex g
  · rfl

theorem getDistSeqTable_adjMat (sort : (Nat → Nat → Bool) → List Nat → List Nat)
    (g : TopologicalGraph) : (getDistSeqTable sort g).adjMat = g.adjMat := by
  unfold getDistSeqTable
  split
  · exact getShortestPath_adjMat g
  · rfl

theorem getDistSeqTable_inRange (sort : (Nat → Nat → Bool) → List Nat → List Nat)
    (g : TopologicalGraph) (v : Nat) : InRange (getDistSeqTable sort g) v ↔ InRange g v := by
  unfold InRange
  rw [getDistSeqTable_vertexNum, getDistSeqTable_minVertexIndex]

theorem getDistSeqTable_vertices (sort : (Nat → Nat → Bool) → List Nat → List Nat)
    (g : TopologicalGraph) : vertices (getDistSeqTable sort g) = vertices g := by
  unfold vertices
  rw [getDistSeqTable_vertexNum, getDistSeqTable_minVertexIndex]

/-- A state with a solved ranking: each row is a rearrangement of the valid ids,
sorted by distance from the row's vertex. -/
theorem ranked_rows {sort : (Nat → Nat → Bool) → List Nat → List Nat} (hsort : StdSortSpec sort)
    {g : TopologicalGraph} (h : GraphInv sort g) (hd : g.distSeqSolved = true)
    (v : Nat) (hv : InRange g v) :
    (rankedRow g v).Perm (vertices g) ∧
    (rankedRow g v).Pairwise (fun a b => distance g v a ≤ distance g v b) := by
  rw [(h.2.2 hd).2 v hv]
  obtain ⟨hp, hs⟩ := hsort (DistCmp g v) (vertices g) (distCmp_strictWeakOrder g v)
  refine ⟨hp, hs.imp ?_⟩
  intro a b hab
  simpa [DistCmp] using hab

theorem rankedRow_length (g : TopologicalGraph) (v : Nat) :
    (rankedRow g v).length = g.vertexNum := by
  simp [rankedRow, vertices]

theorem rankedRow_getElem (g : TopologicalGraph) (v n : Nat) (h : n < (rankedRow g v).length) :
    (rankedRow g v)[n] = nthClosestVertex g v (g.minVertexIndex + n) := by
  simp [rankedRow, vertices]

/-- C5. In every state reached from a constructor, after `getDistSeqTable` the ranks
`minVertexIndex .. maxVertexIndex` of row `v` are a permutation of the valid vertex ids,
and consecutive ranks are non-decreasing in `distance( v, . )`. -/
theorem getDistSeqTable_rows_ranked (M : Distance)
    (sort : (Nat → Nat → Bool) → List Nat → List Nat) (hsort : StdSortSpec sort)
    (g : TopologicalGraph) (hg : Reachable M sort g) (v : Nat) (hv : InRange g v) :
    (rankedRow (getDistSeqTable sort g) v).Perm (vertices g) ∧
    ∀ r, InRange g r → InRange g (r + 1) →
      distance (getDistSeqTable sort g) v (nthClosestVertex (getDistSeqTable sort g) v r) ≤
      distance (getDistSeqTable sort g) v
        (nthClosestVertex (getDistSeqTable sort g) v (r + 1)) := by
  have hinv := graphInv_getDistSeqTable hsort (graphInv_reachable hsort hg)
  have hd := getDistSeqTable_distSeqSolved sort g
  obtain ⟨hp, hs⟩ := ranked_rows hsort hinv hd v ((getDistSeqTable_inRange sort g v).mpr hv)
  rw [getDistSeqTable_vertices] at hp
  refine ⟨hp, ?_⟩
  intro r hr hr1
  have hlen := rankedRow_length (getDistSeqTable sort g) v
  rw [getDistSeqTable_vertexNum] at hlen
  have hmin := getDistSeqTable_minVertexIndex sort g
  obtain ⟨hr_lo, _⟩ := hr
  obtain ⟨_, hr1_hi⟩ := hr1
  have h1 : r - g.minVertexIndex < (rankedRow (getDistSeqTable sort g) v).length := by
    rw [hlen]; omega
  have h2 : r + 1 - g.minVertexIndex < (rankedRow (getDistSeqTable sort g) v).length := by
    rw [hlen]; omega
  have := List.pairwise_iff_getElem.mp hs (r - g.minVertexIndex) (r + 1 - g.minVertexIndex)
    h1 h2 (by omega)
  rw [rankedRow_getElem, rankedRow_getElem, hmin] at this
  have e1 : g.minVertexIndex + (r - g.minVertexIndex) = r := by omega
  have e2 : g.minVertexIndex + (r + 1 - g.minVertexIndex) = r + 1 := by omega
  rw [e1, e2] at this
  exact this

/-- Witness of C5 on the undirected arcs (0,1,5), (1,2,3), ranked with a stable
`std::sort`. -/
theorem getDistSeqTable_rows_ranked_witness :
    (rankedRow (getDistSeqTable stableSort
      (UndirectedGraph 1000 [⟨0, 1, 5⟩, ⟨1, 2, 3⟩] 3 0)) 2).Perm
      (vertices (UndirectedGraph 1000 [⟨0, 1, 5⟩, ⟨1, 2, 3⟩] 3 0)) :=
  (getDistSeqTable_rows_ranked 1000 stableSort stableSort_spec
    (UndirectedGraph 1000 [⟨0, 1, 5⟩, ⟨1, 2, 3⟩] 3 0)
    (Reachable.init (Constructed.undirected _ 3 0 (by decide))) 2 (by decide)).1

/-! ## Counting within a radius -/

theorem findNumLoop_eq (g : TopologicalGraph) (s : Nat) (r : Distance) (n : Nat) :
    ∀ i, findNumLoop g s r i n = i +
      (((List.range' i n).map (nthClosestVertex g s)).takeWhile
        (fun u => decide (distance g s u < r))).length := by
  induction n with
  | zero => intro i; simp [findNumLoop]
  | succ n ih =>
    intro i
    rw [findNumLoop, List.range'_succ, List.map_cons, List.takeWhile_cons]
    by_cases h : distance g s (nthClosestVertex g s i) < r
    · rw [if_neg (not_le.mpr h), ih (i + 1)]
      simp only [h, decide_True, if_true, List.length_cons]
      omega
    · rw [if_pos (not_lt.mp h)]
      simp [h]

theorem takeWhile_eq_filter_of_sorted (key : Nat → Distance) (r : Distance) (L : List Nat)
    (hs : L.Pairwise (fun a b => key a ≤ key b)) :
    L.takeWhile (fun u => decide (key u < r)) = L.filter (fun u => decide (key u < r)) := by
  induction L with
  | nil => rfl
  | cons x L ih =>
    obtain ⟨hx, hL⟩ := List.pairwise_cons.mp hs
    by_cases h : key x < r
    · rw [List.takeWhile_cons, List.filter_cons]
      simp only [h, decide_True, if_true]
      rw [ih hL]
    · rw [List.takeWhile_cons, List.filter_cons]
      simp only [h, decide_False, Bool.false_eq_true, if_false]
      symm
      rw [List.filter_eq_nil_iff]
      intro y hy
      have := hx y hy
      simp only [decide_eq_true_eq, not_lt]
      linarith [not_lt.mp h]

/-- In a state with a solved ranking, the leading run of row `v` below the radius
is the list of all valid vertices below the radius, up to order. -/
theorem leading_run_perm {sort : (Nat → Nat → Bool) → List Nat → List Nat}
    (hsort : StdSortSpec sort) {g : TopologicalGraph} (h : GraphInv sort g)
    (hd : g.distSeqSolved = true) (v : Nat) (hv : InRange g v) (r : Distance) :
    ((rankedRow g v).takeWhile (fun u => decide (distance g v u < r))).Perm
      ((vertices g).filter (fun u => decide (distance g v u < r))) := by
  obtain ⟨hp, hs⟩ := ranked_rows hsort h hd v hv
  rw [takeWhile_eq_filter_of_sorted (distance g v) r _ hs]
  exact hp.filter _

theorem findVertexNumWithinRadius_run (g : TopologicalGraph) (v : Nat) (r : Distance) :
    findVertexNumWithinRadius g v r = g.minVertexIndex +
      ((rankedRow g v).takeWhile (fun u => decide (distance g v u < r))).length := by
  unfold findVertexNumWithinRadius
  rw [findNumLoop_eq]
  rfl

/-- C6 (amended). After `getDistSeqTable`, `findVertexNumWithinRadius( v, r )` returns
`minVertexIndex` plus the number of valid vertex ids `u` with `distance( v, u ) < r`;
it is that number itself when the min index is 0. -/
theorem findVertexNumWithinRadius_eq (M : Distance)
    (sort : (Nat → Nat → Bool) → List Nat → List Nat) (hsort : StdSortSpec sort)
    (g : TopologicalGraph) (hg : Reachable M sort g) (v : Nat) (hv : InRange g v)
    (r : Distance) :
    findVertexNumWithinRadius (getDistSeqTable sort g) v r =
      g.minVertexIndex +
        (vertices g).countP (fun u => decide (distance (getDistSeqTable sort g) v u < r)) := by
  have hinv := graphInv_getDistSeqTable hsort (graphInv_reachable hsort hg)
  have hd := getDistSeqTable_distSeqSolved sort g
  have hp := leading_run_perm hsort hinv hd v ((getDistSeqTable_inRange sort g v).mpr hv) r
  rw [findVertexNumWithinRadius_run, hp.length_eq, getDistSeqTable_vertices,
    getDistSeqTable_minVertexIndex, List.countP_eq_length_filter]

/-- Witness of C6 (amended): on the undirected arcs (1,2,5), (2,3,3) with min index 1,
radius 6 around vertex 1. -/
theorem findVertexNumWithinRadius_eq_witness :
    findVertexNumWithinRadius
      (getDistSeqTable stableSort (UndirectedGraph 1000 [⟨1, 2, 5⟩, ⟨2, 3, 3⟩] 3 1)) 1 6 =
    (UndirectedGraph 1000 [⟨1, 2, 5⟩, ⟨2, 3, 3⟩] 3 1).minVertexIndex +
      (vertices (UndirectedGraph 1000 [⟨1, 2, 5⟩, ⟨2, 3, 3⟩] 3 1)).countP
        (fun u => decide (distance
          (getDistSeqTable stableSort (UndirectedGraph 1000 [⟨1, 2, 5⟩, ⟨2, 3, 3⟩] 3 1)) 1 u
            < 6)) :=
  findVertexNumWithinRadius_eq 1000 stableSort stableSort_spec
    (UndirectedGraph 1000 [⟨1, 2, 5⟩, ⟨2, 3, 3⟩] 3 1)
    (Reachable.init (Constructed.undirected _ 3 1 (by decide))) 1 (by decide) 6

set_option maxRecDepth 100000 in
/-- C6 fails as stated: on the one-vertex graph with min index 1 and no arc, exactly
one vertex lies within radius 1 of vertex 1, yet `findVertexNumWithinRadius( 1, 1 )`
returns 2. -/
theorem findVertexNumWithinRadius_counterexample :
    Reachable 1000 stableSort (UndirectedGraph 1000 [] 1 1) ∧
    (vertices (UndirectedGraph 1000 [] 1 1)).countP
      (fun u => decide (distance
        (getDistSeqTable stableSort (UndirectedGraph 1000 [] 1 1)) 1 u < 1)) = 1 ∧
    findVertexNumWithinRadius (getDistSeqTable stableSort (UndirectedGraph 1000 [] 1 1)) 1 1
      = 2 :=
  ⟨Reachable.init (Constructed.undirected _ 1 1 (by decide)), by decide, by decide⟩

/-! ## The solved distance matrix of a reachable state -/

theorem solved_dist_nonneg {sort : (Nat → Nat → Bool) → List Nat → List Nat}
    {g : TopologicalGraph} (h : GraphInv sort g) (hs : g.shortestDistSolved = true)
    (hnn : ∀ j k, InRange g j → InRange g k → 0 ≤ g.adjMat.cell j k)
    (a b : Nat) (ha : InRange g a) (hb : InRange g b) : 0 ≤ distance g a b := by
  unfold distance
  have hnn' : ∀ r ∈ vertices g, ∀ c ∈ vertices g, 0 ≤ g.adjMat.cell r c :=
    fun r hr c hc => hnn r c ((mem_vertices g r).mp hr) ((mem_vertices g c).mp hc)
  rcases h.2.1 hs with he | he
  · rw [he]; exact hnn a b ha hb
  · rw [he]
    obtain ⟨hsound, _⟩ := floydLoops_spec (noNegativeCycle_of_nonneg hnn')
    obtain ⟨l, hl, hw⟩ := hsound a ((mem_vertices g a).mpr ha) b ((mem_vertices g b).mpr hb)
    rw [hw]
    exact walkWeight_nonneg hnn' l a ((mem_vertices g a).mpr ha) b ((mem_vertices g b).mpr hb) hl

theorem solved_dist_diag {sort : (Nat → Nat → Bool) → List Nat → List Nat}
    {g : TopologicalGraph} (h : GraphInv sort g) (hs : g.shortestDistSolved = true)
    (hdiag : ∀ v, InRange g v → g.adjMat.cell v v = 0)
    (hn : NoNegativeCycle g.adjMat (vertices g))
    (v : Nat) (hv : InRange g v) : distance g v v = 0 := by
  unfold distance
  rcases h.2.1 hs with he | he
  · rw [he]; exact hdiag v hv
  · rw [he]; exact floydLoops_diag hn ((mem_vertices g v).mpr hv) (hdiag v hv)

/-! ## The scan of `findVertexWithinRadius` -/

theorem findLoop_eq_pick (g : TopologicalGraph) (s : Nat) (r : Distance) (sel : Nat → Bool)
    (n : Nat) : ∀ i c vertex, findLoop g s r sel i n c vertex =
      pick sel c vertex (((List.range' i n).map (nthClosestVertex g s)).takeWhile
        (fun u => decide (distance g s u < r))) := by
  induction n with
  | zero => intro i c vertex; simp [findLoop, pick]
  | succ n ih =>
    intro i c vertex
    rw [findLoop, List.range'_succ, List.map_cons, List.takeWhile_cons]
    by_cases h : distance g s (nthClosestVertex g s i) < r
    · simp only [h, if_true, decide_True]
      rw [pick]
      by_cases hc : sel c = true
      · simp only [hc, if_true]; exact ih _ _ _
      · simp only [hc, Bool.false_eq_true, if_false]; exact ih _ _ _
    · simp [h, pick]

theorem findVertexWithinRadius_eq_pick (g : TopologicalGraph) (v : Nat) (r : Distance)
    (sel : Nat → Bool) : findVertexWithinRadius g v r sel = pick sel 1 none (leadingRun g v r) := by
  unfold findVertexWithinRadius leadingRun
  rw [findLoop_eq_pick]
  rfl

/-- The result of the scan is the last candidate whose call returned `true`, or the
initial value when no call did. -/
theorem pick_spec (sel : Nat → Bool) (Q : List Nat) : ∀ (c : Nat) (cur : Option Nat),
    (∃ n, ∃ h : n < Q.length, sel (c + n) = true ∧
      (∀ n', n < n' → n' < Q.length → sel (c + n') = false) ∧
      pick sel c cur Q = some (Q.get ⟨n, h⟩)) ∨
    ((∀ n, n < Q.length → sel (c + n) = false) ∧ pick sel c cur Q = cur) := by
  induction Q with
  | nil => intro c cur; right; exact ⟨fun n hn => absurd hn (Nat.not_lt_zero n), rfl⟩
  | cons x xs ih =>
    intro c cur
    rw [pick]
    rcases ih (c + 1) (if sel c then some x else cur) with ⟨n, hn, hsel, hlast, hres⟩ | ⟨hall, hres⟩
    · left
      refine ⟨n + 1, by simp only [List.length_cons]; omega, ?_, ?_, ?_⟩
      · rw [← hsel]; congr 1; omega
      · intro n' h1 h2
        simp only [List.length_cons] at h2
        have := hlast (n' - 1) (by omega) (by omega)
        rw [← this]; congr 1; omega
      · rw [hres]; rfl
    · by_cases hc : sel c = true
      · left
        refine ⟨0, by simp, by simpa using hc, ?_, ?_⟩
        · intro n' h1 h2
          simp only [List.length_cons] at h2
          have := hall (n' - 1) (by omega)
          rw [← this]; congr 1; omega
        · rw [hres, if_pos hc]; rfl
      · right
        refine ⟨?_, ?_⟩
        · intro n hn
          simp only [List.length_cons] at hn
          cases n with
          | zero => simpa using hc
          | succ n =>
            have := hall n (by omega)
            rw [← this]; congr 1; omega
        · rw [hres, if_neg hc]

theorem leadingRun_length {sort : (Nat → Nat → Bool) → List Nat → List Nat}
    (hsort : StdSortSpec sort) {g : TopologicalGraph} (h : GraphInv sort g)
    (hd : g.distSeqSolved = true) (v : Nat) (hv : InRange g v) (r : Distance) :
    (leadingRun g v r).length =
      (vertices g).countP (fun u => decide (distance g v u < r)) := by
  unfold leadingRun
  rw [(leading_run_perm hsort h hd v hv r).length_eq, List.countP_eq_length_filter]

theorem leadingRun_get (g : TopologicalGraph) (v : Nat) (r : Distance) (n : Nat)
    (h : n < (leadingRun g v r).length) :
    (leadingRun g v r).get ⟨n, h⟩ = nthClosestVertex g v (g.minVertexIndex + n) := by
  have hpre : leadingRun g v r <+: rankedRow g v := List.takeWhile_prefix _
  have hlen : n < (rankedRow g v).length := lt_of_lt_of_le h hpre.length_le
  rw [List.get_eq_getElem, List.IsPrefix.getElem hpre h, rankedRow_getElem]

theorem leadingRun_mem {sort : (Nat → Nat → Bool) → List Nat → List Nat}
    (hsort : StdSortSpec sort) {g : TopologicalGraph} (h : GraphInv sort g)
    (hd : g.distSeqSolved = true) (v : Nat) (hv : InRange g v) (r : Distance) (u : Nat) :
    u ∈ leadingRun g v r ↔ InRange g u ∧ distance g v u < r := by
  unfold leadingRun
  rw [(leading_run_perm hsort h hd v hv r).mem_iff, List.mem_filter, mem_vertices]
  simp

/-! ## The start vertex qualifies -/

/-- C8. In a ranked graph with nonnegative weights and a zero diagonal (no self-loop
arc), for a valid start vertex `v`, a radius `r > 0` and every selector whose first
call returns `true`, `findVertexWithinRadius( v, r )` returns an initialised vertex:
the candidate at the last rank `minVertexIndex + n` of the leading run whose call
returned `true`; it is a valid vertex at distance below `r`. -/
theorem findVertexWithinRadius_defined (M : Distance)
    (sort : (Nat → Nat → Bool) → List Nat → List Nat) (hsort : StdSortSpec sort)
    (g : TopologicalGraph) (hg : Reachable M sort g)
    (hnn : ∀ j k, InRange g j → InRange g k → 0 ≤ g.adjMat.cell j k)
    (hdiag : ∀ v, InRange g v → g.adjMat.cell v v = 0)
    (v : Nat) (hv : InRange g v) (r : Distance) (hr : 0 < r)
    (sel : Nat → Bool) (hsel : sel 1 = true) :
    ∃ n, n < (vertices g).countP
        (fun u => decide (distance (getDistSeqTable sort g) v u < r)) ∧
      sel (1 + n) = true ∧
      (∀ n', n < n' → n' < (vertices g).countP
        (fun u => decide (distance (getDistSeqTable sort g) v u < r)) → sel (1 + n') = false) ∧
      findVertexWithinRadius (getDistSeqTable sort g) v r sel =
        some (nthClosestVertex (getDistSeqTable sort g) v (g.minVertexIndex + n)) ∧
      InRange g (nthClosestVertex (getDistSeqTable sort g) v (g.minVertexIndex + n)) ∧
      distance (getDistSeqTable sort g) v
        (nthClosestVertex (getDistSeqTable sort g) v (g.minVertexIndex + n)) < r := by
  have hinv := graphInv_getDistSeqTable hsort (graphInv_reachable hsort hg)
  have hd := getDistSeqTable_distSeqSolved sort g
  have hv' := (getDistSeqTable_inRange sort g v).mpr hv
  have hlen := leadingRun_length hsort hinv hd v hv' r
  rw [getDistSeqTable_vertices] at hlen
  have hvv : distance (getDistSeqTable sort g) v v = 0 := by
    apply solved_dist_diag hinv (hinv.2.2 hd).1
    · intro u hu
      rw [getDistSeqTable_adjMat]
      exact hdiag u ((getDistSeqTable_inRange sort g u).mp hu)
    · rw [getDistSeqTable_adjMat, getDistSeqTable_vertices]
      exact noNegativeCycle_of_nonneg (fun a ha b hb =>
        hnn a b ((mem_vertices g a).mp ha) ((mem_vertices g b).mp hb))
    · exact hv'
  have hvmem : v ∈ leadingRun (getDistSeqTable sort g) v r :=
    (leadingRun_mem hsort hinv hd v hv' r v).mpr ⟨hv', by rw [hvv]; exact hr⟩
  have hpos : 0 < (leadingRun (getDistSeqTable sort g) v r).length :=
    List.length_pos_of_mem hvmem
  rw [findVertexWithinRadius_eq_pick]
  rcases pick_spec sel (leadingRun (getDistSeqTable sort g) v r) 1 none with
    ⟨n, hn, hs1, hs2, hres⟩ | ⟨hall, _⟩
  · have hmem : (leadingRun (getDistSeqTable sort g) v r).get ⟨n, hn⟩ ∈
        leadingRun (getDistSeqTable sort g) v r := List.get_mem _ _ _
    have hq := (leadingRun_mem hsort hinv hd v hv' r _).mp hmem
    rw [leadingRun_get, getDistSeqTable_minVertexIndex] at hq
    rw [leadingRun_get, getDistSeqTable_minVertexIndex] at hres
    refine ⟨n, by rw [← hlen]; exact hn, hs1, ?_, hres,
      (getDistSeqTable_inRange sort g _).mp hq.1, hq.2⟩
    intro n' h1 h2
    exact hs2 n' h1 (by rw [hlen]; exact h2)
  · have := hall 0 hpos
    rw [Nat.add_zero, hsel] at this
    exact Bool.noConfusion this

/-- Witness of C8 on the undirected arcs (1,2,5), (2,3,3) with min index 1, radius 6
around vertex 1, every call of the selector returning `true`. -/
theorem findVertexWithinRadius_defined_witness :
    ∃ n, n < (vertices (UndirectedGraph 1000 [⟨1, 2, 5⟩, ⟨2, 3, 3⟩] 3 1)).countP
        (fun u => decide (distance (getDistSeqTable stableSort
          (UndirectedGraph 1000 [⟨1, 2, 5⟩, ⟨2, 3, 3⟩] 3 1)) 1 u < 6)) ∧
      (fun _ => true) (1 + n) = true ∧
      (∀ n', n < n' → n' < (vertices (UndirectedGraph 1000 [⟨1, 2, 5⟩, ⟨2, 3, 3⟩] 3 1)).countP
        (fun u => decide (distance (getDistSeqTable stableSort
          (UndirectedGraph 1000 [⟨1, 2, 5⟩, ⟨2, 3, 3⟩] 3 1)) 1 u < 6)) →
        (fun _ => true) (1 + n') = false) ∧
      findVertexWithinRadius (getDistSeqTable stableSort
          (UndirectedGraph 1000 [⟨1, 2, 5⟩, ⟨2, 3, 3⟩] 3 1)) 1 6 (fun _ => true) =
        some (nthClosestVertex (getDistSeqTable stableSort
          (UndirectedGraph 1000 [⟨1, 2, 5⟩, ⟨2, 3, 3⟩] 3 1)) 1
          ((UndirectedGraph 1000 [⟨1, 2, 5⟩, ⟨2, 3, 3⟩] 3 1).minVertexIndex + n)) ∧
      InRange (UndirectedGraph 1000 [⟨1, 2, 5⟩, ⟨2, 3, 3⟩] 3 1)
        (nthClosestVertex (getDistSeqTable stableSort
          (UndirectedGraph 1000 [⟨1, 2, 5⟩, ⟨2, 3, 3⟩] 3 1)) 1
          ((UndirectedGraph 1000 [⟨1, 2, 5⟩, ⟨2, 3, 3⟩] 3 1).minVertexIndex + n)) ∧
      distance (getDistSeqTable stableSort (UndirectedGraph 1000 [⟨1, 2, 5⟩, ⟨2, 3, 3⟩] 3 1)) 1
        (nthClosestVertex (getDistSeqTable stableSort
          (UndirectedGraph 1000 [⟨1, 2, 5⟩, ⟨2, 3, 3⟩] 3 1)) 1
          ((UndirectedGraph 1000 [⟨1, 2, 5⟩, ⟨2, 3, 3⟩] 3 1).minVertexIndex + n)) < 6 :=
  findVertexWithinRadius_defined 1000 stableSort stableSort_spec
    (UndirectedGraph 1000 [⟨1, 2, 5⟩, ⟨2, 3, 3⟩] 3 1)
    (Reachable.init (Constructed.undirected _ 3 1 (by decide)))
    (forall_inRange2_of_vertices (by decide)) (forall_inRange_of_vertices (by decide))
    1 (by decide) 6 (by decide) (fun _ => true) rfl

/-! ## The closest vertex -/

/-- C9 (amended). In a ranked graph with nonnegative weights and a zero diagonal (no
self-loop arc), the first entry of row `v`, which sits at rank `minVertexIndex`, has
distance 0 from `v`. -/
theorem first_rank_distance_zero (M : Distance)
    (sort : (Nat → Nat → Bool) → List Nat → List Nat) (hsort : StdSortSpec sort)
    (g : TopologicalGraph) (hg : Reachable M sort g)
    (hnn : ∀ j k, InRange g j → InRange g k → 0 ≤ g.adjMat.cell j k)
    (hdiag : ∀ v, InRange g v → g.adjMat.cell v v = 0)
    (v : Nat) (hv : InRange g v) :
    distance (getDistSeqTable sort g) v
      (nthClosestVertex (getDistSeqTable sort g) v g.minVertexIndex) = 0 := by
  have hinv := graphInv_getDistSeqTable hsort (graphInv_reachable hsort hg)
  have hd := getDistSeqTable_distSeqSolved sort g
  have hv' := (getDistSeqTable_inRange sort g v).mpr hv
  have hnn' : ∀ j k, InRange (getDistSeqTable sort g) j → InRange (getDistSeqTable sort g) k →
      0 ≤ (getDistSeqTable sort g).adjMat.cell j k := by
    intro j k hj hk
    rw [getDistSeqTable_adjMat]
    exact hnn j k ((getDistSeqTable_inRange sort g j).mp hj)
      ((getDistSeqTable_inRange sort g k).mp hk)
  have hvv : distance (getDistSeqTable sort g) v v = 0 := by
    apply solved_dist_diag hinv (hinv.2.2 hd).1
    · intro u hu
      rw [getDistSeqTable_adjMat]
      exact hdiag u ((getDistSeqTable_inRange sort g u).mp hu)
    · rw [getDistSeqTable_adjMat, getDistSeqTable_vertices]
      exact noNegativeCycle_of_nonneg (fun a ha b hb =>
        hnn a b ((mem_vertices g a).mp ha) ((mem_vertices g b).mp hb))
    · exact hv'
  obtain ⟨hp, hs⟩ := ranked_rows hsort hinv hd v hv'
  have hvn : 0 < g.vertexNum := by
    obtain ⟨h1, h2⟩ := hv; omega
  have hlen := rankedRow_length (getDistSeqTable sort g) v
  rw [getDistSeqTable_vertexNum] at hlen
  have h0 : 0 < (rankedRow (getDistSeqTable sort g) v).length := by rw [hlen]; exact hvn
  have hfirst := rankedRow_getElem (getDistSeqTable sort g) v 0 h0
  rw [getDistSeqTable_minVertexIndex, Nat.add_zero] at hfirst
  rw [← hfirst]
  have hx_mem : (rankedRow (getDistSeqTable sort g) v)[0] ∈ rankedRow (getDistSeqTable sort g) v :=
    List.getElem_mem _
  have hx_range : InRange (getDistSeqTable sort g) (rankedRow (getDistSeqTable sort g) v)[0] :=
    (mem_vertices _ _).mp (hp.mem_iff.mp hx_mem)
  have hge := solved_dist_nonneg hinv (hinv.2.2 hd).1 hnn' v _ hv' hx_range
  have hvmem : v ∈ rankedRow (getDistSeqTable sort g) v :=
    hp.mem_iff.mpr ((mem_vertices _ _).mpr hv')
  obtain ⟨n, hn, hvn'⟩ := List.getElem_of_mem hvmem
  have hle : distance (getDistSeqTable sort g) v (rankedRow (getDistSeqTable sort g) v)[0] ≤
      distance (getDistSeqTable sort g) v v := by
    cases n with
    | zero => rw [hvn']
    | succ n =>
      have := List.pairwise_iff_getElem.mp hs 0 (n + 1) h0 hn (Nat.succ_pos n)
      rw [hvn'] at this
      exact this
  rw [hvv] at hle
  exact le_antisymm hle hge

/-- Witness of C9 (amended) on the undirected arcs (1,2,5), (2,3,3) with min index 1. -/
theorem first_rank_distance_zero_witness :
    distance (getDistSeqTable stableSort (UndirectedGraph 1000 [⟨1, 2, 5⟩, ⟨2, 3, 3⟩] 3 1)) 2
      (nthClosestVertex (getDistSeqTable stableSort
        (UndirectedGraph 1000 [⟨1, 2, 5⟩, ⟨2, 3, 3⟩] 3 1)) 2
        (UndirectedGraph 1000 [⟨1, 2, 5⟩, ⟨2, 3, 3⟩] 3 1).minVertexIndex) = 0 :=
  first_rank_distance_zero 1000 stableSort stableSort_spec
    (UndirectedGraph 1000 [⟨1, 2, 5⟩, ⟨2, 3, 3⟩] 3 1)
    (Reachable.init (Constructed.undirected _ 3 1 (by decide)))
    (forall_inRange2_of_vertices (by decide)) (forall_inRange_of_vertices (by decide))
    2 (by decide)

set_option maxRecDepth 100000 in
/-- C9 fails as stated: on the one-vertex graph with min index 1 and no arc, rank 0 of
row 1 holds the unused id 0, whose distance from vertex 1 is `MAX_DISTANCE`. -/
theorem rank_zero_counterexample :
    Reachable 1000 stableSort (UndirectedGraph 1000 [] 1 1) ∧
    InRange (UndirectedGraph 1000 [] 1 1) 1 ∧
    nthClosestVertex (getDistSeqTable stableSort (UndirectedGraph 1000 [] 1 1)) 1 0 = 0 ∧
    distance (getDistSeqTable stableSort (UndirectedGraph 1000 [] 1 1)) 1
      (nthClosestVertex (getDistSeqTable stableSort (UndirectedGraph 1000 [] 1 1)) 1 0)
        = 1000 :=
  ⟨Reachable.init (Constructed.undirected _ 1 1 (by decide)), by decide, by decide, by decide⟩

/-! ## Reservoir sampling is uniform -/

theorem pick_congr (Q : List Nat) : ∀ (sel sel' : Nat → Bool) (c : Nat) (cur : Option Nat),
    (∀ k, c ≤ k → sel k = sel' k) → pick sel c cur Q = pick sel' c cur Q := by
  induction Q with
  | nil => intro sel sel' c cur _; rfl
  | cons x xs ih =>
    intro sel sel' c cur h
    rw [pick, pick, h c le_rfl]
    exact ih sel sel' (c + 1) _ (fun k hk => h k (by omega))

theorem pick_eq_pickL (Q : List Nat) : ∀ (bs : List Bool) (c : Nat) (cur : Option Nat),
    Q.length ≤ bs.length →
    pick (fun k => bs.getD (k - c) false) c cur Q = pickL bs cur Q := by
  induction Q with
  | nil =>
    intro bs c cur _
    cases bs <;> rfl
  | cons x xs ih =>
    intro bs c cur hlen
    cases bs with
    | nil => simp at hlen
    | cons b bs =>
      rw [pick, pickL]
      have h0 : (b :: bs).getD (c - c) false = b := by simp
      rw [h0]
      rw [← ih bs (c + 1) _ (by simpa using hlen)]
      apply pick_congr
      intro k hk
      have : k - c = (k - (c + 1)) + 1 := by omega
      rw [this]
      simp

theorem outcomes_length (n : Nat) : ∀ bs ∈ outcomes n, bs.length = n := by
  induction n with
  | zero => intro bs h; simp [outcomes] at h; simp [h]
  | succ n ih =>
    intro bs h
    simp only [outcomes, List.mem_append, List.mem_map] at h
    rcases h with ⟨bs', h', rfl⟩ | ⟨bs', h', rfl⟩ <;> simp [ih bs' h']

theorem outcomeProb_total (n : Nat) : ∀ c : Nat, ((outcomes n).map (outcomeProb c)).sum = 1 := by
  induction n with
  | zero => intro c; simp [outcomes, outcomeProb]
  | succ n ih =>
    intro c
    simp only [outcomes, List.map_append, List.sum_append, List.map_map]
    have e1 : (outcomeProb c ∘ List.cons true) = fun bs => (1 / (c : ℚ)) * outcomeProb (c + 1) bs := by
      funext bs; simp [outcomeProb, callProb]
    have e2 : (outcomeProb c ∘ List.cons false) =
        fun bs => (1 - 1 / (c : ℚ)) * outcomeProb (c + 1) bs := by
      funext bs; simp [outcomeProb, callProb]
    rw [e1, e2, List.sum_map_mul_left, List.sum_map_mul_left, ih (c + 1)]
    ring

theorem pickMass_nil (c : Nat) (cur : Option Nat) (n : Nat) (u : Nat) :
    pickMass c cur [] n u = if cur = some u then 1 else 0 := by
  unfold pickMass
  have hp : ∀ bs : List Bool, pickL bs cur [] = cur := by
    intro bs; cases bs <;> rfl
  simp only [hp]
  split
  · exact outcomeProb_total n c
  · simp

theorem pickMass_cons (c : Nat) (cur : Option Nat) (x : Nat) (xs : List Nat) (n : Nat)
    (u : Nat) :
    pickMass c cur (x :: xs) (n + 1) u =
      (1 / (c : ℚ)) * pickMass (c + 1) (some x) xs n u +
      (1 - 1 / (c : ℚ)) * pickMass (c + 1) cur xs n u := by
  unfold pickMass
  simp only [outcomes, List.map_append, List.sum_append, List.map_map]
  congr 1
  · rw [← List.sum_map_mul_left]
    congr 1
    apply List.map_congr_left
    intro bs _
    simp only [Function.comp, pickL, outcomeProb, callProb, if_true, mul_ite, mul_zero]
  · rw [← List.sum_map_mul_left]
    congr 1
    apply List.map_congr_left
    intro bs _
    simp only [Function.comp, pickL, outcomeProb, callProb, Bool.false_eq_true, if_false,
      mul_ite, mul_zero]

/-- Closed form of the reservoir: entered at call `c >= 2`, each of the `q` remaining
candidates ends up chosen with probability `1 / (c - 1 + q)` and the current choice
survives with probability `(c - 1) / (c - 1 + q)`. -/
theorem pickMass_closed (Q : List Nat) : ∀ (c : Nat) (cur : Option Nat) (n : Nat) (u : Nat),
    2 ≤ c → Q.Nodup → Q.length ≤ n →
    pickMass c cur Q n u =
      (if u ∈ Q then 1 else 0) / ((c : ℚ) - 1 + Q.length) +
      (if cur = some u then ((c : ℚ) - 1) / ((c : ℚ) - 1 + Q.length) else 0) := by
  induction Q with
  | nil =>
    intro c cur n u hc _ _
    have hc' : (c : ℚ) - 1 ≠ 0 := by
      have : (2 : ℚ) ≤ c := by exact_mod_cast hc
      linarith
    rw [pickMass_nil]
    simp only [List.not_mem_nil, if_false, zero_div, zero_add, List.length_nil, Nat.cast_zero,
      add_zero]
    split
    · rw [div_self hc']
    · rfl
  | cons x xs ih =>
    intro c cur n u hc hnd hlen
    obtain ⟨hx, hnd'⟩ := List.nodup_cons.mp hnd
    obtain ⟨n', rfl⟩ : ∃ n', n = n' + 1 := ⟨n - 1, by simp only [List.length_cons] at hlen; omega⟩
    have hlen' : xs.length ≤ n' := by simp only [List.length_cons] at hlen; omega
    have hc2 : (2 : ℚ) ≤ c := by exact_mod_cast hc
    have hc0 : (c : ℚ) ≠ 0 := by linarith
    have hn0 : (0 : ℚ) ≤ xs.length := by exact_mod_cast Nat.zero_le _
    have hd : (c : ℚ) + xs.length ≠ 0 := by linarith
    rw [pickMass_cons, ih (c + 1) (some x) n' u (by omega) hnd' hlen',
      ih (c + 1) cur n' u (by omega) hnd' hlen']
    simp only [Nat.cast_add, Nat.cast_one, add_sub_cancel_right, List.length_cons,
      List.mem_cons, Option.some.injEq]
    have e : (c : ℚ) - 1 + ((xs.length : ℚ) + 1) = (c : ℚ) + xs.length := by ring
    rw [e]
    by_cases hux : u = x
    · subst hux
      have hu : u ∉ xs := hx
      by_cases hcur : cur = some u
      · simp only [hu, hcur, if_true, if_false, true_or]
        field_simp
      · simp only [hu, hcur, if_true, if_false, true_or]
        field_simp
    · have hxu : ¬ x = u := fun h => hux h.symm
      by_cases hu : u ∈ xs
      · by_cases hcur : cur = some u
        · simp only [hu, hcur, hux, hxu, if_true, if_false, or_true]
          field_simp
          ring
        · simp only [hu, hcur, hux, hxu, if_true, if_false, or_true]
          field_simp
      · by_cases hcur : cur = some u
        · simp only [hu, hcur, hux, hxu, if_true, if_false, or_false]
          field_simp
        · simp only [hu, hcur, hux, hxu, if_false, or_false]
          simp

/-- Started at the first call with no choice yet, the scan of `q >= 1` distinct
candidates ends on each of them with probability `1 / q`. -/
theorem pickMass_uniform (Q : List Nat) (hQ : Q ≠ []) (hnd : Q.Nodup) (n : Nat)
    (hlen : Q.length ≤ n) (u : Nat) :
    pickMass 1 none Q n u = if u ∈ Q then 1 / (Q.length : ℚ) else 0 := by
  cases Q with
  | nil => exact absurd rfl hQ
  | cons x xs =>
    obtain ⟨hx, hnd'⟩ := List.nodup_cons.mp hnd
    obtain ⟨n', rfl⟩ : ∃ n', n = n' + 1 := ⟨n - 1, by simp only [List.length_cons] at hlen; omega⟩
    have hlen' : xs.length ≤ n' := by simp only [List.length_cons] at hlen; omega
    have hn0 : (0 : ℚ) ≤ xs.length := by exact_mod_cast Nat.zero_le _
    have hd : (1 : ℚ) + xs.length ≠ 0 := by linarith
    rw [pickMass_cons, pickMass_closed xs 2 (some x) n' u le_rfl hnd' hlen']
    simp only [Nat.cast_one, div_one, one_mul, sub_self, zero_mul, add_zero, Nat.cast_ofNat,
      List.length_cons, List.mem_cons, Option.some.injEq, Nat.cast_add]
    have e : (2 : ℚ) - 1 + xs.length = (xs.length : ℚ) + 1 := by ring
    rw [e]
    by_cases hux : u = x
    · subst hux
      have hu : u ∉ xs := hx
      simp only [hu, if_true, if_false, true_or]
      norm_num
    · have hxu : ¬ x = u := fun h => hux h.symm
      by_cases hu : u ∈ xs
      · simp [hu, hux, hxu]
      · simp [hu, hux, hxu]

theorem findProb_eq_pickMass (g : TopologicalGraph) (v : Nat) (r : Distance) (n : Nat)
    (hlen : (leadingRun g v r).length ≤ n) (u : Nat) :
    findProb g v r n u = pickMass 1 none (leadingRun g v r) n u := by
  unfold findProb pickMass
  congr 1
  apply List.map_congr_left
  intro bs hbs
  rw [findVertexWithinRadius_eq_pick]
  have := pick_eq_pickL (leadingRun g v r) bs 1 none (by rw [outcomes_length _ bs hbs]; exact hlen)
  unfold selOf
  rw [this]

theorem leadingRun_nodup {sort : (Nat → Nat → Bool) → List Nat → List Nat}
    (hsort : StdSortSpec sort) {g : TopologicalGraph} (h : GraphInv sort g)
    (hd : g.distSeqSolved = true) (v : Nat) (hv : InRange g v) (r : Distance) :
    (leadingRun g v r).Nodup := by
  unfold leadingRun
  rw [(leading_run_perm hsort h hd v hv r).nodup_iff]
  exact (vertices_nodup g).filter _

/-- C7. With the `n`-th call of `isSelected()` returning `true` with probability
`1 / n` independently of the others: in a ranked graph, when `m >= 1` valid vertices
lie at distance below `r` from `v`, `findVertexWithinRadius( v, r )` returns each of
them with probability exactly `1 / m` and any other id with probability 0 (whatever
number `n >= m` of calls is drawn), and on no outcome sequence does it return a vertex
that is not one of them. -/
theorem findVertexWithinRadius_uniform (M : Distance)
    (sort : (Nat → Nat → Bool) → List Nat → List Nat) (hsort : StdSortSpec sort)
    (g : TopologicalGraph) (hg : Reachable M sort g) (v : Nat) (hv : InRange g v)
    (r : Distance)
    (hm : 1 ≤ (vertices g).countP
      (fun u => decide (distance (getDistSeqTable sort g) v u < r)))
    (n : Nat)
    (hn : (vertices g).countP
      (fun u => decide (distance (getDistSeqTable sort g) v u < r)) ≤ n) :
    (∀ u, findProb (getDistSeqTable sort g) v r n u =
      if InRange g u ∧ distance (getDistSeqTable sort g) v u < r then
        1 / (((vertices g).countP
          (fun u => decide (distance (getDistSeqTable sort g) v u < r)) : Nat) : ℚ)
      else 0) ∧
    (∀ sel u, findVertexWithinRadius (getDistSeqTable sort g) v r sel = some u →
      InRange g u ∧ distance (getDistSeqTable sort g) v u < r) := by
  have hinv := graphInv_getDistSeqTable hsort (graphInv_reachable hsort hg)
  have hd := getDistSeqTable_distSeqSolved sort g
  have hv' := (getDistSeqTable_inRange sort g v).mpr hv
  have hlen := leadingRun_length hsort hinv hd v hv' r
  rw [getDistSeqTable_vertices] at hlen
  have hmem := leadingRun_mem hsort hinv hd v hv' r
  have hnd := leadingRun_nodup hsort hinv hd v hv' r
  constructor
  · intro u
    rw [← hlen] at hn ⊢
    rw [findProb_eq_pickMass _ _ _ _ hn, pickMass_uniform _ ?_ hnd n hn]
    · by_cases hu : u ∈ leadingRun (getDistSeqTable sort g) v r
      · have hq := (hmem u).mp hu
        rw [if_pos hu, if_pos ⟨(getDistSeqTable_inRange sort g u).mp hq.1, hq.2⟩]
      · have hq : ¬ (InRange g u ∧ distance (getDistSeqTable sort g) v u < r) := by
          intro hq
          exact hu ((hmem u).mpr ⟨(getDistSeqTable_inRange sort g u).mpr hq.1, hq.2⟩)
        rw [if_neg hu, if_neg hq]
    · intro hnil
      rw [hnil] at hlen
      simp only [List.length_nil] at hlen
      omega
  · intro sel u hres
    rw [findVertexWithinRadius_eq_pick] at hres
    rcases pick_spec sel (leadingRun (getDistSeqTable sort g) v r) 1 none with
      ⟨n, hn, _, _, hp⟩ | ⟨_, hp⟩
    · rw [hp] at hres
      have hu : u ∈ leadingRun (getDistSeqTable sort g) v r := by
        have := List.get_mem (leadingRun (getDistSeqTable sort g) v r) n hn
        rw [Option.some.inj hres] at this
        exact this
      have hq := (hmem u).mp hu
      exact ⟨(getDistSeqTable_inRange sort g u).mp hq.1, hq.2⟩
    · rw [hp] at hres
      exact Option.noConfusion hres

set_option maxRecDepth 100000 in
/-- Witness of C7 on the undirected arcs (1,2,5), (2,3,3) with min index 1: two
vertices lie within radius 6 of vertex 1, and with three calls drawn vertex 2 is
returned with probability 1/2. -/
theorem findVertexWithinRadius_uniform_witness :
    findProb (getDistSeqTable stableSort (UndirectedGraph 1000 [⟨1, 2, 5⟩, ⟨2, 3, 3⟩] 3 1)) 1 6
      3 2 =
    if InRange (UndirectedGraph 1000 [⟨1, 2, 5⟩, ⟨2, 3, 3⟩] 3 1) 2 ∧
        distance (getDistSeqTable stableSort
          (UndirectedGraph 1000 [⟨1, 2, 5⟩, ⟨2, 3, 3⟩] 3 1)) 1 2 < 6 then
      1 / (((vertices (UndirectedGraph 1000 [⟨1, 2, 5⟩, ⟨2, 3, 3⟩] 3 1)).countP
        (fun u => decide (distance (getDistSeqTable stableSort
          (UndirectedGraph 1000 [⟨1, 2, 5⟩, ⟨2, 3, 3⟩] 3 1)) 1 u < 6)) : Nat) : ℚ)
    else 0 :=
  (findVertexWithinRadius_uniform 1000 stableSort stableSort_spec
    (UndirectedGraph 1000 [⟨1, 2, 5⟩, ⟨2, 3, 3⟩] 3 1)
    (Reachable.init (Constructed.undirected _ 3 1 (by decide))) 1 (by decide) 6
    (by decide) 3 (by decide)).1 2

/-! ## The insertion loop on a graph with min index 0 -/

theorem insertShift_cell_other (g : TopologicalGraph) (i j : Nat) (d : Distance) (k : Nat) :
    ∀ (t : DistSeqTable) (r c : Nat), (r ≠ i ∨ k < c) →
      (insertShift g i j d k t).cell r c = t.cell r c := by
  induction k with
  | zero =>
    intro t r c h
    simp only [insertShift, setCell_cell]
    rw [if_neg]
    rintro ⟨rfl, rfl⟩
    rcases h with h | h
    · exact h rfl
    · exact Nat.lt_irrefl _ h
  | succ k ih =>
    intro t r c h
    have hne : ¬ (r = i ∧ c = k + 1) := by
      rintro ⟨rfl, rfl⟩
      rcases h with h | h
      · exact h rfl
      · exact Nat.lt_irrefl _ h
    rw [insertShift]
    split
    · rw [ih _ r c (by rcases h with h | h; exact Or.inl h; exact Or.inr (by omega)),
        setCell_cell, if_neg hne]
    · rw [setCell_cell, if_neg hne]

theorem rowPrefix_succ (t : DistSeqTable) (i m : Nat) :
    rowPrefix t i (m + 1) = rowPrefix t i m ++ [t.cell i m] := by
  unfold rowPrefix
  rw [List.range'_1_concat, List.map_append]
  simp

theorem rowPrefix_congr (t t' : DistSeqTable) (i m : Nat)
    (h : ∀ c, c < m → t'.cell i c = t.cell i c) : rowPrefix t' i m = rowPrefix t i m := by
  unfold rowPrefix
  apply List.map_congr_left
  intro c hc
  exact h c (by simpa using (List.mem_range'_1.mp hc).2)

/-- One insertion: the first `m + 1` ranks after inserting `j` are, read backwards,
the ordered insertion of `j` into the first `m` ranks read backwards. -/
theorem insertShift_rowPrefix (g : TopologicalGraph) (i j : Nat) (m : Nat) :
    ∀ t : DistSeqTable,
      (rowPrefix (insertShift g i j (distance g i j) m t) i (m + 1)).reverse =
        List.orderedInsert (fun a b => DistCmp g i a b = false) j (rowPrefix t i m).reverse := by
  induction m with
  | zero =>
    intro t
    simp [rowPrefix, insertShift, setCell_cell]
  | succ m ih =>
    intro t
    have hR : (rowPrefix t i (m + 1)).reverse = t.cell i m :: (rowPrefix t i m).reverse := by
      rw [rowPrefix_succ, List.reverse_append, List.reverse_singleton, List.singleton_append]
    rw [hR, List.orderedInsert]
    by_cases hlt : distance g i j < distance g i (t.cell i m)
    · have hc : ¬ (DistCmp g i j (t.cell i m) = false) := by simp [DistCmp, hlt]
      have hstep : insertShift g i j (distance g i j) (m + 1) t =
          insertShift g i j (distance g i j) m (setCell t i (m + 1) (t.cell i m)) := by
        rw [insertShift, if_pos hlt]
      have hp : rowPrefix (setCell t i (m + 1) (t.cell i m)) i m = rowPrefix t i m := by
        apply rowPrefix_congr
        intro c hc
        rw [setCell_cell, if_neg]
        rintro ⟨_, h⟩
        omega
      rw [if_neg hc, hstep, rowPrefix_succ _ i (m + 1), List.reverse_append,
        List.reverse_singleton, List.singleton_append, ih, hp,
        insertShift_cell_other g i j _ m _ i (m + 1) (Or.inr (Nat.lt_succ_self m)),
        setCell_cell, if_pos ⟨rfl, rfl⟩]
    · have hc : DistCmp g i j (t.cell i m) = false := by simp [DistCmp, hlt]
      have hstep : insertShift g i j (distance g i j) (m + 1) t = setCell t i (m + 1) j := by
        rw [insertShift, if_neg hlt]
      have hp : rowPrefix (setCell t i (m + 1) j) i (m + 1) = rowPrefix t i (m + 1) := by
        apply rowPrefix_congr
        intro c hc
        rw [setCell_cell, if_neg]
        rintro ⟨_, h⟩
        omega
      rw [if_pos hc, hstep, rowPrefix_succ _ i (m + 1), List.reverse_append,
        List.reverse_singleton, List.singleton_append, hp, hR, setCell_cell, if_pos ⟨rfl, rfl⟩]

/-- The `j` loop for row `i`, run over `0, ..., n - 1`. -/
theorem insertLoop_rowPrefix (g : TopologicalGraph) (i n : Nat) : ∀ t : DistSeqTable,
    (rowPrefix ((List.range' 0 n).foldl
      (fun t j => insertShift g i j (distance g i j) j t) t) i n).reverse = insertedRev g i n := by
  induction n with
  | zero => intro t; rfl
  | succ n ih =>
    intro t
    unfold insertedRev
    rw [List.range'_1_concat, List.foldl_append, List.foldl_append]
    simp only [List.foldl_cons, List.foldl_nil, Nat.zero_add]
    rw [insertShift_rowPrefix, ih t]
    rfl

theorem insertLoop_other (g : TopologicalGraph) (i : Nat) (js : List Nat) :
    ∀ (t : DistSeqTable) (r c : Nat), r ≠ i →
      (js.foldl (fun t j => insertShift g i j (distance g i j) j t) t).cell r c = t.cell r c := by
  induction js with
  | nil => intro t r c _; rfl
  | cons j js ih =>
    intro t r c h
    rw [List.foldl_cons, ih _ r c h, insertShift_cell_other g i j _ j t r c (Or.inl h)]

theorem insertRows_rowPrefix (g : TopologicalGraph) (n : Nat) (is : List Nat) :
    ∀ (t : DistSeqTable) (v : Nat), v ∈ is →
      (rowPrefix (is.foldl (fun t i => (List.range' 0 n).foldl
        (fun t j => insertShift g i j (distance g i j) j t) t) t) v n).reverse =
      insertedRev g v n := by
  induction is with
  | nil => intro t v hv; simp at hv
  | cons i is ih =>
    intro t v hv
    rw [List.foldl_cons]
    by_cases hmem : v ∈ is
    · exact ih _ v hmem
    · have hvi : v = i := by
        rcases List.mem_cons.mp hv with h | h
        · exact h
        · exact absurd h hmem
      subst hvi
      have hrest : ∀ (t' : DistSeqTable) (c : Nat),
          (is.foldl (fun t i => (List.range' 0 n).foldl
            (fun t j => insertShift g i j (distance g i j) j t) t) t').cell v c = t'.cell v c := by
        intro t' c
        clear ih hv
        induction is generalizing t' with
        | nil => rfl
        | cons i' is ih' =>
          rw [List.foldl_cons, ih' (fun h => hmem (List.mem_cons_of_mem _ h)),
            insertLoop_other g i' _ t' v c (fun h => hmem (h ▸ List.mem_cons_self _ _))]
      rw [rowPrefix_congr _ _ v n (fun c _ => hrest _ c)]
      exact insertLoop_rowPrefix g v n t

theorem insertedRev_perm (g : TopologicalGraph) (i n : Nat) :
    (insertedRev g i n).Perm (List.range' 0 n) := by
  unfold insertedRev
  induction n with
  | zero => exact List.Perm.refl _
  | succ n ih =>
    rw [List.range'_1_concat, List.foldl_append]
    simp only [List.foldl_cons, List.foldl_nil, Nat.zero_add]
    refine (List.perm_orderedInsert _ _ _).trans ?_
    refine (List.Perm.cons n ih).trans ?_
    exact (List.perm_append_singleton n _).symm

theorem insertedRev_sorted (g : TopologicalGraph) (i n : Nat) :
    (insertedRev g i n).Pairwise (fun a b => DistCmp g i a b = false) := by
  have hc := distCmp_strictWeakOrder g i
  haveI : IsTotal Nat (fun a b => DistCmp g i a b = false) :=
    ⟨fun a b => (strictWeakOrder_total hc b a)⟩
  haveI : IsTrans Nat (fun a b => DistCmp g i a b = false) :=
    ⟨fun _ _ _ hab hbc => strictWeakOrder_trans_not hc hbc hab⟩
  unfold insertedRev
  induction n with
  | zero => exact List.Pairwise.nil
  | succ n ih =>
    rw [List.range'_1_concat, List.foldl_append]
    simp only [List.foldl_cons, List.foldl_nil, Nat.zero_add]
    exact List.Sorted.orderedInsert _ _ ih

/-- On a graph with min index 0, `getDistSeqTableByInsertSort` leaves in row `v` a
rearrangement of the valid ids in which no later entry is closer than an earlier
one. -/
theorem insertSort_rankedRow (g : TopologicalGraph) (hmin : g.minVertexIndex = 0)
    (v : Nat) (hv : InRange g v) :
    (rankedRow (getDistSeqTableByInsertSort g) v).Perm (vertices g) ∧
    (rankedRow (getDistSeqTableByInsertSort g) v).Pairwise
      (fun a b => DistCmp g v b a = false) := by
  have hvs : vertices g = List.range' 0 g.vertexNum := by unfold vertices; rw [hmin]
  have hrow : rankedRow (getDistSeqTableByInsertSort g) v =
      (insertedRev g v g.vertexNum).reverse := by
    have := insertRows_rowPrefix g g.vertexNum (vertices g) (initDistSeq g) v
      ((mem_vertices g v).mpr hv)
    rw [← this, List.reverse_reverse]
    show List.map (nthClosestVertex (getDistSeqTableByInsertSort g) v) (vertices g) = _
    unfold rowPrefix getDistSeqTableByInsertSort nthClosestVertex
    simp only [hvs]
  rw [hrow, hvs]
  refine ⟨(List.reverse_perm _).trans (insertedRev_perm g v _), ?_⟩
  rw [List.pairwise_reverse]
  exact insertedRev_sorted g v _

/-! ## The two ranking strategies compared -/

theorem sorted_perm_unique (key : Nat → Distance) (l1 l2 : List Nat) (hp : l1.Perm l2)
    (h1 : l1.Pairwise (fun a b => key a ≤ key b)) (h2 : l2.Pairwise (fun a b => key a ≤ key b))
    (hinj : ∀ a ∈ l1, ∀ b ∈ l1, key a = key b → a = b) : l1 = l2 := by
  haveI : IsAntisymm Nat (fun a b => a ∈ l1 ∧ b ∈ l1 ∧ key a ≤ key b) :=
    ⟨fun a b hab hba => hinj a hab.1 b hab.2.1 (le_antisymm hab.2.2 hba.2.2)⟩
  have s1 : l1.Sorted (fun a b => a ∈ l1 ∧ b ∈ l1 ∧ key a ≤ key b) :=
    h1.imp_of_mem (fun ha hb h => ⟨ha, hb, h⟩)
  have s2 : l2.Sorted (fun a b => a ∈ l1 ∧ b ∈ l1 ∧ key a ≤ key b) :=
    h2.imp_of_mem (fun ha hb h => ⟨hp.mem_iff.mpr ha, hp.mem_iff.mpr hb, h⟩)
  exact List.eq_of_perm_of_sorted hp s1 s2

theorem cell_of_rankedRow (g : TopologicalGraph) (v rank : Nat) (hr : InRange g rank) :
    (rankedRow g v).getD (rank - g.minVertexIndex) 0 = g.distSeq.cell v rank := by
  obtain ⟨h1, h2⟩ := hr
  have hlen : rank - g.minVertexIndex < (rankedRow g v).length := by
    rw [rankedRow_length]; omega
  rw [List.getD_eq_getElem _ _ hlen, rankedRow_getElem]
  unfold nthClosestVertex
  congr 1
  omega

/-- C10 (amended). On a graph with min index 0 and a row `v` without ties (distinct
valid vertices lie at distinct distances from `v`), `getDistSeqTableBySTLsort` and
`getDistSeqTableByInsertSort` leave the same vertex id at every valid rank of row `v`,
whatever conforming `std::sort` is used. -/
theorem stlsort_eq_insertsort (sort : (Nat → Nat → Bool) → List Nat → List Nat)
    (hsort : StdSortSpec sort) (g : TopologicalGraph)
    (halloc : g.vertexAllocNum = g.vertexNum + g.minVertexIndex)
    (hmin : g.minVertexIndex = 0) (v : Nat) (hv : InRange g v)
    (hties : ∀ a b, InRange g a → InRange g b → distance g v a = distance g v b → a = b)
    (rank : Nat) (hr : InRange g rank) :
    (getDistSeqTableBySTLsort sort g).distSeq.cell v rank =
      (getDistSeqTableByInsertSort g).distSeq.cell v rank := by
  have hstl := stlsort_rankedRow g sort hsort halloc v hv
  obtain ⟨hp1, hs1⟩ := hsort (DistCmp g v) (vertices g) (distCmp_strictWeakOrder g v)
  obtain ⟨hp2, hs2⟩ := insertSort_rankedRow g hmin v hv
  have hle : ∀ a b, DistCmp g v b a = false → distance g v a ≤ distance g v b := by
    intro a b h
    simpa [DistCmp] using h
  have heq : rankedRow (getDistSeqTableBySTLsort sort g) v =
      rankedRow (getDistSeqTableByInsertSort g) v := by
    rw [hstl]
    apply sorted_perm_unique (distance g v) _ _ (hp1.trans hp2.symm)
      (hs1.imp (hle _ _)) (hs2.imp (hle _ _))
    intro a ha b hb hab
    exact hties a b ((mem_vertices g a).mp (hp1.mem_iff.mp ha))
      ((mem_vertices g b).mp (hp1.mem_iff.mp hb)) hab
  have h1 := cell_of_rankedRow (getDistSeqTableBySTLsort sort g) v rank hr
  have h2 := cell_of_rankedRow (getDistSeqTableByInsertSort g) v rank hr
  rw [← h1, ← h2, heq]
  rfl

set_option maxRecDepth 100000 in
/-- Witness of C10 (amended) on the undirected arcs (0,1,5), (1,2,3), row 0, whose
distances 0, 5, 8 are distinct. -/
theorem stlsort_eq_insertsort_witness :
    (getDistSeqTableBySTLsort stableSort
      (getShortestPath (UndirectedGraph 1000 [⟨0, 1, 5⟩, ⟨1, 2, 3⟩] 3 0))).distSeq.cell 0 2 =
    (getDistSeqTableByInsertSort
      (getShortestPath (UndirectedGraph 1000 [⟨0, 1, 5⟩, ⟨1, 2, 3⟩] 3 0))).distSeq.cell 0 2 :=
  stlsort_eq_insertsort stableSort stableSort_spec
    (getShortestPath (UndirectedGraph 1000 [⟨0, 1, 5⟩, ⟨1, 2, 3⟩] 3 0)) rfl rfl 0 (by decide)
    (forall_inRange2_of_vertices (by decide)) 2 (by decide)

set_option maxRecDepth 100000 in
/-- C10 fails as stated: with the zero-weight arc (0,1,0) vertices 0 and 1 are tied in
row 0; a `std::sort` that meets the standard's contract may return them as 1, 0, while
the insertion loop leaves 0, 1. -/
theorem stlsort_insertsort_counterexample :
    StdSortSpec reversingSort ∧
    (getShortestPath (UndirectedGraph 1000 [⟨0, 1, 0⟩] 2 0)).minVertexIndex = 0 ∧
    (getDistSeqTableBySTLsort reversingSort
      (getShortestPath (UndirectedGraph 1000 [⟨0, 1, 0⟩] 2 0))).distSeq.cell 0 0 = 1 ∧
    (getDistSeqTableByInsertSort
      (getShortestPath (UndirectedGraph 1000 [⟨0, 1, 0⟩] 2 0))).distSeq.cell 0 0 = 0 :=
  ⟨reversingSort_spec, rfl, by decide, by decide⟩

set_option maxRecDepth 100000 in
/-- With min index 1 the insertion loop, which shifts down to rank 0, leaves the
unused id 0 in the last valid rank of row 1, where every conforming `std::sort`
leaves a valid vertex. -/
theorem insertSort_min_index_one :
    (getDistSeqTableByInsertSort
      (getShortestPath (UndirectedGraph 1000 [⟨1, 2, 5⟩] 2 1))).distSeq.cell 1 2 = 0 ∧
    (getDistSeqTableByInsertSort
      (getShortestPath (UndirectedGraph 1000 [⟨1, 2, 5⟩] 2 1))).distSeq.cell 1 0 = 1 ∧
    (getDistSeqTableBySTLsort stableSort
      (getShortestPath (UndirectedGraph 1000 [⟨1, 2, 5⟩] 2 1))).distSeq.cell 1 2 = 2 :=
  ⟨by decide, by decide, by decide⟩

/-! ## Dijkstra: the scan for the closest vertex and the update loop -/

theorem dijkstraClosest_fold (s : Nat) (st : DijkstraState) (l : List Nat) : ∀ c0 : Nat,
    (l.foldl (fun c i =>
        if st.inSet i = false ∧ st.dist.cell s i < st.dist.cell s c then i else c) c0 = c0 ∨
      (l.foldl (fun c i =>
        if st.inSet i = false ∧ st.dist.cell s i < st.dist.cell s c then i else c) c0 ∈ l ∧
       st.inSet (l.foldl (fun c i =>
        if st.inSet i = false ∧ st.dist.cell s i < st.dist.cell s c then i else c) c0) = false ∧
       st.dist.cell s (l.foldl (fun c i =>
        if st.inSet i = false ∧ st.dist.cell s i < st.dist.cell s c then i else c) c0)
          < st.dist.cell s c0)) ∧
    (∀ i ∈ l, st.inSet i = false →
      st.dist.cell s (l.foldl (fun c i =>
        if st.inSet i = false ∧ st.dist.cell s i < st.dist.cell s c then i else c) c0)
          ≤ st.dist.cell s i) := by
  induction l with
  | nil => intro c0; exact ⟨Or.inl rfl, fun i hi => absurd hi (List.not_mem_nil i)⟩
  | cons x l ih =>
    intro c0
    rw [List.foldl_cons]
    by_cases hx : st.inSet x = false ∧ st.dist.cell s x < st.dist.cell s c0
    · rw [if_pos hx]
      obtain ⟨h1, h2⟩ := ih x
      constructor
      · right
        rcases h1 with h | ⟨ha, hb, hc⟩
        · rw [h]; exact ⟨List.mem_cons_self _ _, hx.1, hx.2⟩
        · exact ⟨List.mem_cons_of_mem _ ha, hb, lt_trans hc hx.2⟩
      · intro i hi hout
        rcases List.mem_cons.mp hi with rfl | hi
        · rcases h1 with h | ⟨_, _, hc⟩
          · rw [h]
          · exact le_of_lt hc
        · exact h2 i hi hout
    · rw [if_neg hx]
      obtain ⟨h1, h2⟩ := ih c0
      constructor
      · rcases h1 with h | ⟨ha, hb, hc⟩
        · exact Or.inl h
        · exact Or.inr ⟨List.mem_cons_of_mem _ ha, hb, hc⟩
      · intro i hi hout
        rcases List.mem_cons.mp hi with rfl | hi
        · have hge : st.dist.cell s c0 ≤ st.dist.cell s i := by
            by_contra hlt
            exact hx ⟨hout, not_le.mp hlt⟩
          rcases h1 with h | ⟨_, _, hc⟩
          · rw [h]; exact hge
          · exact le_trans (le_of_lt hc) hge
        · exact h2 i hi hout

/-- The scan returns the sentinel 0 when no unsettled vertex is closer than
`shortestDist[s][0]`, and otherwise an unsettled vertex of minimum tentative
distance. -/
theorem dijkstraClosest_spec (vs : List Nat) (s : Nat) (st : DijkstraState) :
    (dijkstraClosest vs s st = 0 ∨
      (dijkstraClosest vs s st ∈ vs ∧ st.inSet (dijkstraClosest vs s st) = false ∧
        st.dist.cell s (dijkstraClosest vs s st) < st.dist.cell s 0)) ∧
    (∀ i ∈ vs, st.inSet i = false →
      st.dist.cell s (dijkstraClosest vs s st) ≤ st.dist.cell s i) :=
  dijkstraClosest_fold s st vs 0

theorem dijkstraUpdate_eq (vs : List Nat) (s c : Nat) (st : DijkstraState) :
    dijkstraUpdate vs s c st = vs.foldl (dijkstraUpdateStep s c) st := rfl

theorem updInv_step {s c : Nat} {st : DijkstraState} (hc : st.inSet c = true) (hcs : c ≠ s)
    {P : Nat → Prop} {e : DijkstraState} (h : UpdInv s c st P e) (x : Nat) :
    UpdInv s c st (fun i => P i ∨ i = x) (dijkstraUpdateStep s c e x) := by
  obtain ⟨hin, hd⟩ := h
  have hsc : e.dist.cell s c = st.dist.cell s c := by
    apply (hd s c).2
    rintro ⟨_, _, h, _⟩
    rw [hc] at h
    exact Bool.noConfusion h
  have hcx : e.dist.cell c x = st.dist.cell c x := by
    apply (hd c x).2
    rintro ⟨h, _⟩
    exact hcs h
  have hother : ∀ r i, ¬ (r = s ∧ i = x) →
      (UpdCond s c st (fun i => P i ∨ i = x) r i ↔ UpdCond s c st P r i) := by
    intro r i hri
    unfold UpdCond
    constructor
    · rintro ⟨h1, h2 | h2, h3⟩
      · exact ⟨h1, h2, h3⟩
      · exact absurd ⟨h1, h2⟩ hri
    · rintro ⟨h1, h2, h3⟩
      exact ⟨h1, Or.inl h2, h3⟩
  unfold dijkstraUpdateStep
  by_cases hupd : e.inSet x = false ∧ e.dist.cell s c + e.dist.cell c x < e.dist.cell s x
  · rw [if_pos hupd]
    refine ⟨hin, fun r i => ?_⟩
    show (_ → (setCell e.dist s x (e.dist.cell s c + e.dist.cell c x)).cell r i = _) ∧
      (_ → (setCell e.dist s x (e.dist.cell s c + e.dist.cell c x)).cell r i = _)
    rw [setCell_cell]
    by_cases hri : r = s ∧ i = x
    · obtain ⟨rfl, rfl⟩ := hri
      rw [if_pos ⟨rfl, rfl⟩, hsc, hcx]
      refine ⟨fun _ => rfl, fun hn => ?_⟩
      exfalso
      apply hn
      refine ⟨rfl, Or.inr rfl, by rw [← hin]; exact hupd.1, ?_⟩
      have h3 := hupd.2
      rw [hsc, hcx] at h3
      by_cases hold : UpdCond r c st P r i
      · exact hold.2.2.2
      · rw [(hd r i).2 hold] at h3
        exact h3
    · rw [if_neg hri, hother r i hri]
      exact hd r i
  · rw [if_neg hupd]
    refine ⟨hin, fun r i => ?_⟩
    by_cases hri : r = s ∧ i = x
    · obtain ⟨rfl, rfl⟩ := hri
      by_cases hold : UpdCond r c st P r i
      · refine ⟨fun _ => (hd r i).1 hold, fun hn => ?_⟩
        exact absurd ⟨hold.1, Or.inl hold.2.1, hold.2.2⟩ hn
      · refine ⟨fun hnew => ?_, fun _ => (hd r i).2 hold⟩
        exfalso
        apply hupd
        rw [hin, hsc, hcx, (hd r i).2 hold]
        exact hnew.2.2
    · rw [hother r i hri]
      exact hd r i

theorem updInv_congr {s c : Nat} {st e : DijkstraState} {P Q : Nat → Prop}
    (h : UpdInv s c st P e) (hpq : ∀ i, P i ↔ Q i) : UpdInv s c st Q e := by
  have : P = Q := funext (fun i => propext (hpq i))
  rw [← this]
  exact h

theorem updInv_fold {s c : Nat} {st : DijkstraState} (hc : st.inSet c = true) (hcs : c ≠ s)
    (l : List Nat) : ∀ {P : Nat → Prop} {e : DijkstraState}, UpdInv s c st P e →
    UpdInv s c st (fun i => P i ∨ i ∈ l) (l.foldl (dijkstraUpdateStep s c) e) := by
  induction l with
  | nil => intro P e h; exact updInv_congr h (by simp)
  | cons x l ih =>
    intro P e h
    rw [List.foldl_cons]
    refine updInv_congr (ih (updInv_step hc hcs h x)) ?_
    intro i
    simp only [List.mem_cons, or_assoc]

/-- The update loop through a settled `c` other than `s` lowers, in one sweep, the
tentative distance of each unsettled vertex to `min(d[s][i], d[s][c] + d[c][i])`. -/
theorem dijkstraUpdate_spec (vs : List Nat) (s c : Nat) (st : DijkstraState)
    (hc : st.inSet c = true) (hcs : c ≠ s) :
    UpdInv s c st (fun i => i ∈ vs) (dijkstraUpdate vs s c st) := by
  have h0 : UpdInv s c st (fun _ => False) st :=
    ⟨rfl, fun r i => ⟨fun h => h.2.1.elim, fun _ => rfl⟩⟩
  rw [dijkstraUpdate_eq]
  exact updInv_congr (updInv_fold hc hcs vs h0) (by simp)

/-! ## Dijkstra: one round -/

theorem dijkstraSetting_floyd {adj : DistanceMatrix} {vs : List Nat} {M : Distance}
    (h0 : 0 ∉ vs) (hw : ∀ r ∈ vs, ∀ c ∈ vs, 0 ≤ adj.cell r c ∧ adj.cell r c ≤ M)
    (hdiag : ∀ v ∈ vs, adj.cell v v = 0) :
    DijkstraSetting adj (floydLoops vs adj) vs M := by
  have hnn : ∀ r ∈ vs, ∀ c ∈ vs, 0 ≤ adj.cell r c := fun r hr c hc => (hw r hr c hc).1
  have hn := noNegativeCycle_of_nonneg hnn
  obtain ⟨hs, hc⟩ := floydLoops_spec hn
  refine ⟨h0, hw, hdiag, ?_, ?_, ?_, hs⟩
  · intro r hr c hcv
    constructor
    · obtain ⟨l, hl, he⟩ := hs r hr c hcv
      rw [he]
      exact walkWeight_nonneg hnn l r hr c hcv hl
    · exact hc r hr c hcv [] (by simp)
  · intro v hv
    exact floydLoops_diag hn hv (hdiag v hv)
  · intro a ha b hb c hcv
    obtain ⟨l1, hl1, he1⟩ := hs a ha b hb
    obtain ⟨l2, hl2, he2⟩ := hs b hb c hcv
    rw [he1, he2, ← walkWeight_append]
    apply hc a ha c hcv
    intro u hu
    rcases List.mem_append.mp hu with h | h
    · exact hl1 u h
    · rcases List.mem_cons.mp h with rfl | h
      · exact hb
      · exact hl2 u h

/-- Along a walk that leaves a settled vertex `a` and ends on an unsettled one, some
unsettled vertex has a tentative distance no larger than the shortest distance of `a`
plus the weight of the walk. -/
theorem first_unsettled {adj F : DistanceMatrix} {vs : List Nat} {M : Distance} {s : Nat}
    {d0 : DistanceMatrix} {st : DijkstraState} (hset : DijkstraSetting adj F vs M)
    (hin : DijkstraInput adj F vs M d0) (hs : s ∈ vs)
    (hinv : DijkstraInv adj F vs s d0 st) (l : List Nat) :
    ∀ a ∈ vs, st.inSet a = true → ∀ y ∈ vs, st.inSet y = false → (∀ u ∈ l, u ∈ vs) →
      ∃ z ∈ vs, st.inSet z = false ∧ st.dist.cell s z ≤ F.cell s a + walkWeight adj a l y := by
  obtain ⟨_, hw, _, hF, hFd, hFt, _⟩ := hset
  obtain ⟨_, _, h3, h4, _, _⟩ := hinv
  have harc : ∀ a ∈ vs, st.inSet a = true → ∀ y ∈ vs, st.inSet y = false →
      st.dist.cell s y ≤ F.cell s a + adj.cell a y := by
    intro a ha hain y hy hyout
    by_cases has : a = s
    · subst has
      rw [hFd a ha, zero_add]
      exact h3 y hy hyout
    · have := h4 y hy hyout a ha has hain
      have := (hin.1 a ha y hy).2
      linarith
  induction l with
  | nil =>
    intro a ha hain y hy hyout _
    exact ⟨y, hy, hyout, harc a ha hain y hy hyout⟩
  | cons v l ih =>
    intro a ha hain y hy hyout hl
    have hv : v ∈ vs := hl v (by simp)
    have hl' : ∀ u ∈ l, u ∈ vs := fun u hu => hl u (by simp [hu])
    have hrest : 0 ≤ walkWeight adj v l y :=
      walkWeight_nonneg (fun r hr c hc => (hw r hr c hc).1) l v hv y hy hl'
    simp only [walkWeight]
    cases hvin : st.inSet v with
    | false =>
      refine ⟨v, hv, hvin, ?_⟩
      have := harc a ha hain v hv hvin
      linarith
    | true =>
      obtain ⟨z, hz, hzout, hle⟩ := ih v hv hvin y hy hyout hl'
      refine ⟨z, hz, hzout, ?_⟩
      have h1 := hFt s hs a ha v hv
      have h2 := (hF a ha v hv).2
      linarith

/-- An unsettled vertex of minimum tentative distance holds its shortest distance. -/
theorem closest_is_final {adj F : DistanceMatrix} {vs : List Nat} {M : Distance} {s : Nat}
    {d0 : DistanceMatrix} {st : DijkstraState} (hset : DijkstraSetting adj F vs M)
    (hin : DijkstraInput adj F vs M d0) (hs : s ∈ vs)
    (hinv : DijkstraInv adj F vs s d0 st) {u : Nat} (hu : u ∈ vs) (huout : st.inSet u = false)
    {B : Distance} (hmin : ∀ i ∈ vs, st.inSet i = false → B ≤ st.dist.cell s i) :
    B ≤ F.cell s u := by
  obtain ⟨l, hl, he⟩ := hset.2.2.2.2.2.2 s hs u hu
  obtain ⟨z, hz, hzout, hle⟩ := first_unsettled hset hin hs hinv l s hs hinv.2.2.2.2.1 u hu huout hl
  rw [hset.2.2.2.2.1 s hs, zero_add, ← he] at hle
  exact le_trans (hmin z hz hzout) hle

theorem dijkstraStep_eq (vs : List Nat) (s : Nat) (st : DijkstraState) :
    dijkstraStep vs s st =
      dijkstraUpdate vs s (dijkstraClosest vs s st) (settle st (dijkstraClosest vs s st)) := rfl

theorem settle_inSet_self (st : DijkstraState) (c : Nat) : (settle st c).inSet c = true := by
  simp [settle]

theorem settle_inSet_ne (st : DijkstraState) {c i : Nat} (h : i ≠ c) :
    (settle st c).inSet i = st.inSet i := by
  simp [settle, h]

/-- Settling `c` and updating through it: the flags are those after settling, no cell
grows, a changed cell is a cell of row `s` of an unsettled valid vertex and holds the
distance through `c`, and every unsettled valid vertex ends no farther than through
`c`. -/
theorem settle_update (vs : List Nat) {s c : Nat} (st : DijkstraState) (hcs : c ≠ s) :
    (dijkstraUpdate vs s c (settle st c)).inSet = (settle st c).inSet ∧
    (∀ r i, (dijkstraUpdate vs s c (settle st c)).dist.cell r i = st.dist.cell r i ∨
      (r = s ∧ i ∈ vs ∧ i ≠ c ∧ st.inSet i = false ∧
        (dijkstraUpdate vs s c (settle st c)).dist.cell r i =
          st.dist.cell s c + st.dist.cell c i ∧
        st.dist.cell s c + st.dist.cell c i < st.dist.cell s i)) ∧
    (∀ i ∈ vs, i ≠ c → st.inSet i = false →
      (dijkstraUpdate vs s c (settle st c)).dist.cell s i ≤
        st.dist.cell s c + st.dist.cell c i) := by
  obtain ⟨h1, h2⟩ := dijkstraUpdate_spec vs s c (settle st c) (settle_inSet_self st c) hcs
  refine ⟨h1, ?_, ?_⟩
  · intro r i
    by_cases hcond : UpdCond s c (settle st c) (fun i => i ∈ vs) r i
    · right
      obtain ⟨hr, hi, hout, hlt⟩ := hcond
      have hic : i ≠ c := by
        rintro rfl
        rw [settle_inSet_self] at hout
        exact Bool.noConfusion hout
      rw [settle_inSet_ne st hic] at hout
      exact ⟨hr, hi, hic, hout, (h2 r i).1 ⟨hr, hi, by rw [settle_inSet_ne st hic]; exact hout, hlt⟩,
        hlt⟩
    · left
      exact (h2 r i).2 hcond
  · intro i hi hic hout
    by_cases hcond : UpdCond s c (settle st c) (fun i => i ∈ vs) s i
    · exact le_of_eq ((h2 s i).1 hcond)
    · rw [(h2 s i).2 hcond]
      by_contra hlt
      apply hcond
      exact ⟨rfl, hi, by rw [settle_inSet_ne st hic]; exact hout, not_le.mp hlt⟩

theorem settle_update_le (vs : List Nat) {s c : Nat} (st : DijkstraState) (hcs : c ≠ s)
    (r i : Nat) :
    (dijkstraUpdate vs s c (settle st c)).dist.cell r i ≤ st.dist.cell r i := by
  rcases (settle_update vs st hcs).2.1 r i with h | ⟨hr, _, _, _, he, hlt⟩
  · exact le_of_eq h
  · rw [he, hr]
    exact le_of_lt hlt

/-- The round that picks the sentinel 0 changes no distance, keeps the invariant, and
every valid vertex is final. -/
theorem dijkstra_round_sentinel {adj F : DistanceMatrix} {vs : List Nat} {M : Distance}
    {s : Nat} {d0 : DistanceMatrix} {st : DijkstraState} (hset : DijkstraSetting adj F vs M)
    (hin : DijkstraInput adj F vs M d0) (hs : s ∈ vs) (hinv : DijkstraInv adj F vs s d0 st)
    (hmin : ∀ i ∈ vs, st.inSet i = false → M ≤ st.dist.cell s i) :
    DijkstraInv adj F vs s d0 (dijkstraUpdate vs s 0 (settle st 0)) ∧
    DijkstraFinal F vs s (dijkstraUpdate vs s 0 (settle st 0)) := by
  have h0s : (0 : Nat) ≠ s := fun h => hset.1 (h ▸ hs)
  obtain ⟨hflag, hcell, _⟩ := settle_update vs st h0s
  obtain ⟨i1, i2, i3, i4, i5, i6⟩ := hinv
  have hs0 : st.dist.cell s 0 = M := by
    rw [i6 s 0 (Or.inr hset.1)]
    exact hin.2.1 s hs
  have hsame : ∀ r i, (dijkstraUpdate vs s 0 (settle st 0)).dist.cell r i = st.dist.cell r i := by
    intro r i
    rcases hcell r i with h | ⟨hr, hi, _, hout, _, hlt⟩
    · exact h
    · exfalso
      have h1 : st.dist.cell 0 i = d0.cell 0 i := i6 0 i (Or.inl h0s)
      have h2 := hin.2.2 i hi
      have h3 := i3 i hi hout
      have h4 := (hset.2.1 s hs i hi).2
      rw [hs0, h1] at hlt
      linarith
  have hflag' : ∀ i ∈ vs, (dijkstraUpdate vs s 0 (settle st 0)).inSet i = st.inSet i := by
    intro i hi
    rw [hflag]
    exact settle_inSet_ne st (fun h => hset.1 (h ▸ hi))
  have hfinal : ∀ i ∈ vs, st.dist.cell s i = F.cell s i := by
    intro i hi
    cases hout : st.inSet i with
    | true => exact i2 i hi hout
    | false =>
      have hB := closest_is_final hset hin hs ⟨i1, i2, i3, i4, i5, i6⟩ hi hout hmin
      have h3 := i3 i hi hout
      have h4 := (hset.2.1 s hs i hi).2
      exact le_antisymm (by linarith) (i1 i hi)
  refine ⟨⟨?_, ?_, ?_, ?_, ?_, ?_⟩, ?_⟩
  · intro i hi; rw [hsame]; exact i1 i hi
  · intro i hi h; rw [hsame]; rw [hflag' i hi] at h; exact i2 i hi h
  · intro i hi h; rw [hsame]; rw [hflag' i hi] at h; exact i3 i hi h
  · intro i hi h c hc hcs hcin
    rw [hsame]; rw [hflag' i hi] at h; rw [hflag' c hc] at hcin
    exact i4 i hi h c hc hcs hcin
  · rw [hflag' s hs]; exact i5
  · intro r c h; rw [hsame]; exact i6 r c h
  · intro i hi; rw [hsame]; exact hfinal i hi

/-- The round that settles a valid vertex `u` of minimum tentative distance keeps the
invariant. -/
theorem dijkstra_round_settle {adj F : DistanceMatrix} {vs : List Nat} {M : Distance}
    {s : Nat} {d0 : DistanceMatrix} {st : DijkstraState} (hset : DijkstraSetting adj F vs M)
    (hin : DijkstraInput adj F vs M d0) (hs : s ∈ vs) (hinv : DijkstraInv adj F vs s d0 st)
    {u : Nat} (hu : u ∈ vs) (huout : st.inSet u = false)
    (hmin : ∀ i ∈ vs, st.inSet i = false → st.dist.cell s u ≤ st.dist.cell s i) :
    DijkstraInv adj F vs s d0 (dijkstraUpdate vs s u (settle st u)) := by
  have hufin : st.dist.cell s u = F.cell s u :=
    le_antisymm (closest_is_final hset hin hs hinv hu huout hmin) (hinv.1 u hu)
  obtain ⟨i1, i2, i3, i4, i5, i6⟩ := hinv
  have hus : u ≠ s := by
    rintro rfl
    rw [i5] at huout
    exact Bool.noConfusion huout
  obtain ⟨hflag, hcell, hthru⟩ := settle_update vs st hus
  have hle := settle_update_le vs st hus
  have hrow : ∀ i, st.dist.cell u i = d0.cell u i := fun i => i6 u i (Or.inl hus)
  refine ⟨?_, ?_, ?_, ?_, ?_, ?_⟩
  · intro i hi
    rcases hcell s i with h | ⟨_, _, _, _, he, _⟩
    · rw [h]; exact i1 i hi
    · rw [he, hufin, hrow]
      have h1 := (hin.1 u hu i hi).1
      have h2 := hset.2.2.2.2.2.1 s hs u hu i hi
      linarith
  · intro i hi hin'
    rw [hflag] at hin'
    by_cases hiu : i = u
    · subst hiu
      rcases hcell s i with h | ⟨_, _, hne, _⟩
      · rw [h]; exact hufin
      · exact absurd rfl hne
    · rw [settle_inSet_ne st hiu] at hin'
      rcases hcell s i with h | ⟨_, _, _, hout, _⟩
      · rw [h]; exact i2 i hi hin'
      · rw [hin'] at hout
        exact Bool.noConfusion hout
  · intro i hi hout
    rw [hflag] at hout
    have hiu : i ≠ u := by
      rintro rfl
      rw [settle_inSet_self] at hout
      exact Bool.noConfusion hout
    rw [settle_inSet_ne st hiu] at hout
    exact le_trans (hle s i) (i3 i hi hout)
  · intro i hi hout c hc hcs hcin
    rw [hflag] at hout hcin
    have hiu : i ≠ u := by
      rintro rfl
      rw [settle_inSet_self] at hout
      exact Bool.noConfusion hout
    rw [settle_inSet_ne st hiu] at hout
    by_cases hcu : c = u
    · subst hcu
      have := hthru i hi hiu hout
      rw [hufin, hrow] at this
      exact this
    · rw [settle_inSet_ne st hcu] at hcin
      exact le_trans (hle s i) (i4 i hi hout c hc hcs hcin)
  · rw [hflag, settle_inSet_ne st (fun h => hus h.symm)]
    exact i5
  · intro r c h
    rcases hcell r c with he | ⟨hr, hc, _⟩
    · rw [he]; exact i6 r c h
    · rcases h with h | h
      · exact absurd hr h
      · exact absurd hc h

/-! ## Dijkstra: all rounds of one start vertex, and all start vertices -/

theorem dijkstra_round {adj F : DistanceMatrix} {vs : List Nat} {M : Distance}
    {s : Nat} {d0 : DistanceMatrix} {st : DijkstraState} (hset : DijkstraSetting adj F vs M)
    (hin : DijkstraInput adj F vs M d0) (hs : s ∈ vs) (hinv : DijkstraInv adj F vs s d0 st)
    {k : Nat} (hprog : DijkstraProgress F vs s k st) :
    DijkstraInv adj F vs s d0 (dijkstraStep vs s st) ∧
    DijkstraProgress F vs s (k + 1) (dijkstraStep vs s st) := by
  rw [dijkstraStep_eq]
  obtain ⟨hcase, hmin⟩ := dijkstraClosest_spec vs s st
  have hs0 : st.dist.cell s 0 = M := by
    rw [hinv.2.2.2.2.2 s 0 (Or.inr hset.1)]
    exact hin.2.1 s hs
  rcases hcase with h0 | ⟨hu, huout, _⟩
  · rw [h0] at hmin ⊢
    rw [hs0] at hmin
    obtain ⟨hi, hf⟩ := dijkstra_round_sentinel hset hin hs hinv hmin
    exact ⟨hi, Or.inl hf⟩
  · have hinv' := dijkstra_round_settle hset hin hs hinv hu huout hmin
    refine ⟨hinv', ?_⟩
    have hus : dijkstraClosest vs s st ≠ s := by
      intro h
      rw [h, hinv.2.2.2.2.1] at huout
      exact Bool.noConfusion huout
    rcases hprog with hf | ⟨L, hnd, hL, hlen⟩
    · left
      intro i hi
      apply le_antisymm
      · rw [← hf i hi]
        exact settle_update_le vs st hus s i
      · exact hinv'.1 i hi
    · right
      refine ⟨dijkstraClosest vs s st :: L, ?_, ?_, by simp [hlen]⟩
      · apply List.nodup_cons.mpr
        refine ⟨fun hmem => ?_, hnd⟩
        rw [(hL _ hmem).2] at huout
        exact Bool.noConfusion huout
      · intro x hx
        rw [(settle_update vs st hus).1]
        rcases List.mem_cons.mp hx with rfl | hx
        · exact ⟨hu, settle_inSet_self st _⟩
        · refine ⟨(hL x hx).1, ?_⟩
          by_cases hxc : x = dijkstraClosest vs s st
          · rw [hxc]; exact settle_inSet_self st _
          · rw [settle_inSet_ne st hxc]; exact (hL x hx).2

theorem dijkstra_rounds {adj F : DistanceMatrix} {vs : List Nat} {M : Distance}
    {s : Nat} {d0 : DistanceMatrix} (hset : DijkstraSetting adj F vs M)
    (hin : DijkstraInput adj F vs M d0) (hs : s ∈ vs) (l : List Nat) :
    ∀ (st : DijkstraState) (k : Nat), DijkstraInv adj F vs s d0 st →
      DijkstraProgress F vs s k st →
      DijkstraInv adj F vs s d0 (l.foldl (fun st _ => dijkstraStep vs s st) st) ∧
      DijkstraProgress F vs s (k + l.length) (l.foldl (fun st _ => dijkstraStep vs s st) st) := by
  induction l with
  | nil => intro st k hi hp; exact ⟨hi, hp⟩
  | cons x l ih =>
    intro st k hi hp
    obtain ⟨hi', hp'⟩ := dijkstra_round hset hin hs hi hp
    have := ih _ (k + 1) hi' hp'
    rw [List.foldl_cons, List.length_cons]
    have e : k + (l.length + 1) = k + 1 + l.length := by omega
    rw [e]
    exact this

/-- One start vertex: entered on a matrix whose row `s` is still the adjacency row,
`dijkstraFrom` leaves the shortest distances in row `s` and touches nothing else. -/
theorem dijkstraFrom_spec {adj F : DistanceMatrix} {M : Distance} (g : TopologicalGraph)
    {s : Nat} {d : DistanceMatrix} (hset : DijkstraSetting adj F (vertices g) M)
    (hin : DijkstraInput adj F (vertices g) M d) (hs : s ∈ vertices g)
    (hrow : ∀ i ∈ vertices g, d.cell s i = adj.cell s i) :
    (∀ i ∈ vertices g, (dijkstraFrom g d s).cell s i = F.cell s i) ∧
    (∀ r c, (r ≠ s ∨ c ∉ vertices g) → (dijkstraFrom g d s).cell r c = d.cell r c) := by
  have hinv0 : DijkstraInv adj F (vertices g) s d
      { dist := d, inSet := fun v => decide (v = s) } := by
    refine ⟨?_, ?_, ?_, ?_, ?_, ?_⟩
    · intro i hi
      show F.cell s i ≤ d.cell s i
      rw [hrow i hi]
      exact (hset.2.2.2.1 s hs i hi).2
    · intro i hi h
      have his : i = s := by simpa using h
      subst his
      show d.cell i i = F.cell i i
      rw [hrow i hi, hset.2.2.1 i hi, hset.2.2.2.2.1 i hi]
    · intro i hi _
      exact le_of_eq (hrow i hi)
    · intro i _ _ c _ hcs hc
      have : c = s := by simpa using hc
      exact absurd this hcs
    · simp
    · intro r c _; rfl
  have hprog0 : DijkstraProgress F (vertices g) s 0
      { dist := d, inSet := fun v => decide (v = s) } :=
    Or.inr ⟨[s], List.nodup_singleton s, by
      intro x hx
      rw [List.mem_singleton.mp hx]
      exact ⟨hs, by simp⟩, rfl⟩
  obtain ⟨hinv, hprog⟩ := dijkstra_rounds hset hin hs
    (List.range' g.minVertexIndex (g.vertexNum - 1)) _ 0 hinv0 hprog0
  have hvn : 0 < g.vertexNum := by
    have := (mem_vertices g s).mp hs
    obtain ⟨h1, h2⟩ := this
    omega
  constructor
  · intro i hi
    show (List.foldl (fun st _ => dijkstraStep (vertices g) s st)
      { dist := d, inSet := fun v => decide (v = s) }
      (List.range' g.minVertexIndex (g.vertexNum - 1))).dist.cell s i = F.cell s i
    rcases hprog with hf | ⟨L, hnd, hL, hlen⟩
    · exact hf i hi
    · have hsub : L ⊆ vertices g := fun x hx => (hL x hx).1
      have hlen' : (vertices g).length ≤ L.length := by
        rw [hlen]
        simp only [vertices, List.length_range', zero_add]
        omega
      have hperm := (List.subperm_of_subset hnd hsub).perm_of_length_le hlen'
      have hiL : i ∈ L := hperm.mem_iff.mpr hi
      exact hinv.2.1 i hi (hL i hiL).2
  · intro r c h
    exact hinv.2.2.2.2.2 r c h

theorem dijkstraInput_of_outer {adj F : DistanceMatrix} {vs done : List Nat} {M : Distance}
    {d : DistanceMatrix} (hset : DijkstraSetting adj F vs M)
    (hcol : ∀ v ∈ vs, adj.cell v 0 = M) (hrow : ∀ v ∈ vs, 0 ≤ adj.cell 0 v)
    (hdone : ∀ x ∈ done, x ∈ vs) (h : DijkstraOuterInv adj F vs done d) :
    DijkstraInput adj F vs M d := by
  refine ⟨?_, ?_, ?_⟩
  · intro c hc i hi
    by_cases hcd : c ∈ done
    · rw [h.1 c hcd i hi]
      exact ⟨le_rfl, (hset.2.2.2.1 c hc i hi).2⟩
    · rw [h.2 c i (Or.inl hcd)]
      exact ⟨(hset.2.2.2.1 c hc i hi).2, le_rfl⟩
  · intro c hc
    rw [h.2 c 0 (Or.inr hset.1)]
    exact hcol c hc
  · intro i hi
    rw [h.2 0 i (Or.inl (fun h0 => hset.1 (hdone 0 h0)))]
    exact hrow i hi

theorem dijkstra_outer {adj F : DistanceMatrix} {M : Distance} (g : TopologicalGraph)
    (hset : DijkstraSetting adj F (vertices g) M)
    (hcol : ∀ v ∈ vertices g, adj.cell v 0 = M) (hrow : ∀ v ∈ vertices g, 0 ≤ adj.cell 0 v)
    (l : List Nat) : ∀ (done : List Nat) (d : DistanceMatrix), l.Nodup →
      (∀ x ∈ l, x ∈ vertices g ∧ x ∉ done) → (∀ x ∈ done, x ∈ vertices g) →
      DijkstraOuterInv adj F (vertices g) done d →
      DijkstraOuterInv adj F (vertices g) (l.reverse ++ done) (l.foldl (dijkstraFrom g) d) := by
  induction l with
  | nil => intro done d _ _ _ h; exact h
  | cons s l ih =>
    intro done d hnd hl hdone h
    obtain ⟨hsl, hnd'⟩ := List.nodup_cons.mp hnd
    obtain ⟨hs, hsd⟩ := hl s (List.mem_cons_self _ _)
    have hin := dijkstraInput_of_outer hset hcol hrow hdone h
    obtain ⟨h1, h2⟩ := dijkstraFrom_spec g hset hin hs (fun i _ => h.2 s i (Or.inl hsd))
    have hstep : DijkstraOuterInv adj F (vertices g) (s :: done) (dijkstraFrom g d s) := by
      constructor
      · intro r hr i hi
        rcases List.mem_cons.mp hr with rfl | hr
        · exact h1 i hi
        · have hrs : r ≠ s := fun e => hsd (e ▸ hr)
          rw [h2 r i (Or.inl hrs)]
          exact h.1 r hr i hi
      · intro r c hrc
        have hrc' : r ≠ s ∨ c ∉ vertices g := by
          rcases hrc with hr | hc
          · exact Or.inl (fun e => hr (e ▸ List.mem_cons_self _ _))
          · exact Or.inr hc
        rw [h2 r c hrc']
        apply h.2 r c
        rcases hrc with hr | hc
        · exact Or.inl (fun hmem => hr (List.mem_cons_of_mem _ hmem))
        · exact Or.inr hc
    have := ih (s :: done) (dijkstraFrom g d s) hnd'
      (fun x hx => ⟨(hl x (List.mem_cons_of_mem _ hx)).1, fun hmem => by
        rcases List.mem_cons.mp hmem with rfl | hmem
        · exact hsl hx
        · exact (hl x (List.mem_cons_of_mem _ hx)).2 hmem⟩)
      (fun x hx => by
        rcases List.mem_cons.mp hx with rfl | hx
        · exact hs
        · exact hdone x hx) hstep
    rw [List.foldl_cons, List.reverse_cons, List.append_assoc]
    exact this

/-- Dijkstra agrees with Floyd on an adjacency matrix with min index at least 1,
weights between 0 and `M`, a zero diagonal, and the row and column of the unused id 0
holding `M`. -/
theorem solvers_agree_on_matrix (M : Distance) (g : TopologicalGraph)
    (hmin : 1 ≤ g.minVertexIndex)
    (hw : ∀ j k, InRange g j → InRange g k → 0 ≤ g.adjMat.cell j k ∧ g.adjMat.cell j k ≤ M)
    (hdiag : ∀ v, InRange g v → g.adjMat.cell v v = 0)
    (hcol : ∀ v, InRange g v → g.adjMat.cell v 0 = M)
    (hrow : ∀ v, InRange g v → g.adjMat.cell 0 v = M)
    (j k : Nat) (hj : InRange g j) (hk : InRange g k) :
    (getShortestPathByDijkstra g).shortestDist.cell j k =
      (getShortestPathByFloyd g).shortestDist.cell j k := by
  have h0 : 0 ∉ vertices g := by
    intro h
    have := ((mem_vertices g 0).mp h).1
    omega
  have hset : DijkstraSetting g.adjMat (floydLoops (vertices g) g.adjMat) (vertices g) M :=
    dijkstraSetting_floyd h0
      (fun r hr c hc => hw r c ((mem_vertices g r).mp hr) ((mem_vertices g c).mp hc))
      (fun v hv => hdiag v ((mem_vertices g v).mp hv))
  have hM : 0 ≤ M := by
    have := hw j j hj hj
    rw [hdiag j hj] at this
    exact this.2
  have hinit : DijkstraOuterInv g.adjMat (floydLoops (vertices g) g.adjMat) (vertices g) []
      g.adjMat := ⟨fun r hr => absurd hr (List.not_mem_nil r), fun _ _ _ => rfl⟩
  have := dijkstra_outer g hset
    (fun v hv => hcol v ((mem_vertices g v).mp hv))
    (fun v hv => by rw [hrow v ((mem_vertices g v).mp hv)]; exact hM)
    (vertices g) [] g.adjMat (vertices_nodup g)
    (fun x hx => ⟨hx, List.not_mem_nil x⟩) (fun x hx => absurd hx (List.not_mem_nil x)) hinit
  exact this.1 j (by simpa using (mem_vertices g j).mpr hj) k ((mem_vertices g k).mpr hk)

/-! ## The adjacency matrix of the edge-list constructors -/

theorem foldl_diag_cell (l : List Nat) : ∀ (m : DistanceMatrix) (r c : Nat),
    (l.foldl (fun m i => setCell m i i 0) m).cell r c =
      if r = c ∧ r ∈ l then 0 else m.cell r c := by
  induction l with
  | nil => intro m r c; simp
  | cons x l ih =>
    intro m r c
    rw [List.foldl_cons, ih, setCell_cell]
    by_cases h1 : r = c ∧ r ∈ l
    · rw [if_pos h1, if_pos ⟨h1.1, List.mem_cons_of_mem _ h1.2⟩]
    · rw [if_neg h1]
      by_cases h2 : r = x ∧ c = x
      · rw [if_pos h2, if_pos ⟨h2.1.trans h2.2.symm, h2.1 ▸ List.mem_cons_self _ _⟩]
      · rw [if_neg h2, if_neg]
        rintro ⟨hrc, hmem⟩
        rcases List.mem_cons.mp hmem with h | h
        · exact h2 ⟨h, hrc ▸ h⟩
        · exact h1 ⟨hrc, h⟩

theorem new_adjMat_cell (M : Distance) (vn mvi r c : Nat) :
    (TopologicalGraph.new M vn mvi).adjMat.cell r c =
      if r = c ∧ r ∈ List.range' mvi vn then 0 else M :=
  foldl_diag_cell (List.range' mvi vn) ⟨fun _ _ => M⟩ r c

/-- A cell of a directed adjacency matrix is the cell of the empty graph or the weight
of an arc with these end points. -/
theorem directed_cell_origin (arcList : ArcList) : ∀ (m : DistanceMatrix) (r c : Nat),
    (arcList.foldl (fun m a => setCell m a.startVertex a.endVertex a.dist) m).cell r c =
        m.cell r c ∨
    ∃ a ∈ arcList, a.startVertex = r ∧ a.endVertex = c ∧
      (arcList.foldl (fun m a => setCell m a.startVertex a.endVertex a.dist) m).cell r c =
        a.dist := by
  induction arcList with
  | nil => intro m r c; exact Or.inl rfl
  | cons a l ih =>
    intro m r c
    rw [List.foldl_cons]
    rcases ih (setCell m a.startVertex a.endVertex a.dist) r c with h | ⟨b, hb, h1, h2, h3⟩
    · rw [h, setCell_cell]
      by_cases hrc : r = a.startVertex ∧ c = a.endVertex
      · right
        exact ⟨a, List.mem_cons_self _ _, hrc.1.symm, hrc.2.symm, by rw [if_pos hrc]⟩
      · left
        rw [if_neg hrc]
    · right
      exact ⟨b, List.mem_cons_of_mem _ hb, h1, h2, h3⟩

/-- A cell of an undirected adjacency matrix is the cell of the empty graph or the
weight of an arc with these end points, in either direction. -/
theorem undirected_cell_origin (arcList : ArcList) : ∀ (m : DistanceMatrix) (r c : Nat),
    (arcList.foldl (fun m a => setCell (setCell m a.startVertex a.endVertex a.dist)
        a.endVertex a.startVertex a.dist) m).cell r c = m.cell r c ∨
    ∃ a ∈ arcList, ((a.startVertex = r ∧ a.endVertex = c) ∨
        (a.endVertex = r ∧ a.startVertex = c)) ∧
      (arcList.foldl (fun m a => setCell (setCell m a.startVertex a.endVertex a.dist)
        a.endVertex a.startVertex a.dist) m).cell r c = a.dist := by
  induction arcList with
  | nil => intro m r c; exact Or.inl rfl
  | cons a l ih =>
    intro m r c
    rw [List.foldl_cons]
    rcases ih (setCell (setCell m a.startVertex a.endVertex a.dist)
        a.endVertex a.startVertex a.dist) r c with h | ⟨b, hb, h1, h2⟩
    · rw [h, setCell_cell, setCell_cell]
      by_cases hrc : r = a.endVertex ∧ c = a.startVertex
      · right
        exact ⟨a, List.mem_cons_self _ _, Or.inr ⟨hrc.1.symm, hrc.2.symm⟩, by rw [if_pos hrc]⟩
      · rw [if_neg hrc]
        by_cases hrc' : r = a.startVertex ∧ c = a.endVertex
        · right
          exact ⟨a, List.mem_cons_self _ _, Or.inl ⟨hrc'.1.symm, hrc'.2.symm⟩,
            by rw [if_pos hrc']⟩
        · left
          rw [if_neg hrc']
    · right
      exact ⟨b, List.mem_cons_of_mem _ hb, h1, h2⟩

/-- The cells of an edge-list graph with min index at least 1, arc ids in the valid
range, weights between 0 and `M` and no self-loop arc of nonzero weight: what
`solvers_agree_on_matrix` asks of the adjacency matrix. -/
theorem edge_list_cells (M : Distance) (hM : 0 ≤ M) (vn mvi : Nat) (hmin : 1 ≤ mvi)
    (arcList : ArcList) (adj : DistanceMatrix)
    (hids : ∀ a ∈ arcList, mvi ≤ a.startVertex ∧ a.startVertex < mvi + vn ∧
      mvi ≤ a.endVertex ∧ a.endVertex < mvi + vn)
    (hw : ∀ a ∈ arcList, 0 ≤ a.dist ∧ a.dist ≤ M)
    (hloop : ∀ a ∈ arcList, a.startVertex = a.endVertex → a.dist = 0)
    (horigin : ∀ r c, adj.cell r c = (TopologicalGraph.new M vn mvi).adjMat.cell r c ∨
      ∃ a ∈ arcList, ((a.startVertex = r ∧ a.endVertex = c) ∨
        (a.endVertex = r ∧ a.startVertex = c)) ∧ adj.cell r c = a.dist) :
    (∀ j k, (mvi ≤ j ∧ j < mvi + vn) → (mvi ≤ k ∧ k < mvi + vn) →
      0 ≤ adj.cell j k ∧ adj.cell j k ≤ M) ∧
    (∀ v, (mvi ≤ v ∧ v < mvi + vn) → adj.cell v v = 0) ∧
    (∀ v, (mvi ≤ v ∧ v < mvi + vn) → adj.cell v 0 = M) ∧
    (∀ v, (mvi ≤ v ∧ v < mvi + vn) → adj.cell 0 v = M) := by
  refine ⟨?_, ?_, ?_, ?_⟩
  · intro j k _ _
    rcases horigin j k with h | ⟨a, ha, _, h⟩
    · rw [h, new_adjMat_cell]
      split
      · exact ⟨le_rfl, hM⟩
      · exact ⟨hM, le_rfl⟩
    · rw [h]; exact hw a ha
  · intro v hv
    rcases horigin v v with h | ⟨a, ha, hends, h⟩
    · rw [h, new_adjMat_cell, if_pos ⟨rfl, List.mem_range'_1.mpr hv⟩]
    · rw [h]
      apply hloop a ha
      rcases hends with ⟨h1, h2⟩ | ⟨h1, h2⟩
      · rw [h1, h2]
      · rw [h1, h2]
  · intro v hv
    rcases horigin v 0 with h | ⟨a, ha, hends, _⟩
    · rw [h, new_adjMat_cell, if_neg]
      rintro ⟨h1, _⟩
      omega
    · have := hids a ha
      rcases hends with ⟨_, h2⟩ | ⟨_, h2⟩ <;> omega
  · intro v hv
    rcases horigin 0 v with h | ⟨a, ha, hends, _⟩
    · rw [h, new_adjMat_cell, if_neg]
      rintro ⟨h1, _⟩
      omega
    · have := hids a ha
      rcases hends with ⟨h1, _⟩ | ⟨h1, _⟩ <;> omega

/-- C2 (amended). For every graph built by an edge-list constructor, undirected or
directed, with min index at least 1, arc ids in the valid range, weights between 0 and
`MAX_DISTANCE` and no self-loop arc of nonzero weight, `getShortestPathByDijkstra` and
`getShortestPathByFloyd` leave the same distance in every cell of the valid range. -/
theorem dijkstra_eq_floyd (M : Distance) (hM : 0 ≤ M) (arcList : ArcList) (vn mvi : Nat)
    (hmin : 1 ≤ mvi)
    (hids : ∀ a ∈ arcList, mvi ≤ a.startVertex ∧ a.startVertex < mvi + vn ∧
      mvi ≤ a.endVertex ∧ a.endVertex < mvi + vn)
    (hw : ∀ a ∈ arcList, 0 ≤ a.dist ∧ a.dist ≤ M)
    (hloop : ∀ a ∈ arcList, a.startVertex = a.endVertex → a.dist = 0) :
    (∀ j k, InRange (UndirectedGraph M arcList vn mvi) j →
      InRange (UndirectedGraph M arcList vn mvi) k →
      (getShortestPathByDijkstra (UndirectedGraph M arcList vn mvi)).shortestDist.cell j k =
        (getShortestPathByFloyd (UndirectedGraph M arcList vn mvi)).shortestDist.cell j k) ∧
    (∀ j k, InRange (DirectedGraph M arcList vn mvi) j →
      InRange (DirectedGraph M arcList vn mvi) k →
      (getShortestPathByDijkstra (DirectedGraph M arcList vn mvi)).shortestDist.cell j k =
        (getShortestPathByFloyd (DirectedGraph M arcList vn mvi)).shortestDist.cell j k) := by
  constructor
  · obtain ⟨h1, h2, h3, h4⟩ := edge_list_cells M hM vn mvi hmin arcList
      (UndirectedGraph M arcList vn mvi).adjMat hids hw hloop
      (fun r c => undirected_cell_origin arcList _ r c)
    intro j k hj hk
    exact solvers_agree_on_matrix M (UndirectedGraph M arcList vn mvi) hmin h1 h2 h3 h4 j k hj hk
  · obtain ⟨h1, h2, h3, h4⟩ := edge_list_cells M hM vn mvi hmin arcList
      (DirectedGraph M arcList vn mvi).adjMat hids hw hloop
      (fun r c => by
        rcases directed_cell_origin arcList (TopologicalGraph.new M vn mvi).adjMat r c with
          h | ⟨a, ha, e1, e2, e3⟩
        · exact Or.inl h
        · exact Or.inr ⟨a, ha, Or.inl ⟨e1, e2⟩, e3⟩)
    intro j k hj hk
    exact solvers_agree_on_matrix M (DirectedGraph M arcList vn mvi) hmin h1 h2 h3 h4 j k hj hk

/-- Witness of C2 (amended) on the arcs (1,2,5), (2,3,3) with min index 1. -/
theorem dijkstra_eq_floyd_witness :
    (getShortestPathByDijkstra
      (UndirectedGraph 1000 [⟨1, 2, 5⟩, ⟨2, 3, 3⟩] 3 1)).shortestDist.cell 1 3 =
    (getShortestPathByFloyd
      (UndirectedGraph 1000 [⟨1, 2, 5⟩, ⟨2, 3, 3⟩] 3 1)).shortestDist.cell 1 3 :=
  (dijkstra_eq_floyd 1000 (by decide) [⟨1, 2, 5⟩, ⟨2, 3, 3⟩] 3 1 (by decide) (by decide)
    (by decide) (by decide)).1 1 3 (by decide) (by decide)

set_option maxRecDepth 100000 in
/-- C2 fails as stated: with min index 0 on the undirected arcs (0,1,5), (1,2,3),
Dijkstra's scan starts from `closestVertex = 0`, the start vertex itself, and never
relaxes row 0: it leaves `shortestDist[0][2] = MAX_DISTANCE` where Floyd leaves 8. -/
theorem dijkstra_floyd_counterexample :
    InRange (UndirectedGraph 1000 [⟨0, 1, 5⟩, ⟨1, 2, 3⟩] 3 0) 0 ∧
    InRange (UndirectedGraph 1000 [⟨0, 1, 5⟩, ⟨1, 2, 3⟩] 3 0) 2 ∧
    (getShortestPathByDijkstra
      (UndirectedGraph 1000 [⟨0, 1, 5⟩, ⟨1, 2, 3⟩] 3 0)).shortestDist.cell 0 2 = 1000 ∧
    (getShortestPathByFloyd
      (UndirectedGraph 1000 [⟨0, 1, 5⟩, ⟨1, 2, 3⟩] 3 0)).shortestDist.cell 0 2 = 8 :=
  ⟨by decide, by decide, by decide, by decide⟩

set_option maxRecDepth 100000 in
/-- With min index 1, a self-loop arc of positive weight separates the two solvers:
on the directed arcs (1,1,6), (1,2,1), (2,1,1) Floyd lowers `shortestDist[1][1]` to 2
through vertex 2, Dijkstra never updates the start vertex and leaves 6. -/
theorem dijkstra_self_loop_divergence :
    (getShortestPathByDijkstra
      (DirectedGraph 1000 [⟨1, 1, 6⟩, ⟨1, 2, 1⟩, ⟨2, 1, 1⟩] 2 1)).shortestDist.cell 1 1 = 6 ∧
    (getShortestPathByFloyd
      (DirectedGraph 1000 [⟨1, 1, 6⟩, ⟨1, 2, 1⟩, ⟨2, 1, 1⟩] 2 1)).shortestDist.cell 1 1 = 2 :=
  ⟨by decide, by decide⟩

set_option maxRecDepth 100000 in
/-- With min index 1, an arc heavier than `MAX_DISTANCE` separates the two solvers:
with `MAX_DISTANCE = 5` on the undirected arcs (1,2,0), (1,3,9), Floyd lowers
`shortestDist[3][1]` to 5, Dijkstra leaves 9. -/
theorem dijkstra_heavy_arc_divergence :
    (getShortestPathByDijkstra
      (UndirectedGraph 5 [⟨1, 2, 0⟩, ⟨1, 3, 9⟩] 3 1)).shortestDist.cell 3 1 = 9 ∧
    (getShortestPathByFloyd
      (UndirectedGraph 5 [⟨1, 2, 0⟩, ⟨1, 3, 9⟩] 3 1)).shortestDist.cell 3 1 = 5 :=
  ⟨by decide, by decide⟩

/-! ## The lazy accessors and their caches -/

/-- C13. `getShortestPath` is idempotent on the whole state: a second call in a row
leaves the state of the first call (and so returns the same matrix), and on a state
with `shortestDistSolved = true` a call changes nothing. -/
theorem getShortestPath_idempotent (g : TopologicalGraph) :
    getShortestPath (getShortestPath g) = getShortestPath g ∧
    (getShortestPath (getShortestPath g)).shortestDist = (getShortestPath g).shortestDist ∧
    (g.shortestDistSolved = true → getShortestPath g = g) := by
  have hsolved : ∀ h : TopologicalGraph, h.shortestDistSolved = true → getShortestPath h = h := by
    intro h hs
    unfold getShortestPath
    rw [if_neg (by rw [hs]; exact Bool.noConfusion)]
  have h1 := hsolved (getShortestPath g) (getShortestPath_solved g)
  exact ⟨h1, by rw [h1], hsolved g⟩

/-- Witness of C13 on the point-set graph of (0,0) and (3,4), which is built solved. -/
theorem getShortestPath_idempotent_witness :
    getShortestPath (UndirectedGraph.ofPoints 1000 ⟨[(0, 0), (3, 4)]⟩) =
      UndirectedGraph.ofPoints 1000 ⟨[(0, 0), (3, 4)]⟩ :=
  (getShortestPath_idempotent (UndirectedGraph.ofPoints 1000 ⟨[(0, 0), (3, 4)]⟩)).2.2 rfl

theorem rankedRow_monotone {g : TopologicalGraph} {v : Nat}
    (hs : (rankedRow g v).Pairwise (fun a b => distance g v a ≤ distance g v b))
    (r r' : Nat) (hr : InRange g r) (hr' : InRange g r') (hle : r ≤ r') :
    distance g v (nthClosestVertex g v r) ≤ distance g v (nthClosestVertex g v r') := by
  rcases Nat.eq_or_lt_of_le hle with rfl | hlt
  · exact le_rfl
  have hlen := rankedRow_length g v
  obtain ⟨hr_lo, _⟩ := hr
  obtain ⟨_, hr1_hi⟩ := hr'
  have h1 : r - g.minVertexIndex < (rankedRow g v).length := by rw [hlen]; omega
  have h2 : r' - g.minVertexIndex < (rankedRow g v).length := by rw [hlen]; omega
  have := List.pairwise_iff_getElem.mp hs (r - g.minVertexIndex) (r' - g.minVertexIndex)
    h1 h2 (by omega)
  rw [rankedRow_getElem, rankedRow_getElem] at this
  have e1 : g.minVertexIndex + (r - g.minVertexIndex) = r := by omega
  have e2 : g.minVertexIndex + (r' - g.minVertexIndex) = r' := by omega
  rw [e1, e2] at this
  exact this

/-- C19. In every state reached from a constructor by calls of `getShortestPath` and
`getDistSeqTable`: `distSeqSolved` implies `shortestDistSolved`; a `getShortestPath`
call that solves (the matrix was not solved) sets `shortestDistSolved`, clears
`distSeqSolved` and leaves `distSeq` and `adjMat` as they were; and when
`distSeqSolved` holds, every row of `distSeq` is sorted non-decreasingly by the
current `shortestDist` along the valid ranks. -/
theorem reachable_cache_invariant (M : Distance)
    (sort : (Nat → Nat → Bool) → List Nat → List Nat) (hsort : StdSortSpec sort)
    (g : TopologicalGraph) (hg : Reachable M sort g) :
    (g.distSeqSolved = true → g.shortestDistSolved = true) ∧
    (g.shortestDistSolved = false →
      (getShortestPath g).shortestDistSolved = true ∧
      (getShortestPath g).distSeqSolved = false ∧
      (getShortestPath g).distSeq = g.distSeq ∧ (getShortestPath g).adjMat = g.adjMat) ∧
    (g.distSeqSolved = true → ∀ v, InRange g v → ∀ r r', InRange g r → InRange g r' →
      r ≤ r' → distance g v (nthClosestVertex g v r) ≤ distance g v (nthClosestVertex g v r')) := by
  have hinv := graphInv_reachable hsort hg
  refine ⟨fun hd => (hinv.2.2 hd).1, ?_, ?_⟩
  · intro hs
    unfold getShortestPath
    rw [if_pos hs]
    exact ⟨rfl, rfl, rfl, rfl⟩
  · intro hd v hv r r' hr hr' hle
    exact rankedRow_monotone (ranked_rows hsort hinv hd v hv).2 r r' hr hr' hle

/-- Witness of C19 on the state reached by `getDistSeqTable` from the undirected arcs
(0,1,5), (1,2,3). -/
theorem reachable_cache_invariant_witness :
    (getDistSeqTable stableSort
      (UndirectedGraph 1000 [⟨0, 1, 5⟩, ⟨1, 2, 3⟩] 3 0)).shortestDistSolved = true :=
  (reachable_cache_invariant 1000 stableSort stableSort_spec
    (getDistSeqTable stableSort (UndirectedGraph 1000 [⟨0, 1, 5⟩, ⟨1, 2, 3⟩] 3 0))
    (Reachable.distSeqTable (Reachable.init (Constructed.undirected _ 3 0 (by decide))))).1
    (getDistSeqTable_distSeqSolved _ _)

/-! ## What the edge-list constructors write -/

theorem directed_fold_cell (arcList : ArcList) : ∀ (m : DistanceMatrix) (s t : Nat),
    (arcList.foldl (fun m a => setCell m a.startVertex a.endVertex a.dist) m).cell s t =
      weightOr (lastArc arcList s t) (m.cell s t) := by
  induction arcList with
  | nil => intro m s t; rfl
  | cons a l ih =>
    intro m s t
    rw [List.foldl_cons, ih]
    unfold lastArc
    rw [List.reverse_cons, List.find?_append]
    cases hl : l.reverse.find? (fun a => decide (a.startVertex = s ∧ a.endVertex = t)) with
    | some b => rfl
    | none =>
      simp only [Option.or, List.find?_singleton, weightOr, setCell_cell]
      by_cases h : a.startVertex = s ∧ a.endVertex = t
      · obtain ⟨rfl, rfl⟩ := h
        simp
      · have h' : ¬ (s = a.startVertex ∧ t = a.endVertex) := fun e => h ⟨e.1.symm, e.2.symm⟩
        simp only [h, h', decide_False, if_false, Bool.false_eq_true]

theorem undirected_fold_cell (arcList : ArcList) : ∀ (m : DistanceMatrix) (s t : Nat),
    (arcList.foldl (fun m a => setCell (setCell m a.startVertex a.endVertex a.dist)
        a.endVertex a.startVertex a.dist) m).cell s t =
      weightOr (lastEdge arcList s t) (m.cell s t) := by
  induction arcList with
  | nil => intro m s t; rfl
  | cons a l ih =>
    intro m s t
    rw [List.foldl_cons, ih]
    unfold lastEdge
    rw [List.reverse_cons, List.find?_append]
    cases hl : l.reverse.find? (fun a => decide
        ((a.startVertex = s ∧ a.endVertex = t) ∨ (a.startVertex = t ∧ a.endVertex = s))) with
    | some b => rfl
    | none =>
      simp only [Option.or, List.find?_singleton, weightOr, setCell_cell]
      by_cases h1 : a.startVertex = t ∧ a.endVertex = s
      · obtain ⟨rfl, rfl⟩ := h1
        simp
      · have h1' : ¬ (s = a.endVertex ∧ t = a.startVertex) :=
          fun e => h1 ⟨e.2.symm, e.1.symm⟩
        by_cases h2 : a.startVertex = s ∧ a.endVertex = t
        · obtain ⟨rfl, rfl⟩ := h2
          simp [h1']
        · have h2' : ¬ (s = a.startVertex ∧ t = a.endVertex) :=
            fun e => h2 ⟨e.1.symm, e.2.symm⟩
          simp only [h1, h1', h2, h2', or_self, decide_False, if_false, Bool.false_eq_true]

theorem undirected_fold_symm (arcList : ArcList) : ∀ (m : DistanceMatrix),
    (∀ s t, m.cell s t = m.cell t s) → ∀ s t,
    (arcList.foldl (fun m a => setCell (setCell m a.startVertex a.endVertex a.dist)
        a.endVertex a.startVertex a.dist) m).cell s t =
    (arcList.foldl (fun m a => setCell (setCell m a.startVertex a.endVertex a.dist)
        a.endVertex a.startVertex a.dist) m).cell t s := by
  induction arcList with
  | nil => intro m h s t; exact h s t
  | cons a l ih =>
    intro m h s t
    rw [List.foldl_cons]
    apply ih
    intro r c
    simp only [setCell_cell]
    by_cases h1 : r = a.endVertex ∧ c = a.startVertex
    · rw [if_pos h1]
      by_cases h2 : c = a.endVertex ∧ r = a.startVertex
      · rw [if_pos h2]
      · rw [if_neg h2, if_pos ⟨h1.2, h1.1⟩]
    · rw [if_neg h1]
      by_cases h2 : c = a.endVertex ∧ r = a.startVertex
      · rw [if_pos h2, if_pos ⟨h2.2, h2.1⟩]
      · rw [if_neg h2]
        by_cases h3 : r = a.startVertex ∧ c = a.endVertex
        · exact absurd ⟨h3.2, h3.1⟩ h2
        · rw [if_neg h3]
          by_cases h4 : c = a.startVertex ∧ r = a.endVertex
          · exact absurd ⟨h4.2, h4.1⟩ h1
          · rw [if_neg h4]; exact h r c

theorem new_adjMat_symm (M : Distance) (vn mvi : Nat) (s t : Nat) :
    (TopologicalGraph.new M vn mvi).adjMat.cell s t =
      (TopologicalGraph.new M vn mvi).adjMat.cell t s := by
  rw [new_adjMat_cell, new_adjMat_cell]
  by_cases h : s = t
  · subst h; rfl
  · rw [if_neg (fun e => h e.1), if_neg (fun e => h e.1.symm)]

/-- The adjacency matrix of an undirected edge-list graph is symmetric. -/
theorem undirected_adjMat_symm (M : Distance) (arcList : ArcList) (vn mvi : Nat) (s t : Nat) :
    (UndirectedGraph M arcList vn mvi).adjMat.cell s t =
      (UndirectedGraph M arcList vn mvi).adjMat.cell t s :=
  undirected_fold_symm arcList _ (new_adjMat_symm M vn mvi) s t

theorem new_adjMat_inRange (M : Distance) (vn mvi : Nat) (s t : Nat)
    (hs : mvi ≤ s ∧ s < mvi + vn) :
    (TopologicalGraph.new M vn mvi).adjMat.cell s t = if s = t then 0 else M := by
  rw [new_adjMat_cell]
  by_cases h : s = t
  · rw [if_pos ⟨h, List.mem_range'_1.mpr hs⟩, if_pos h]
  · rw [if_neg (fun e => h e.1), if_neg h]

/-- C12. For an arc list whose ids lie in the valid range and cells `s`, `t` of the
valid range: after `DirectedGraph` construction `adjMat[s][t]` is the weight of the
last arc from `s` to `t` when there is one and otherwise the default (0 if `s = t`,
`MAX_DISTANCE` if not), so an arc `(s,t)` does not touch `adjMat[t][s]`; after
`UndirectedGraph` construction it is the weight of the last arc joining `s` and `t` in
either direction, or the default, and the matrix is symmetric. -/
theorem edge_list_adjMat (M : Distance) (arcList : ArcList) (vn mvi : Nat)
    (_hids : ArcsInRange arcList vn mvi) (s t : Nat)
    (hs : InRange (DirectedGraph M arcList vn mvi) s)
    (_ht : InRange (DirectedGraph M arcList vn mvi) t) :
    (DirectedGraph M arcList vn mvi).adjMat.cell s t =
      weightOr (lastArc arcList s t) (if s = t then 0 else M) ∧
    (UndirectedGraph M arcList vn mvi).adjMat.cell s t =
      weightOr (lastEdge arcList s t) (if s = t then 0 else M) ∧
    (UndirectedGraph M arcList vn mvi).adjMat.cell s t =
      (UndirectedGraph M arcList vn mvi).adjMat.cell t s := by
  refine ⟨?_, ?_, undirected_adjMat_symm M arcList vn mvi s t⟩
  · rw [← new_adjMat_inRange M vn mvi s t hs]
    exact directed_fold_cell arcList _ s t
  · rw [← new_adjMat_inRange M vn mvi s t hs]
    exact undirected_fold_cell arcList _ s t

/-- Witness of C12: with min index 1 and the arcs (1,2,5), (2,3,3), (1,2,7) the
directed cell (1,2) holds the weight 7 of the last arc from 1 to 2, and the cell
(2,1) keeps `MAX_DISTANCE`. -/
theorem edge_list_adjMat_witness :
    ((DirectedGraph 1000 [⟨1, 2, 5⟩, ⟨2, 3, 3⟩, ⟨1, 2, 7⟩] 3 1).adjMat.cell 1 2 = 7 ∧
      (DirectedGraph 1000 [⟨1, 2, 5⟩, ⟨2, 3, 3⟩, ⟨1, 2, 7⟩] 3 1).adjMat.cell 2 1 = 1000) ∧
    (DirectedGraph 1000 [⟨1, 2, 5⟩, ⟨2, 3, 3⟩, ⟨1, 2, 7⟩] 3 1).adjMat.cell 1 2 =
      weightOr (lastArc [⟨1, 2, 5⟩, ⟨2, 3, 3⟩, ⟨1, 2, 7⟩] 1 2) (if 1 = 2 then 0 else 1000) :=
  ⟨⟨by decide, by decide⟩,
    (edge_list_adjMat 1000 [⟨1, 2, 5⟩, ⟨2, 3, 3⟩, ⟨1, 2, 7⟩] 3 1 (by decide) 1 2
      (by decide) (by decide)).1⟩

/-! ## Arcs with ids outside the valid range -/

theorem lastArc_of_mem {arcList : ArcList} {a : Arc} (ha : a ∈ arcList) :
    ∃ b ∈ arcList, (b.startVertex = a.startVertex ∧ b.endVertex = a.endVertex) ∧
      lastArc arcList a.startVertex a.endVertex = some b := by
  unfold lastArc
  cases h : arcList.reverse.find?
      (fun b => decide (b.startVertex = a.startVertex ∧ b.endVertex = a.endVertex)) with
  | none =>
    have := List.find?_eq_none.mp h a (List.mem_reverse.mpr ha)
    simp at this
  | some b =>
    refine ⟨b, List.mem_reverse.mp (List.mem_of_find?_eq_some h), ?_, rfl⟩
    simpa using List.find?_some h

theorem lastEdge_of_mem {arcList : ArcList} {a : Arc} (ha : a ∈ arcList) (s t : Nat)
    (hst : (a.startVertex = s ∧ a.endVertex = t) ∨ (a.startVertex = t ∧ a.endVertex = s)) :
    ∃ b ∈ arcList, ((b.startVertex = s ∧ b.endVertex = t) ∨
        (b.startVertex = t ∧ b.endVertex = s)) ∧ lastEdge arcList s t = some b := by
  unfold lastEdge
  cases h : arcList.reverse.find? (fun b => decide
      ((b.startVertex = s ∧ b.endVertex = t) ∨ (b.startVertex = t ∧ b.endVertex = s))) with
  | none =>
    have := List.find?_eq_none.mp h a (List.mem_reverse.mpr ha)
    simp only [decide_eq_true_eq] at this
    exact absurd hst this
  | some b =>
    refine ⟨b, List.mem_reverse.mp (List.mem_of_find?_eq_some h), ?_, rfl⟩
    simpa using List.find?_some h

/-- C15 (amended). The edge-list constructors validate nothing and never fail: every
arc of the list that addresses allocated cells, its ids inside the valid range or
below `minVertexIndex`, is stored, the last write winning. After `DirectedGraph`
construction every cell `adjMat[s][t]` holds the weight of the last arc of the list
from `s` to `t`, or what `TopologicalGraph( vn, mvi )` left when there is none, and for
an arc `a` of the list there is such a last arc; after `UndirectedGraph` construction
the same holds with the last arc joining `s` and `t` in either direction, for both
`adjMat[start][end]` and `adjMat[end][start]`. -/
theorem constructors_store_every_arc (M : Distance) (arcList : ArcList) (vn mvi : Nat)
    (_halloc : ArcsAllocated arcList vn mvi) (a : Arc) (ha : a ∈ arcList) :
    (∀ s t, (DirectedGraph M arcList vn mvi).adjMat.cell s t =
      weightOr (lastArc arcList s t) ((TopologicalGraph.new M vn mvi).adjMat.cell s t)) ∧
    (∀ s t, (UndirectedGraph M arcList vn mvi).adjMat.cell s t =
      weightOr (lastEdge arcList s t) ((TopologicalGraph.new M vn mvi).adjMat.cell s t)) ∧
    (∃ b ∈ arcList, (b.startVertex = a.startVertex ∧ b.endVertex = a.endVertex) ∧
      lastArc arcList a.startVertex a.endVertex = some b ∧
      (DirectedGraph M arcList vn mvi).adjMat.cell a.startVertex a.endVertex = b.dist) ∧
    (∃ b ∈ arcList, ((b.startVertex = a.startVertex ∧ b.endVertex = a.endVertex) ∨
        (b.startVertex = a.endVertex ∧ b.endVertex = a.startVertex)) ∧
      lastEdge arcList a.startVertex a.endVertex = some b ∧
      (UndirectedGraph M arcList vn mvi).adjMat.cell a.startVertex a.endVertex = b.dist ∧
      (UndirectedGraph M arcList vn mvi).adjMat.cell a.endVertex a.startVertex = b.dist) := by
  have hdir : ∀ s t, (DirectedGraph M arcList vn mvi).adjMat.cell s t =
      weightOr (lastArc arcList s t) ((TopologicalGraph.new M vn mvi).adjMat.cell s t) :=
    fun s t => directed_fold_cell arcList _ s t
  have hund : ∀ s t, (UndirectedGraph M arcList vn mvi).adjMat.cell s t =
      weightOr (lastEdge arcList s t) ((TopologicalGraph.new M vn mvi).adjMat.cell s t) :=
    fun s t => undirected_fold_cell arcList _ s t
  refine ⟨hdir, hund, ?_, ?_⟩
  · obtain ⟨b, hb, hends, hlast⟩ := lastArc_of_mem ha
    refine ⟨b, hb, hends, hlast, ?_⟩
    rw [hdir, hlast]
    rfl
  · obtain ⟨b, hb, hends, hlast⟩ :=
      lastEdge_of_mem ha a.startVertex a.endVertex (Or.inl ⟨rfl, rfl⟩)
    have hcell : (UndirectedGraph M arcList vn mvi).adjMat.cell a.startVertex a.endVertex =
        b.dist := by
      rw [hund, hlast]
      rfl
    exact ⟨b, hb, hends, hlast, hcell, by rw [← undirected_adjMat_symm]; exact hcell⟩

set_option maxRecDepth 100000 in
/-- Witness of C15 (amended): with min index 1 the arcs (0,1,5) and (0,1,7), which name
the unused id 0, are stored, and the weight 7 of the last one stays in `adjMat[0][1]`. -/
theorem constructors_store_every_arc_witness :
    lastArc [⟨0, 1, 5⟩, ⟨0, 1, 7⟩] 0 1 = some ⟨0, 1, 7⟩ ∧
    (DirectedGraph 1000 [⟨0, 1, 5⟩, ⟨0, 1, 7⟩] 1 1).adjMat.cell 0 1 = 7 ∧
    ∃ b ∈ [(⟨0, 1, 5⟩ : Arc), ⟨0, 1, 7⟩], (b.startVertex = 0 ∧ b.endVertex = 1) ∧
      lastArc [⟨0, 1, 5⟩, ⟨0, 1, 7⟩] 0 1 = some b ∧
      (DirectedGraph 1000 [⟨0, 1, 5⟩, ⟨0, 1, 7⟩] 1 1).adjMat.cell 0 1 = b.dist :=
  ⟨by decide, by decide,
    (constructors_store_every_arc 1000 [⟨0, 1, 5⟩, ⟨0, 1, 7⟩] 1 1 (by decide) ⟨0, 1, 5⟩
      (List.mem_cons_self _ _)).2.2.1⟩

/-- C15 fails as stated: with min index 1 and one vertex, the arc (0,1,5) names the id
0 outside the valid range; both constructors return a graph all the same, and the
weight sits in row 0 (directed) and in row 0 and column 0 (undirected) of `adjMat`. -/
theorem invalid_vertex_counterexample :
    ¬ ArcsInRange [⟨0, 1, 5⟩] 1 1 ∧
    ¬ InRange (DirectedGraph 1000 [⟨0, 1, 5⟩] 1 1) 0 ∧
    (DirectedGraph 1000 [⟨0, 1, 5⟩] 1 1).adjMat.cell 0 1 = 5 ∧
    (UndirectedGraph 1000 [⟨0, 1, 5⟩] 1 1).adjMat.cell 0 1 = 5 ∧
    (UndirectedGraph 1000 [⟨0, 1, 5⟩] 1 1).adjMat.cell 1 0 = 5 :=
  ⟨by decide, by decide, by decide, by decide, by decide⟩

/-! ## Symmetry of the distances of an undirected graph -/

theorem walkWeight_reverse {adj : DistanceMatrix} (hsym : ∀ a b, adj.cell a b = adj.cell b a)
    (l : List Nat) : ∀ a b, walkWeight adj a l b = walkWeight adj b l.reverse a := by
  induction l with
  | nil => intro a b; exact hsym a b
  | cons v l ih =>
    intro a b
    rw [List.reverse_cons, walkWeight_append]
    simp only [walkWeight]
    rw [ih v b, hsym a v]
    ring

/-- Floyd on a symmetric matrix without negative cycle leaves a symmetric matrix. -/
theorem floydLoops_symm {adj : DistanceMatrix} {vs : List Nat}
    (hsym : ∀ a b, adj.cell a b = adj.cell b a) (hn : NoNegativeCycle adj vs)
    {j k : Nat} (hj : j ∈ vs) (hk : k ∈ vs) :
    (floydLoops vs adj).cell j k = (floydLoops vs adj).cell k j := by
  obtain ⟨hs, hc⟩ := floydLoops_spec hn
  have hle : ∀ a ∈ vs, ∀ b ∈ vs, (floydLoops vs adj).cell b a ≤ (floydLoops vs adj).cell a b := by
    intro a ha b hb
    obtain ⟨l, hl, he⟩ := hs a ha b hb
    rw [he, walkWeight_reverse hsym]
    exact hc b hb a ha l.reverse (fun u hu => hl u (List.mem_reverse.mp hu))
  exact le_antisymm (hle k hk j hj) (hle j hj k hk)

theorem undirected_cells_nonneg (M : Distance) (hM : 0 ≤ M) (arcList : ArcList) (vn mvi : Nat)
    (hw : ∀ a ∈ arcList, 0 ≤ a.dist) (r c : Nat) :
    0 ≤ (UndirectedGraph M arcList vn mvi).adjMat.cell r c := by
  rcases undirected_cell_origin arcList (TopologicalGraph.new M vn mvi).adjMat r c with
    h | ⟨a, ha, _, h⟩
  · show 0 ≤ (arcList.foldl (fun m a => setCell (setCell m a.startVertex a.endVertex a.dist)
      a.endVertex a.startVertex a.dist) (TopologicalGraph.new M vn mvi).adjMat).cell r c
    rw [h, new_adjMat_cell]
    split
    · exact le_rfl
    · exact hM
  · show 0 ≤ (arcList.foldl (fun m a => setCell (setCell m a.startVertex a.endVertex a.dist)
      a.endVertex a.startVertex a.dist) (TopologicalGraph.new M vn mvi).adjMat).cell r c
    rw [h]
    exact hw a ha

/-- C20. For an `UndirectedGraph` built from an arc list with ids in the valid range
and nonnegative weights (`MAX_DISTANCE` being nonnegative), the matrix left by
`getShortestPathByFloyd` is symmetric on the valid range. -/
theorem floyd_undirected_symmetric (M : Distance) (hM : 0 ≤ M) (arcList : ArcList)
    (vn mvi : Nat) (_hids : ArcsInRange arcList vn mvi) (hw : ∀ a ∈ arcList, 0 ≤ a.dist)
    (j k : Nat) (hj : InRange (UndirectedGraph M arcList vn mvi) j)
    (hk : InRange (UndirectedGraph M arcList vn mvi) k) :
    (getShortestPathByFloyd (UndirectedGraph M arcList vn mvi)).shortestDist.cell j k =
      (getShortestPathByFloyd (UndirectedGraph M arcList vn mvi)).shortestDist.cell k j :=
  floydLoops_symm (undirected_adjMat_symm M arcList vn mvi)
    (noNegativeCycle_of_nonneg (fun r _ c _ => undirected_cells_nonneg M hM arcList vn mvi hw r c))
    ((mem_vertices _ j).mpr hj) ((mem_vertices _ k).mpr hk)

/-- Witness of C20 on the undirected arcs (1,2,5), (2,3,3) with min index 1. -/
theorem floyd_undirected_symmetric_witness :
    (getShortestPathByFloyd
      (UndirectedGraph 1000 [⟨1, 2, 5⟩, ⟨2, 3, 3⟩] 3 1)).shortestDist.cell 1 3 =
    (getShortestPathByFloyd
      (UndirectedGraph 1000 [⟨1, 2, 5⟩, ⟨2, 3, 3⟩] 3 1)).shortestDist.cell 3 1 :=
  floyd_undirected_symmetric 1000 (by decide) [⟨1, 2, 5⟩, ⟨2, 3, 3⟩] 3 1 (by decide)
    (by decide) 1 3 (by decide) (by decide)

/-! ## The adjacency matrix of the point-set constructor -/

theorem sqDist_symm (gg : GeometricalGraph) (i j : Nat) : sqDist gg i j = sqDist gg j i := by
  unfold sqDist; ring

theorem sqDist_self (gg : GeometricalGraph) (i : Nat) : sqDist gg i i = 0 := by
  unfold sqDist; ring

theorem pointsInner_cell (gg : GeometricalGraph) (i : Nat) (l : List Nat) :
    ∀ (m : DistanceMatrix) (r c : Nat), (pointsInner gg i l m).cell r c =
      if (r = i ∧ c ∈ l) ∨ (c = i ∧ r ∈ l) then sqDist gg r c else m.cell r c := by
  induction l with
  | nil => intro m r c; simp [pointsInner]
  | cons j l ih =>
    intro m r c
    have hstep : pointsInner gg i (j :: l) m =
        pointsInner gg i l (setCell (setCell m j i (sqDist gg i j)) i j (sqDist gg i j)) := rfl
    rw [hstep, ih]
    by_cases h1 : (r = i ∧ c ∈ l) ∨ (c = i ∧ r ∈ l)
    · have h2 : (r = i ∧ c ∈ j :: l) ∨ (c = i ∧ r ∈ j :: l) := by
        rcases h1 with ⟨a, b⟩ | ⟨a, b⟩
        · exact Or.inl ⟨a, List.mem_cons_of_mem _ b⟩
        · exact Or.inr ⟨a, List.mem_cons_of_mem _ b⟩
      rw [if_pos h1, if_pos h2]
    · rw [if_neg h1, setCell_cell, setCell_cell]
      by_cases h3 : r = i ∧ c = j
      · obtain ⟨rfl, rfl⟩ := h3
        rw [if_pos ⟨rfl, rfl⟩, if_pos (Or.inl ⟨rfl, List.mem_cons_self _ _⟩)]
      · rw [if_neg h3]
        by_cases h4 : r = j ∧ c = i
        · obtain ⟨rfl, rfl⟩ := h4
          rw [if_pos ⟨rfl, rfl⟩, if_pos (Or.inr ⟨rfl, List.mem_cons_self _ _⟩), sqDist_symm]
        · rw [if_neg h4, if_neg]
          rintro (⟨a, b⟩ | ⟨a, b⟩)
          · rcases List.mem_cons.mp b with e | e
            · exact h3 ⟨a, e⟩
            · exact h1 (Or.inl ⟨a, e⟩)
          · rcases List.mem_cons.mp b with e | e
            · exact h4 ⟨e, a⟩
            · exact h1 (Or.inr ⟨a, e⟩)

theorem pointsOuter_cell (gg : GeometricalGraph) (k : Nat) : ∀ (m : DistanceMatrix) (r c : Nat),
    (pointsOuter gg k m).cell r c =
      if r < k ∧ c < k then sqDist gg r c else m.cell r c := by
  induction k with
  | zero => intro m r c; simp [pointsOuter]
  | succ k ih =>
    intro m r c
    have hstep : pointsOuter gg (k + 1) m =
        setCell (pointsInner gg k (List.range' 0 k) (pointsOuter gg k m)) k k 0 := by
      unfold pointsOuter
      rw [List.range'_1_concat, List.foldl_append]
      simp
    rw [hstep, setCell_cell, pointsInner_cell, ih]
    simp only [List.mem_range'_1, Nat.zero_le, true_and, Nat.zero_add]
    by_cases h1 : r = k ∧ c = k
    · obtain ⟨rfl, rfl⟩ := h1
      rw [if_pos ⟨rfl, rfl⟩, if_pos ⟨Nat.lt_succ_self _, Nat.lt_succ_self _⟩, sqDist_self]
    · rw [if_neg h1]
      by_cases h2 : (r = k ∧ c < k) ∨ (c = k ∧ r < k)
      · rw [if_pos h2, if_pos (by omega)]
      · rw [if_neg h2]
        by_cases h3 : r < k ∧ c < k
        · rw [if_pos h3, if_pos (by omega)]
        · rw [if_neg h3, if_neg (by omega)]

theorem ofPoints_adjMat (M : Distance) (gg : GeometricalGraph) :
    (UndirectedGraph.ofPoints M gg).adjMat =
      pointsOuter gg gg.vertexNum (TopologicalGraph.new M gg.vertexNum 0).adjMat := rfl

/-- C11. The point-set constructor builds a graph with min index 0 over the `n`
points, whose adjacency matrix holds the squared Euclidean distance between any two
points of `[0, n - 1]`, is symmetric and has a zero diagonal; it sets
`shortestDist = adjMat` with `shortestDistSolved = true`, so that `getShortestPath`
changes nothing and returns the adjacency matrix. -/
theorem pointSet_constructor (M : Distance) (gg : GeometricalGraph) :
    (UndirectedGraph.ofPoints M gg).minVertexIndex = 0 ∧
    (UndirectedGraph.ofPoints M gg).vertexNum = gg.vertexNum ∧
    (∀ i j, i < gg.vertexNum → j < gg.vertexNum → i ≠ j →
      (UndirectedGraph.ofPoints M gg).adjMat.cell i j =
        ((gg.point i).1 - (gg.point j).1) * ((gg.point i).1 - (gg.point j).1) +
          ((gg.point i).2 - (gg.point j).2) * ((gg.point i).2 - (gg.point j).2)) ∧
    (∀ i j, (UndirectedGraph.ofPoints M gg).adjMat.cell i j =
      (UndirectedGraph.ofPoints M gg).adjMat.cell j i) ∧
    (∀ i, i < gg.vertexNum → (UndirectedGraph.ofPoints M gg).adjMat.cell i i = 0) ∧
    (UndirectedGraph.ofPoints M gg).shortestDist = (UndirectedGraph.ofPoints M gg).adjMat ∧
    (UndirectedGraph.ofPoints M gg).shortestDistSolved = true ∧
    getShortestPath (UndirectedGraph.ofPoints M gg) = UndirectedGraph.ofPoints M gg ∧
    (getShortestPath (UndirectedGraph.ofPoints M gg)).shortestDist =
      (UndirectedGraph.ofPoints M gg).adjMat := by
  have hsolve : getShortestPath (UndirectedGraph.ofPoints M gg) =
      UndirectedGraph.ofPoints M gg := by
    unfold getShortestPath
    rw [if_neg]
    intro h
    exact Bool.noConfusion h
  refine ⟨rfl, rfl, ?_, ?_, ?_, rfl, rfl, hsolve, by rw [hsolve]; rfl⟩
  · intro i j hi hj _
    rw [ofPoints_adjMat, pointsOuter_cell, if_pos ⟨hi, hj⟩]
    rfl
  · intro i j
    rw [ofPoints_adjMat, pointsOuter_cell, pointsOuter_cell, new_adjMat_symm, sqDist_symm]
    by_cases h : i < gg.vertexNum ∧ j < gg.vertexNum
    · rw [if_pos h, if_pos ⟨h.2, h.1⟩]
    · rw [if_neg h, if_neg (fun e => h ⟨e.2, e.1⟩)]
  · intro i hi
    rw [ofPoints_adjMat, pointsOuter_cell, if_pos ⟨hi, hi⟩, sqDist_self]

/-- Witness of C11: the points (0,0) and (3,4) get the weight 25. -/
theorem pointSet_constructor_witness :
    (UndirectedGraph.ofPoints 1000 ⟨[(0, 0), (3, 4)]⟩).adjMat.cell 0 1 = 25 ∧
    (getShortestPath (UndirectedGraph.ofPoints 1000 ⟨[(0, 0), (3, 4)]⟩)).shortestDist.cell 0 1
      = 25 := by
  have h := pointSet_constructor 1000 ⟨[(0, 0), (3, 4)]⟩
  have e := h.2.2.1 0 1 (by decide) (by decide) (by decide)
  have v : ((GeometricalGraph.point ⟨[(0, 0), (3, 4)]⟩ 0).1 -
      (GeometricalGraph.point ⟨[(0, 0), (3, 4)]⟩ 1).1) *
      ((GeometricalGraph.point ⟨[(0, 0), (3, 4)]⟩ 0).1 -
      (GeometricalGraph.point ⟨[(0, 0), (3, 4)]⟩ 1).1) +
      ((GeometricalGraph.point ⟨[(0, 0), (3, 4)]⟩ 0).2 -
      (GeometricalGraph.point ⟨[(0, 0), (3, 4)]⟩ 1).2) *
      ((GeometricalGraph.point ⟨[(0, 0), (3, 4)]⟩ 0).2 -
      (GeometricalGraph.point ⟨[(0, 0), (3, 4)]⟩ 1).2) = 25 := by decide
  rw [v] at e
  exact ⟨e, by rw [h.2.2.2.2.2.2.2.2]; exact e⟩

/-! ## The queries on a fresh graph -/

theorem readCell_empty {α : Type} (t : Table α) (r c : Nat) : readCell t 0 r c = none := by
  unfold readCell
  rw [if_neg]
  rintro ⟨h, _⟩
  exact Nat.not_lt_zero r h

theorem readCell_inside {α : Type} (t : Table α) {size r c : Nat} (hr : r < size)
    (hc : c < size) : readCell t size r c = some (t.cell r c) := by
  unfold readCell
  rw [if_pos ⟨hr, hc⟩]

/-- With an empty `distSeq`, the first iteration of the counting loop reads outside
the vector. -/
theorem checkedFindNumLoop_empty {g : TopologicalGraph} (h : g.distSeqSize = 0)
    (start : Nat) (radius : Distance) (i n : Nat) :
    checkedFindNumLoop g start radius i (n + 1) = none := by
  have h1 : checkedNthClosestVertex g start i = none := by
    unfold checkedNthClosestVertex
    rw [h]
    exact readCell_empty _ _ _
  rw [checkedFindNumLoop, h1]

/-- With an empty `distSeq`, the first iteration of the sampling loop reads outside
the vector. -/
theorem checkedFindLoop_empty {g : TopologicalGraph} (h : g.distSeqSize = 0)
    (start : Nat) (radius : Distance) (sel : Nat → Bool) (i n c : Nat) (vertex : Option Nat) :
    checkedFindLoop g start radius sel i (n + 1) c vertex = none := by
  have h1 : checkedNthClosestVertex g start i = none := by
    unfold checkedNthClosestVertex
    rw [h]
    exact readCell_empty _ _ _
  rw [checkedFindLoop, h1]

/-- When every read of the counting loop falls inside the vectors, the checked loop
returns what the loop returns. -/
theorem checkedFindNumLoop_eq {g : TopologicalGraph} {start : Nat}
    (hs1 : start < g.distSeqSize) (hs2 : start < g.shortestDistSize) (radius : Distance)
    (n : Nat) : ∀ i,
    (∀ r, i ≤ r → r < i + n →
      r < g.distSeqSize ∧ nthClosestVertex g start r < g.shortestDistSize) →
    checkedFindNumLoop g start radius i n = some (findNumLoop g start radius i n) := by
  induction n with
  | zero => intro i _; rfl
  | succ n ih =>
    intro i hr
    obtain ⟨hi1, hi2⟩ := hr i le_rfl (by omega)
    have h1 : checkedNthClosestVertex g start i = some (nthClosestVertex g start i) :=
      readCell_inside _ hs1 hi1
    have h2 : checkedDistance g start (nthClosestVertex g start i) =
        some (distance g start (nthClosestVertex g start i)) := readCell_inside _ hs2 hi2
    rw [checkedFindNumLoop, h1]
    simp only [h2]
    rw [findNumLoop]
    split
    · rfl
    · exact ih (i + 1) (fun r hr1 hr2 => hr r (by omega) (by omega))

/-- When every read of the sampling loop falls inside the vectors, the checked loop
returns what the loop returns. -/
theorem checkedFindLoop_eq {g : TopologicalGraph} {start : Nat}
    (hs1 : start < g.distSeqSize) (hs2 : start < g.shortestDistSize) (radius : Distance)
    (sel : Nat → Bool) (n : Nat) : ∀ i c vertex,
    (∀ r, i ≤ r → r < i + n →
      r < g.distSeqSize ∧ nthClosestVertex g start r < g.shortestDistSize) →
    checkedFindLoop g start radius sel i n c vertex =
      some (findLoop g start radius sel i n c vertex) := by
  induction n with
  | zero => intro i c vertex _; rfl
  | succ n ih =>
    intro i c vertex hr
    obtain ⟨hi1, hi2⟩ := hr i le_rfl (by omega)
    have h1 : checkedNthClosestVertex g start i = some (nthClosestVertex g start i) :=
      readCell_inside _ hs1 hi1
    have h2 : checkedDistance g start (nthClosestVertex g start i) =
        some (distance g start (nthClosestVertex g start i)) := readCell_inside _ hs2 hi2
    rw [checkedFindLoop, h1]
    simp only [h2]
    rw [findLoop]
    split
    · split
      · exact ih (i + 1) (c + 1) _ (fun r hr1 hr2 => hr r (by omega) (by omega))
      · exact ih (i + 1) (c + 1) _ (fun r hr1 hr2 => hr r (by omega) (by omega))
    · rfl

theorem cacheSizeInv_getShortestPath {g : TopologicalGraph} (h : CacheSizeInv g) :
    CacheSizeInv (getShortestPath g) := by
  unfold getShortestPath
  by_cases hs : g.shortestDistSolved = false
  · rw [if_pos hs]
    exact ⟨fun _ => rfl, fun hd => Bool.noConfusion hd⟩
  · rw [if_neg hs]; exact h

theorem cacheSizeInv_getDistSeqTable (sort : (Nat → Nat → Bool) → List Nat → List Nat)
    {g : TopologicalGraph} (h : CacheSizeInv g) : CacheSizeInv (getDistSeqTable sort g) := by
  unfold getDistSeqTable
  by_cases hd : g.distSeqSolved = false
  · rw [if_pos hd]
    exact ⟨fun _ => (cacheSizeInv_getShortestPath h).1 (getShortestPath_solved g),
      fun _ => rfl⟩
  · rw [if_neg hd]; exact h

/-- In a state with a solved ranking whose caches are allocated, the four queries read
inside the vectors for arguments of the valid range, and the checked queries return
what the queries return. -/
theorem checked_queries_defined {sort : (Nat → Nat → Bool) → List Nat → List Nat}
    (hsort : StdSortSpec sort) {g : TopologicalGraph} (h : GraphInv sort g)
    (hc : CacheSizeInv g) (hd : g.distSeqSolved = true) :
    (∀ u v, InRange g u → InRange g v → checkedDistance g u v = some (distance g u v)) ∧
    (∀ v rank, InRange g v → InRange g rank →
      checkedNthClosestVertex g v rank = some (nthClosestVertex g v rank)) ∧
    (∀ v r, InRange g v →
      checkedFindVertexNumWithinRadius g v r = some (findVertexNumWithinRadius g v r)) ∧
    (∀ v r sel, InRange g v →
      checkedFindVertexWithinRadius g v r sel = some (findVertexWithinRadius g v r sel)) := by
  have hsd : g.shortestDistSize = g.vertexNum + g.minVertexIndex := by
    rw [hc.1 (h.2.2 hd).1, h.1]
  have hds : g.distSeqSize = g.vertexNum + g.minVertexIndex := by
    rw [hc.2 hd, h.1]
  have hlt : ∀ v, InRange g v → v < g.vertexNum + g.minVertexIndex := by
    intro v hv
    have := hv.2
    omega
  have hreads : ∀ v, InRange g v → ∀ r, g.minVertexIndex ≤ r →
      r < g.minVertexIndex + g.vertexNum →
      r < g.distSeqSize ∧ nthClosestVertex g v r < g.shortestDistSize := by
    intro v hv r hr1 hr2
    refine ⟨by rw [hds]; omega, ?_⟩
    obtain ⟨hp, _⟩ := ranked_rows hsort h hd v hv
    have hmem : nthClosestVertex g v r ∈ rankedRow g v :=
      List.mem_map.mpr ⟨r, (mem_vertices g r).mpr ⟨hr1, hr2⟩, rfl⟩
    have := hlt _ ((mem_vertices g _).mp (hp.mem_iff.mp hmem))
    rw [hsd]
    exact this
  refine ⟨?_, ?_, ?_, ?_⟩
  · intro u v hu hv
    exact readCell_inside _ (by rw [hsd]; exact hlt u hu) (by rw [hsd]; exact hlt v hv)
  · intro v rank hv hr
    exact readCell_inside _ (by rw [hds]; exact hlt v hv) (by rw [hds]; exact hlt rank hr)
  · intro v r hv
    exact checkedFindNumLoop_eq (by rw [hds]; exact hlt v hv) (by rw [hsd]; exact hlt v hv)
      r g.vertexNum g.minVertexIndex (hreads v hv)
  · intro v r sel hv
    exact checkedFindLoop_eq (by rw [hds]; exact hlt v hv) (by rw [hsd]; exact hlt v hv)
      r sel g.vertexNum g.minVertexIndex 1 none (hreads v hv)

theorem cacheSizeInv_constructed {M : Distance} {g : TopologicalGraph} (h : Constructed M g) :
    CacheSizeInv g := by
  cases h with
  | undirected arcList vn mvi _ => exact ⟨fun hs => Bool.noConfusion hs, fun hd => Bool.noConfusion hd⟩
  | directed arcList vn mvi _ => exact ⟨fun hs => Bool.noConfusion hs, fun hd => Bool.noConfusion hd⟩
  | ofPoints gg => exact ⟨fun _ => rfl, fun hd => Bool.noConfusion hd⟩

/-- In every state reached from a constructor, a cache whose flag is set is allocated. -/
theorem cacheSizeInv_reachable {M : Distance}
    {sort : (Nat → Nat → Bool) → List Nat → List Nat} {g : TopologicalGraph}
    (h : Reachable M sort g) : CacheSizeInv g := by
  induction h with
  | init hc => exact cacheSizeInv_constructed hc
  | shortestPath _ ih => exact cacheSizeInv_getShortestPath ih
  | distSeqTable _ ih => exact cacheSizeInv_getDistSeqTable sort ih

/-- C14 (amended). On a graph `g` freshly built by an edge-list constructor, undirected
or directed, the queries compute nothing and read the caches, which are still empty
vectors: every `distance( u, v )` and `nthClosestVertex( v, rank )` reads outside the
vector, and so do `findVertexNumWithinRadius( v, r )` and
`findVertexWithinRadius( v, r )` in their first iteration when the graph has a vertex,
so none of them has a defined answer. The tables are computed by an explicit
`getDistSeqTable` call, which solves the distance matrix first: it leaves both flags
set and `shortestDist` equal to the result of Floyd on the adjacency matrix, and then
the four queries read inside the vectors for arguments of the valid range. -/
theorem fresh_queries_out_of_bounds (M : Distance)
    (sort : (Nat → Nat → Bool) → List Nat → List Nat) (hsort : StdSortSpec sort)
    (arcList : ArcList) (vn mvi : Nat) (g : TopologicalGraph)
    (hg : g = UndirectedGraph M arcList vn mvi ∨ g = DirectedGraph M arcList vn mvi) :
    ((∀ u v, checkedDistance g u v = none) ∧
      (∀ v rank, checkedNthClosestVertex g v rank = none) ∧
      (0 < vn → ∀ v r, checkedFindVertexNumWithinRadius g v r = none) ∧
      (0 < vn → ∀ v r sel, checkedFindVertexWithinRadius g v r sel = none)) ∧
    ((getDistSeqTable sort g).shortestDistSolved = true ∧
      (getDistSeqTable sort g).distSeqSolved = true ∧
      (getDistSeqTable sort g).shortestDist = (getShortestPathByFloyd g).shortestDist ∧
      (∀ u v, InRange g u → InRange g v →
        checkedDistance (getDistSeqTable sort g) u v =
          some (distance (getDistSeqTable sort g) u v)) ∧
      (∀ v rank, InRange g v → InRange g rank →
        checkedNthClosestVertex (getDistSeqTable sort g) v rank =
          some (nthClosestVertex (getDistSeqTable sort g) v rank)) ∧
      (∀ v r, InRange g v →
        checkedFindVertexNumWithinRadius (getDistSeqTable sort g) v r =
          some (findVertexNumWithinRadius (getDistSeqTable sort g) v r)) ∧
      (∀ v r sel, InRange g v →
        checkedFindVertexWithinRadius (getDistSeqTable sort g) v r sel =
          some (findVertexWithinRadius (getDistSeqTable sort g) v r sel))) := by
  have hfresh : g.shortestDistSize = 0 ∧ g.distSeqSize = 0 ∧ g.vertexNum = vn ∧
      g.shortestDistSolved = false ∧ g.distSeqSolved = false ∧
      g.vertexAllocNum = g.vertexNum + g.minVertexIndex := by
    rcases hg with rfl | rfl
    · exact ⟨rfl, rfl, rfl, rfl, rfl, rfl⟩
    · exact ⟨rfl, rfl, rfl, rfl, rfl, rfl⟩
  obtain ⟨hsd, hds, hvn, hs, hd, halloc⟩ := hfresh
  have hinv : GraphInv sort g :=
    ⟨halloc, fun h => by rw [hs] at h; exact Bool.noConfusion h,
      fun h => by rw [hd] at h; exact Bool.noConfusion h⟩
  have hcache : CacheSizeInv g :=
    ⟨fun h => by rw [hs] at h; exact Bool.noConfusion h,
      fun h => by rw [hd] at h; exact Bool.noConfusion h⟩
  refine ⟨⟨?_, ?_, ?_, ?_⟩, ?_⟩
  · intro u v
    unfold checkedDistance
    rw [hsd]
    exact readCell_empty _ _ _
  · intro v rank
    unfold checkedNthClosestVertex
    rw [hds]
    exact readCell_empty _ _ _
  · intro hpos v r
    unfold checkedFindVertexNumWithinRadius
    obtain ⟨n, hn⟩ := Nat.exists_eq_succ_of_ne_zero (Nat.pos_iff_ne_zero.mp hpos)
    rw [hvn, hn]
    exact checkedFindNumLoop_empty hds v r _ n
  · intro hpos v r sel
    unfold checkedFindVertexWithinRadius
    obtain ⟨n, hn⟩ := Nat.exists_eq_succ_of_ne_zero (Nat.pos_iff_ne_zero.mp hpos)
    rw [hvn, hn]
    exact checkedFindLoop_empty hds v r sel _ n _ _
  · have hq := checked_queries_defined hsort (graphInv_getDistSeqTable hsort hinv)
      (cacheSizeInv_getDistSeqTable sort hcache) (getDistSeqTable_distSeqSolved sort g)
    have hfl : (getDistSeqTable sort g).shortestDist = (getShortestPathByFloyd g).shortestDist := by
      rw [getDistSeqTable_unsolved hd]
      unfold getShortestPath
      rw [if_pos hs]
      rfl
    refine ⟨(graphInv_getDistSeqTable hsort hinv).2.2 (getDistSeqTable_distSeqSolved sort g) |>.1,
      getDistSeqTable_distSeqSolved sort g, hfl, ?_, ?_, ?_, ?_⟩
    · intro u v hu hv
      exact hq.1 u v ((getDistSeqTable_inRange sort g u).mpr hu)
        ((getDistSeqTable_inRange sort g v).mpr hv)
    · intro v rank hv hr
      exact hq.2.1 v rank ((getDistSeqTable_inRange sort g v).mpr hv)
        ((getDistSeqTable_inRange sort g rank).mpr hr)
    · intro v r hv
      exact hq.2.2.1 v r ((getDistSeqTable_inRange sort g v).mpr hv)
    · intro v r sel hv
      exact hq.2.2.2 v r sel ((getDistSeqTable_inRange sort g v).mpr hv)

set_option maxRecDepth 100000 in
/-- Witness of C14 (amended) on the undirected arc (0,1,5) over the vertices 0, 1: on
the fresh graph `distance( 0, 1 )` and `findVertexNumWithinRadius( 0, 6 )` read outside
the empty vectors; after `getDistSeqTable` the distance is 5 and the count is 2. -/
theorem fresh_queries_out_of_bounds_witness :
    checkedDistance (UndirectedGraph 1000 [⟨0, 1, 5⟩] 2 0) 0 1 = none ∧
    checkedFindVertexNumWithinRadius (UndirectedGraph 1000 [⟨0, 1, 5⟩] 2 0) 0 6 = none ∧
    checkedDistance (getDistSeqTable stableSort (UndirectedGraph 1000 [⟨0, 1, 5⟩] 2 0)) 0 1 =
      some 5 ∧
    checkedFindVertexNumWithinRadius
      (getDistSeqTable stableSort (UndirectedGraph 1000 [⟨0, 1, 5⟩] 2 0)) 0 6 = some 2 := by
  have h := fresh_queries_out_of_bounds 1000 stableSort stableSort_spec [⟨0, 1, 5⟩] 2 0
    (UndirectedGraph 1000 [⟨0, 1, 5⟩] 2 0) (Or.inl rfl)
  have e1 : distance (getDistSeqTable stableSort (UndirectedGraph 1000 [⟨0, 1, 5⟩] 2 0)) 0 1
      = 5 := by decide
  have e2 : findVertexNumWithinRadius
      (getDistSeqTable stableSort (UndirectedGraph 1000 [⟨0, 1, 5⟩] 2 0)) 0 6 = 2 := by decide
  refine ⟨h.1.1 0 1, h.1.2.2.1 (by decide) 0 6, ?_, ?_⟩
  · rw [h.2.2.2.2.1 0 1 (by decide) (by decide), e1]
  · rw [h.2.2.2.2.2.2.1 0 6 (by decide), e2]

set_option maxRecDepth 100000 in
/-- C14 fails as stated: on the fresh graph with the undirected arc (0,1,5) over the
vertices 0, 1 each of the four queries reads outside an empty vector in its first
access and computes nothing, while after an explicit `getDistSeqTable` call the same
queries answer 5, vertex 0, count 2 and vertex 1. -/
theorem fresh_queries_counterexample :
    (UndirectedGraph 1000 [⟨0, 1, 5⟩] 2 0).shortestDistSize = 0 ∧
    (UndirectedGraph 1000 [⟨0, 1, 5⟩] 2 0).distSeqSize = 0 ∧
    checkedDistance (UndirectedGraph 1000 [⟨0, 1, 5⟩] 2 0) 0 1 = none ∧
    checkedNthClosestVertex (UndirectedGraph 1000 [⟨0, 1, 5⟩] 2 0) 0 0 = none ∧
    checkedFindVertexNumWithinRadius (UndirectedGraph 1000 [⟨0, 1, 5⟩] 2 0) 0 6 = none ∧
    checkedFindVertexWithinRadius (UndirectedGraph 1000 [⟨0, 1, 5⟩] 2 0) 0 6
      (fun _ => true) = none ∧
    checkedDistance (getDistSeqTable stableSort (UndirectedGraph 1000 [⟨0, 1, 5⟩] 2 0)) 0 1 =
      some 5 ∧
    checkedNthClosestVertex
      (getDistSeqTable stableSort (UndirectedGraph 1000 [⟨0, 1, 5⟩] 2 0)) 0 0 = some 0 ∧
    checkedFindVertexNumWithinRadius
      (getDistSeqTable stableSort (UndirectedGraph 1000 [⟨0, 1, 5⟩] 2 0)) 0 6 = some 2 ∧
    checkedFindVertexWithinRadius
      (getDistSeqTable stableSort (UndirectedGraph 1000 [⟨0, 1, 5⟩] 2 0)) 0 6
      (fun _ => true) = some (some 1) :=
  ⟨rfl, rfl, by decide, by decide, by decide, by decide, by decide, by decide, by decide,
    by decide⟩

/-! ## Floyd with negative weights -/

theorem walkWeight_potential {adj : DistanceMatrix} {vs : List Nat} (h : Nat → Distance)
    (hred : ∀ a ∈ vs, ∀ b ∈ vs, 0 ≤ adj.cell a b + h a - h b) (l : List Nat) :
    ∀ a ∈ vs, ∀ b ∈ vs, (∀ u ∈ l, u ∈ vs) → 0 ≤ walkWeight adj a l b + h a - h b := by
  induction l with
  | nil => intro a ha b hb _; exact hred a ha b hb
  | cons v l ih =>
    intro a ha b hb hl
    have hv : v ∈ vs := hl v (by simp)
    have h1 := ih v hv b hb (fun u hu => hl u (by simp [hu]))
    have h2 := hred a ha v hv
    simp only [walkWeight]
    linarith

/-- A potential `h` that makes every reduced weight `adj[a][b] + h a - h b` nonnegative
rules out negative cycles. -/
theorem noNegativeCycle_of_potential {adj : DistanceMatrix} {vs : List Nat} (h : Nat → Distance)
    (hred : ∀ a ∈ vs, ∀ b ∈ vs, 0 ≤ adj.cell a b + h a - h b) : NoNegativeCycle adj vs := by
  intro v hv l hl
  have := walkWeight_potential h hred l v hv v hv hl
  linarith

/-- A path that starts at a vertex which no arc leaves ends at that vertex. -/
theorem path_stuck {g : TopologicalGraph} {M : Distance} {a : Nat}
    (hstuck : ∀ x, InRange g x → x ≠ a → g.adjMat.cell a x = M) (p : List Nat) :
    ∀ k, IsPath g M a k p → k = a := by
  induction p with
  | nil => intro k h; simp [IsPath] at h
  | cons v t ih =>
    intro k h
    obtain ⟨hh, hl, hr, hc⟩ := h
    simp only [List.head?_cons, Option.some.injEq] at hh
    subst hh
    cases t with
    | nil =>
      simp only [List.getLast?_singleton, Option.some.injEq] at hl
      exact hl.symm
    | cons u t =>
      have hu : u = v := by
        by_contra hne
        exact (List.chain'_cons.mp hc).1 (hstuck u (hr u (by simp)) hne)
      subst hu
      exact ih k ⟨rfl, by simpa using hl, fun w hw => hr w (List.mem_cons_of_mem _ hw),
        (List.chain'_cons.mp hc).2⟩

/-- C16 (amended). On a graph that may hold negative weights but no negative cycle
(every cell counting with its plain integer value, `MAX_DISTANCE` included),
`getShortestPathByFloyd` leaves in `shortestDist[j][k]` the minimum total weight of
the walks from `j` to `k` through valid vertices, an absent arc counting as an arc of
weight `MAX_DISTANCE`: the sums are plain integer sums and nothing saturates. -/
theorem floyd_plain_sums (g : TopologicalGraph) (hn : NoNegativeCycle g.adjMat (vertices g))
    (j k : Nat) (hj : InRange g j) (hk : InRange g k) :
    (∃ l : List Nat, (∀ u ∈ l, InRange g u) ∧
      (getShortestPathByFloyd g).shortestDist.cell j k = walkWeight g.adjMat j l k) ∧
    (∀ l : List Nat, (∀ u ∈ l, InRange g u) →
      (getShortestPathByFloyd g).shortestDist.cell j k ≤ walkWeight g.adjMat j l k) := by
  obtain ⟨hs, hc⟩ := floydLoops_spec hn
  have hjv := (mem_vertices g j).mpr hj
  have hkv := (mem_vertices g k).mpr hk
  constructor
  · obtain ⟨l, hl, he⟩ := hs j hjv k hkv
    exact ⟨l, fun u hu => (mem_vertices g u).mp (hl u hu), he⟩
  · intro l hl
    exact hc j hjv k hkv l (fun u hu => (mem_vertices g u).mpr (hl u hu))

set_option maxRecDepth 100000 in
/-- Witness of C16 (amended) on the directed arc (1,2,-5) over the vertices 0, 1, 2:
the cell (0,2) holds 995, no more than the weight of the walk 0, 1, 2 whose first
step is an absent arc. -/
theorem floyd_plain_sums_witness :
    (getShortestPathByFloyd (DirectedGraph 1000 [⟨1, 2, -5⟩] 3 0)).shortestDist.cell 0 2 ≤
      walkWeight (DirectedGraph 1000 [⟨1, 2, -5⟩] 3 0).adjMat 0 [1] 2 :=
  (floyd_plain_sums (DirectedGraph 1000 [⟨1, 2, -5⟩] 3 0)
    (noNegativeCycle_of_potential (fun v => if v = 1 then 5 else 0) (by decide))
    0 2 (by decide) (by decide)).2 [1] (by decide)

set_option maxRecDepth 100000 in
/-- C16 fails as stated: the directed graph with the single arc (1,2,-5) over the
vertices 0, 1, 2 has no negative cycle and no path from 0 to 2, yet Floyd relaxes
`shortestDist[0][2]` through vertex 1 to `MAX_DISTANCE - 5 = 995`. -/
theorem floyd_saturation_counterexample :
    NoNegativeCycle (DirectedGraph 1000 [⟨1, 2, -5⟩] 3 0).adjMat
      (vertices (DirectedGraph 1000 [⟨1, 2, -5⟩] 3 0)) ∧
    (¬ ∃ p, IsPath (DirectedGraph 1000 [⟨1, 2, -5⟩] 3 0) 1000 0 2 p) ∧
    (getShortestPathByFloyd (DirectedGraph 1000 [⟨1, 2, -5⟩] 3 0)).shortestDist.cell 0 2
      = 995 := by
  refine ⟨noNegativeCycle_of_potential (fun v => if v = 1 then 5 else 0) (by decide), ?_,
    by decide⟩
  rintro ⟨p, hp⟩
  have := path_stuck (forall_inRange_of_vertices (by decide)) p 2 hp
  exact absurd this (by decide)

/-! ## The insertion loop with a positive min index -/

set_option maxRecDepth 100000 in
/-- C17 (defect of the code). On the solved graph with min index 1, vertices 1 and 2
and the undirected arc (1,2,5), `getDistSeqTableByInsertSort` leaves in row 1, at the
valid ranks 1 and 2, the ids 2 and 0: the unused id 0 instead of a permutation of
1, 2 sorted by distance, the sorted ids 1, 2 sitting at the ranks 0 and 1. The loop
shifts down to rank 0 (`k > 0`) where the valid ranks start at `minVertexIndex`. -/
theorem insertSort_misplaces_row :
    vertices (getShortestPath (UndirectedGraph 1000 [⟨1, 2, 5⟩] 2 1)) = [1, 2] ∧
    rankedRow (getDistSeqTableByInsertSort
      (getShortestPath (UndirectedGraph 1000 [⟨1, 2, 5⟩] 2 1))) 1 = [2, 0] ∧
    ¬ InRange (getShortestPath (UndirectedGraph 1000 [⟨1, 2, 5⟩] 2 1)) 0 ∧
    (getDistSeqTableByInsertSort
      (getShortestPath (UndirectedGraph 1000 [⟨1, 2, 5⟩] 2 1))).distSeq.cell 1 0 = 1 ∧
    (getDistSeqTableByInsertSort
      (getShortestPath (UndirectedGraph 1000 [⟨1, 2, 5⟩] 2 1))).distSeq.cell 1 1 = 2 ∧
    rankedRow (getDistSeqTableBySTLsort stableSort
      (getShortestPath (UndirectedGraph 1000 [⟨1, 2, 5⟩] 2 1))) 1 = [1, 2] :=
  ⟨by decide, by decide, by decide, by decide, by decide, by decide⟩

/-! ## Dijkstra computes shortest path weights -/

/-- A value that is the weight of a walk from `j` to `k` and a lower bound of the
weight of every such walk is the minimum weight of a path from `j` to `k`, and is
`M` exactly when there is no path; the cells of the valid range are 0 on the diagonal
and otherwise nonnegative or `M`, and every simple path weighs less than `M`. -/
theorem shortest_of_walk_bounds (M : Distance) (g : TopologicalGraph)
    (hdiag : ∀ v, InRange g v → g.adjMat.cell v v = 0)
    (hcells : ∀ j k, InRange g j → InRange g k →
      0 ≤ g.adjMat.cell j k ∨ g.adjMat.cell j k = M)
    (hsimple : ∀ j k p, IsPath g M j k p → p.Nodup → pathWeight g.adjMat p < M)
    (j k : Nat) (hj : InRange g j) (hk : InRange g k) (D : Distance)
    (hs : ∃ l : List Nat, (∀ u ∈ l, u ∈ vertices g) ∧ D = walkWeight g.adjMat j l k)
    (hc : ∀ l : List Nat, (∀ u ∈ l, u ∈ vertices g) → D ≤ walkWeight g.adjMat j l k) :
    (∀ p, IsPath g M j k p → D ≤ pathWeight g.adjMat p) ∧
    ((∃ p, IsPath g M j k p) → ∃ p, IsPath g M j k p ∧ pathWeight g.adjMat p = D) ∧
    (D = M ↔ ¬ ∃ p, IsPath g M j k p) := by
  have hMpos : 0 < M := by
    have := hsimple j j [j] (IsPath.single hj) (List.nodup_singleton j)
    simpa [pathWeight] using this
  have hnn' : ∀ r ∈ vertices g, ∀ c ∈ vertices g, 0 ≤ g.adjMat.cell r c := by
    intro a ha b hb
    rcases hcells a b ((mem_vertices g a).mp ha) ((mem_vertices g b).mp hb) with h | h
    · exact h
    · rw [h]; exact le_of_lt hMpos
  have hjv := (mem_vertices g j).mpr hj
  have hkv := (mem_vertices g k).mpr hk
  have hle_adj : D ≤ g.adjMat.cell j k := hc [] (by simp)
  have hlow : ∀ p, IsPath g M j k p → D ≤ pathWeight g.adjMat p := by
    intro p hp
    rcases hp.cases with ⟨rfl, rfl⟩ | ⟨l, rfl⟩
    · have := hdiag j hj
      simp only [pathWeight]
      linarith
    · rw [pathWeight_eq_walkWeight]
      apply hc l
      intro u hu
      exact (mem_vertices g u).mpr (hp.2.2.1 u (by simp [hu]))
  have hlt : (∃ p, IsPath g M j k p) → D < M := by
    rintro ⟨p, hp⟩
    obtain ⟨q, hq, hnd⟩ := IsPath.exists_simple p hp
    exact lt_of_le_of_lt (hlow q hq) (hsimple j k q hq hnd)
  have hatt : D < M → ∃ p, IsPath g M j k p ∧ pathWeight g.adjMat p = D := by
    intro hDM
    obtain ⟨l, hl, he⟩ := hs
    have hch := chain_of_walkWeight_lt hnn' l j hjv k hkv hl (he ▸ hDM)
    refine ⟨j :: (l ++ [k]),
      IsPath.ofWalk hj hk (fun u hu => (mem_vertices g u).mp (hl u hu)) hch, ?_⟩
    rw [pathWeight_eq_walkWeight, he]
  have hleM : D ≤ M := by
    by_cases hjk : j = k
    · subst hjk
      have := hdiag j hj
      linarith
    · by_cases ha : g.adjMat.cell j k = M
      · linarith
      · have hp : IsPath g M j k [j, k] :=
          ⟨rfl, rfl, by simp only [List.mem_cons, List.mem_singleton, List.not_mem_nil, or_false]
                        rintro v (rfl | rfl)
                        · exact hj
                        · exact hk,
            List.chain'_pair.mpr ha⟩
        have := hsimple j k [j, k] hp (by simp [hjk])
        simp only [pathWeight] at this
        linarith
  refine ⟨hlow, fun h => hatt (hlt h), ?_⟩
  constructor
  · intro hDM hex
    have := hlt hex
    linarith
  · intro hno
    by_contra hne
    have hDlt : D < M := lt_of_le_of_ne hleM hne
    obtain ⟨p, hp, _⟩ := hatt hDlt
    exact hno ⟨p, hp⟩

/-- Dijkstra on an adjacency matrix with min index at least 1, nonnegative cells, a
zero diagonal, row and column 0 holding `M`, and simple paths lighter than `M`. -/
theorem dijkstra_shortest_matrix (M : Distance) (g : TopologicalGraph)
    (hmin : 1 ≤ g.minVertexIndex)
    (hnn : ∀ j k, InRange g j → InRange g k → 0 ≤ g.adjMat.cell j k)
    (hdiag : ∀ v, InRange g v → g.adjMat.cell v v = 0)
    (hcol : ∀ v, InRange g v → g.adjMat.cell v 0 = M)
    (hrow : ∀ v, InRange g v → g.adjMat.cell 0 v = M)
    (hsimple : ∀ j k p, IsPath g M j k p → p.Nodup → pathWeight g.adjMat p < M)
    (j k : Nat) (hj : InRange g j) (hk : InRange g k) :
    (∀ p, IsPath g M j k p →
      (getShortestPathByDijkstra g).shortestDist.cell j k ≤ pathWeight g.adjMat p) ∧
    ((∃ p, IsPath g M j k p) → ∃ p, IsPath g M j k p ∧
      pathWeight g.adjMat p = (getShortestPathByDijkstra g).shortestDist.cell j k) ∧
    ((getShortestPathByDijkstra g).shortestDist.cell j k = M ↔ ¬ ∃ p, IsPath g M j k p) := by
  have hMpos : 0 < M := by
    have := hsimple j j [j] (IsPath.single hj) (List.nodup_singleton j)
    simpa [pathWeight] using this
  have hw : ∀ a b, InRange g a → InRange g b →
      0 ≤ g.adjMat.cell a b ∧ g.adjMat.cell a b ≤ M := by
    intro a b ha hb
    refine ⟨hnn a b ha hb, ?_⟩
    by_cases hab : a = b
    · subst hab
      rw [hdiag a ha]
      exact le_of_lt hMpos
    · by_cases hc : g.adjMat.cell a b = M
      · exact le_of_eq hc
      · have hp : IsPath g M a b [a, b] :=
          ⟨rfl, rfl, by simp only [List.mem_cons, List.mem_singleton, List.not_mem_nil, or_false]
                        rintro v (rfl | rfl)
                        · exact ha
                        · exact hb,
            List.chain'_pair.mpr hc⟩
        have := hsimple a b [a, b] hp (by simp [hab])
        simp only [pathWeight] at this
        linarith
  rw [solvers_agree_on_matrix M g hmin hw hdiag hcol hrow j k hj hk]
  obtain ⟨hs, hc⟩ := floydLoops_spec (noNegativeCycle_of_nonneg
    (fun r hr c hc => hnn r c ((mem_vertices g r).mp hr) ((mem_vertices g c).mp hc)))
  exact shortest_of_walk_bounds M g hdiag (fun a b ha hb => Or.inl (hnn a b ha hb)) hsimple
    j k hj hk _ (hs j ((mem_vertices g j).mpr hj) k ((mem_vertices g k).mpr hk))
    (hc j ((mem_vertices g j).mpr hj) k ((mem_vertices g k).mpr hk))

/-- The cells of an edge-list adjacency matrix with min index at least 1, arc ids in the
valid range, nonnegative weights and no self-loop arc of nonzero weight: nonnegative,
zero on the diagonal of the valid range, `M` in row 0 and column 0. -/
theorem edge_list_cells_nonneg (M : Distance) (hM : 0 ≤ M) (vn mvi : Nat) (hmin : 1 ≤ mvi)
    (arcList : ArcList) (adj : DistanceMatrix)
    (hids : ArcsInRange arcList vn mvi)
    (hw : ∀ a ∈ arcList, 0 ≤ a.dist)
    (hloop : ∀ a ∈ arcList, a.startVertex = a.endVertex → a.dist = 0)
    (horigin : ∀ r c, adj.cell r c = (TopologicalGraph.new M vn mvi).adjMat.cell r c ∨
      ∃ a ∈ arcList, ((a.startVertex = r ∧ a.endVertex = c) ∨
        (a.endVertex = r ∧ a.startVertex = c)) ∧ adj.cell r c = a.dist) :
    (∀ j k, (mvi ≤ j ∧ j < mvi + vn) → (mvi ≤ k ∧ k < mvi + vn) → 0 ≤ adj.cell j k) ∧
    (∀ v, (mvi ≤ v ∧ v < mvi + vn) → adj.cell v v = 0) ∧
    (∀ v, (mvi ≤ v ∧ v < mvi + vn) → adj.cell v 0 = M) ∧
    (∀ v, (mvi ≤ v ∧ v < mvi + vn) → adj.cell 0 v = M) := by
  refine ⟨?_, ?_, ?_, ?_⟩
  · intro j k _ _
    rcases horigin j k with h | ⟨a, ha, _, h⟩
    · rw [h, new_adjMat_cell]
      split
      · exact le_rfl
      · exact hM
    · rw [h]; exact hw a ha
  · intro v hv
    rcases horigin v v with h | ⟨a, ha, hends, h⟩
    · rw [h, new_adjMat_cell, if_pos ⟨rfl, List.mem_range'_1.mpr hv⟩]
    · rw [h]
      apply hloop a ha
      rcases hends with ⟨h1, h2⟩ | ⟨h1, h2⟩
      · rw [h1, h2]
      · rw [h1, h2]
  · intro v hv
    rcases horigin v 0 with h | ⟨a, ha, hends, _⟩
    · rw [h, new_adjMat_cell, if_neg]
      rintro ⟨h1, _⟩
      omega
    · have := hids a ha
      rcases hends with ⟨_, h2⟩ | ⟨_, h2⟩ <;> omega
  · intro v hv
    rcases horigin 0 v with h | ⟨a, ha, hends, _⟩
    · rw [h, new_adjMat_cell, if_neg]
      rintro ⟨h1, _⟩
      omega
    · have := hids a ha
      rcases hends with ⟨h1, _⟩ | ⟨h1, _⟩ <;> omega

/-- C18 (amended). For a graph `g` built by an edge-list constructor, undirected or
directed, with min index at least 1, arc ids in the valid range, nonnegative weights,
no self-loop arc of nonzero weight and every simple-path sum below `MAX_DISTANCE`,
`getShortestPathByDijkstra` leaves in `shortestDist[j][k]`, for `j`, `k` in the valid
range, the minimum total weight over the paths from `j` to `k`: a lower bound of every
path weight, attained by a path when one exists, and `MAX_DISTANCE` exactly when no
path exists. -/
theorem dijkstra_computes_shortest_paths (M : Distance) (arcList : ArcList) (vn mvi : Nat)
    (g : TopologicalGraph)
    (hg : g = UndirectedGraph M arcList vn mvi ∨ g = DirectedGraph M arcList vn mvi)
    (hmin : 1 ≤ mvi)
    (hids : ArcsInRange arcList vn mvi)
    (hw : ∀ a ∈ arcList, 0 ≤ a.dist)
    (hloop : ∀ a ∈ arcList, a.startVertex = a.endVertex → a.dist = 0)
    (hsimple : ∀ j k p, IsPath g M j k p → p.Nodup → pathWeight g.adjMat p < M)
    (j k : Nat) (hj : InRange g j) (hk : InRange g k) :
    (∀ p, IsPath g M j k p →
      (getShortestPathByDijkstra g).shortestDist.cell j k ≤ pathWeight g.adjMat p) ∧
    ((∃ p, IsPath g M j k p) → ∃ p, IsPath g M j k p ∧
      pathWeight g.adjMat p = (getShortestPathByDijkstra g).shortestDist.cell j k) ∧
    ((getShortestPathByDijkstra g).shortestDist.cell j k = M ↔ ¬ ∃ p, IsPath g M j k p) := by
  have hM : 0 ≤ M := by
    have := hsimple j j [j] (IsPath.single hj) (List.nodup_singleton j)
    simp only [pathWeight] at this
    exact le_of_lt this
  rcases hg with rfl | rfl
  · obtain ⟨h1, h2, h3, h4⟩ := edge_list_cells_nonneg M hM vn mvi hmin arcList
      (UndirectedGraph M arcList vn mvi).adjMat hids hw hloop
      (fun r c => undirected_cell_origin arcList _ r c)
    exact dijkstra_shortest_matrix M (UndirectedGraph M arcList vn mvi) hmin h1 h2 h3 h4
      hsimple j k hj hk
  · obtain ⟨h1, h2, h3, h4⟩ := edge_list_cells_nonneg M hM vn mvi hmin arcList
      (DirectedGraph M arcList vn mvi).adjMat hids hw hloop
      (fun r c => by
        rcases directed_cell_origin arcList (TopologicalGraph.new M vn mvi).adjMat r c with
          h | ⟨a, ha, e1, e2, e3⟩
        · exact Or.inl h
        · exact Or.inr ⟨a, ha, Or.inl ⟨e1, e2⟩, e3⟩)
    exact dijkstra_shortest_matrix M (DirectedGraph M arcList vn mvi) hmin h1 h2 h3 h4
      hsimple j k hj hk

set_option maxRecDepth 100000 in
/-- Witness of C18 (amended): with min index 1 on the undirected arcs (1,2,5) and
(2,3,3), Dijkstra leaves `shortestDist[1][3] = 8`, a lower bound of the weight of
every path from 1 to 3 and the weight of one of them. -/
theorem dijkstra_computes_shortest_paths_witness :
    (getShortestPathByDijkstra
      (UndirectedGraph 1000 [⟨1, 2, 5⟩, ⟨2, 3, 3⟩] 3 1)).shortestDist.cell 1 3 = 8 ∧
    (∀ p, IsPath (UndirectedGraph 1000 [⟨1, 2, 5⟩, ⟨2, 3, 3⟩] 3 1) 1000 1 3 p →
      8 ≤ pathWeight (UndirectedGraph 1000 [⟨1, 2, 5⟩, ⟨2, 3, 3⟩] 3 1).adjMat p) ∧
    ((getShortestPathByDijkstra
      (UndirectedGraph 1000 [⟨1, 2, 5⟩, ⟨2, 3, 3⟩] 3 1)).shortestDist.cell 1 3 = 1000 ↔
      ¬ ∃ p, IsPath (UndirectedGraph 1000 [⟨1, 2, 5⟩, ⟨2, 3, 3⟩] 3 1) 1000 1 3 p) := by
  have h := dijkstra_computes_shortest_paths 1000 [⟨1, 2, 5⟩, ⟨2, 3, 3⟩] 3 1
    (UndirectedGraph 1000 [⟨1, 2, 5⟩, ⟨2, 3, 3⟩] 3 1) (Or.inl rfl)
    (by decide) (by decide) (by decide) (by decide)
    (simple_path_bound 5 (by decide) (forall_inRange2_of_vertices (by decide))
      (by decide))
    1 3 (by decide) (by decide)
  have e : (getShortestPathByDijkstra
      (UndirectedGraph 1000 [⟨1, 2, 5⟩, ⟨2, 3, 3⟩] 3 1)).shortestDist.cell 1 3 = 8 := by
    decide
  rw [e] at h
  exact ⟨e, h.1, h.2.2⟩

set_option maxRecDepth 100000 in
/-- C18 fails as stated: the directed arcs (1,1,6), (1,2,1), (2,1,1) on the vertices
1, 2 with min index 1 have ids in range, nonnegative weights and simple-path sums
below `MAX_DISTANCE = 1000`, the one-vertex path from 1 to 1 weighs 0 and the path
1, 2, 1 weighs 2, yet Dijkstra, which never updates the start vertex, leaves
`shortestDist[1][1] = 6`. -/
theorem dijkstra_self_loop_counterexample :
    ArcsInRange [⟨1, 1, 6⟩, ⟨1, 2, 1⟩, ⟨2, 1, 1⟩] 2 1 ∧
    (∀ a ∈ ([⟨1, 1, 6⟩, ⟨1, 2, 1⟩, ⟨2, 1, 1⟩] : ArcList), 0 ≤ a.dist) ∧
    (∀ j k p, IsPath (DirectedGraph 1000 [⟨1, 1, 6⟩, ⟨1, 2, 1⟩, ⟨2, 1, 1⟩] 2 1) 1000 j k p →
      p.Nodup →
      pathWeight (DirectedGraph 1000 [⟨1, 1, 6⟩, ⟨1, 2, 1⟩, ⟨2, 1, 1⟩] 2 1).adjMat p < 1000) ∧
    IsPath (DirectedGraph 1000 [⟨1, 1, 6⟩, ⟨1, 2, 1⟩, ⟨2, 1, 1⟩] 2 1) 1000 1 1 [1] ∧
    pathWeight (DirectedGraph 1000 [⟨1, 1, 6⟩, ⟨1, 2, 1⟩, ⟨2, 1, 1⟩] 2 1).adjMat [1] = 0 ∧
    IsPath (DirectedGraph 1000 [⟨1, 1, 6⟩, ⟨1, 2, 1⟩, ⟨2, 1, 1⟩] 2 1) 1000 1 1 [1, 2, 1] ∧
    pathWeight (DirectedGraph 1000 [⟨1, 1, 6⟩, ⟨1, 2, 1⟩, ⟨2, 1, 1⟩] 2 1).adjMat [1, 2, 1]
      = 2 ∧
    (getShortestPathByDijkstra
      (DirectedGraph 1000 [⟨1, 1, 6⟩, ⟨1, 2, 1⟩, ⟨2, 1, 1⟩] 2 1)).shortestDist.cell 1 1 = 6 ∧
    ¬ ((getShortestPathByDijkstra
      (DirectedGraph 1000 [⟨1, 1, 6⟩, ⟨1, 2, 1⟩, ⟨2, 1, 1⟩] 2 1)).shortestDist.cell 1 1 ≤
      pathWeight (DirectedGraph 1000 [⟨1, 1, 6⟩, ⟨1, 2, 1⟩, ⟨2, 1, 1⟩] 2 1).adjMat
        [1, 2, 1]) :=
  ⟨by decide, by decide,
    simple_path_bound 6 (by decide) (forall_inRange2_of_vertices (by decide)) (by decide),
    IsPath.single (by decide), by decide,
    ⟨rfl, rfl, by decide,
      List.Chain'.cons (by decide) (List.Chain'.cons (by decide) (List.chain'_singleton _))⟩,
    by decide, by decide, by decide⟩

/-! ## The radius count as a function of the radius -/

theorem takeWhile_length_mono {p q : Nat → Bool} (hpq : ∀ x, p x = true → q x = true) :
    ∀ l : List Nat, (l.takeWhile p).length ≤ (l.takeWhile q).length := by
  intro l
  induction l with
  | nil => exact le_rfl
  | cons x l ih =>
    rw [List.takeWhile_cons, List.takeWhile_cons]
    by_cases hp : p x = true
    · rw [if_pos hp, if_pos (hpq x hp)]
      exact Nat.succ_le_succ ih
    · rw [if_neg hp]
      exact Nat.zero_le _

theorem takeWhile_length_eq_iff (p : Nat → Bool) (l : List Nat) :
    (l.takeWhile p).length = l.length ↔ ∀ x ∈ l, p x = true := by
  constructor
  · intro h
    exact List.takeWhile_eq_self_iff.mp
      ((List.takeWhile_prefix p).eq_of_length h)
  · intro h
    rw [List.takeWhile_eq_self_iff.mpr h]

/-- C21. In a state with a solved ranking reached from a constructor, for every start
vertex `v`: `findVertexNumWithinRadius( v, . )` is monotone in the radius; every result
lies between `minVertexIndex` and `maxVertexIndex + 1`, which is
`minVertexIndex + vertexNum`; and for `v` in the valid range the result is
`maxVertexIndex + 1` exactly when every valid vertex is at distance strictly below the
radius. -/
theorem findVertexNumWithinRadius_monotone_bounded (M : Distance)
    (sort : (Nat → Nat → Bool) → List Nat → List Nat) (hsort : StdSortSpec sort)
    (g : TopologicalGraph) (hg : Reachable M sort g) (hd : g.distSeqSolved = true)
    (v : Nat) :
    (∀ r1 r2 : Distance, r1 ≤ r2 →
      findVertexNumWithinRadius g v r1 ≤ findVertexNumWithinRadius g v r2) ∧
    (∀ r : Distance, g.minVertexIndex ≤ findVertexNumWithinRadius g v r ∧
      findVertexNumWithinRadius g v r ≤ g.minVertexIndex + g.vertexNum) ∧
    (InRange g v → ∀ r : Distance,
      (findVertexNumWithinRadius g v r = g.minVertexIndex + g.vertexNum ↔
        ∀ u, InRange g u → distance g v u < r)) := by
  refine ⟨?_, ?_, ?_⟩
  · intro r1 r2 h12
    rw [findVertexNumWithinRadius_run, findVertexNumWithinRadius_run]
    apply Nat.add_le_add_left
    apply takeWhile_length_mono
    intro x hx
    simp only [decide_eq_true_eq] at hx ⊢
    exact lt_of_lt_of_le hx h12
  · intro r
    rw [findVertexNumWithinRadius_run]
    have h1 : ((rankedRow g v).takeWhile (fun u => decide (distance g v u < r))).length ≤
        (rankedRow g v).length := (List.takeWhile_prefix _).length_le
    rw [rankedRow_length] at h1
    omega
  · intro hv r
    obtain ⟨hp, _⟩ := ranked_rows hsort (graphInv_reachable hsort hg) hd v hv
    have hiff := takeWhile_length_eq_iff (fun u => decide (distance g v u < r)) (rankedRow g v)
    rw [rankedRow_length] at hiff
    rw [findVertexNumWithinRadius_run]
    constructor
    · intro h u hu
      have hall := hiff.mp (by omega)
      have := hall u (hp.mem_iff.mpr ((mem_vertices g u).mpr hu))
      simpa using this
    · intro h
      have : ((rankedRow g v).takeWhile (fun u => decide (distance g v u < r))).length =
          g.vertexNum := by
        apply hiff.mpr
        intro x hx
        have hx' := (mem_vertices g x).mp (hp.mem_iff.mp hx)
        simpa using h x hx'
      omega

set_option maxRecDepth 100000 in
/-- Witness of C21: after `getDistSeqTable` on the undirected arcs (0,1,5), (1,2,3) the
distances from vertex 0 are 0, 5, 8; radius 6 gives 2, radius 9 gives 3, which is
`maxVertexIndex + 1`, and every vertex is within radius 9. -/
theorem findVertexNumWithinRadius_monotone_bounded_witness :
    findVertexNumWithinRadius
      (getDistSeqTable stableSort (UndirectedGraph 1000 [⟨0, 1, 5⟩, ⟨1, 2, 3⟩] 3 0)) 0 6 ≤
    findVertexNumWithinRadius
      (getDistSeqTable stableSort (UndirectedGraph 1000 [⟨0, 1, 5⟩, ⟨1, 2, 3⟩] 3 0)) 0 9 ∧
    findVertexNumWithinRadius
      (getDistSeqTable stableSort (UndirectedGraph 1000 [⟨0, 1, 5⟩, ⟨1, 2, 3⟩] 3 0)) 0 6 = 2 ∧
    findVertexNumWithinRadius
      (getDistSeqTable stableSort (UndirectedGraph 1000 [⟨0, 1, 5⟩, ⟨1, 2, 3⟩] 3 0)) 0 9 = 3 ∧
    ∀ u, InRange (getDistSeqTable stableSort
        (UndirectedGraph 1000 [⟨0, 1, 5⟩, ⟨1, 2, 3⟩] 3 0)) u →
      distance (getDistSeqTable stableSort
        (UndirectedGraph 1000 [⟨0, 1, 5⟩, ⟨1, 2, 3⟩] 3 0)) 0 u < 9 := by
  have h := findVertexNumWithinRadius_monotone_bounded 1000 stableSort stableSort_spec
    (getDistSeqTable stableSort (UndirectedGraph 1000 [⟨0, 1, 5⟩, ⟨1, 2, 3⟩] 3 0))
    (Reachable.distSeqTable (Reachable.init (Constructed.undirected _ 3 0 (by decide))))
    (getDistSeqTable_distSeqSolved _ _) 0
  exact ⟨h.1 6 9 (by decide), by decide, by decide, (h.2.2 (by decide) 9).mp (by decide)⟩

end Graph
